import Mathlib

/-!
# Verification of the BTreePMACC7 packed-memory array

A shallow embedding of `src/pma/btree/btreepmacc7.cpp`: a Packed Memory
Array (PMA) of 64-bit integer key/value pairs wrapped by a static
separator index.  Machine integers are modelled as `Int` (no operation
below relies on wrap-around; signed overflow is undefined behaviour in
the source) and `size_t`/`uint16_t` quantities as `ℕ`.  The raw arrays
`m_keys`, `m_values`, `m_segment_sizes` are modelled as total functions
from positions; positions outside the allocated range are never read by
the algorithms on well-formed states, mirroring the C++ memory model
where such reads would be undefined.

Floating-point densities are modelled over `ℚ`: the source compares
`density = num_elements / (window_length * segment_capacity)` against
threshold constants; all quantities involved are small integers divided
by small integers, far from the region where `double` rounding could
flip a comparison against the thresholds used here.

Components of the repository whose code is not under `src/` (the static
B+-tree separator index, the density-threshold calibrator, `hyperceil`,
the OS page size and the rewired-memory facility) are modelled from the
specification; each such definition carries a doc comment starting with
`Modelled from the spec:`.
-/

/-- Structural (fuel-driven) binary logarithm, agreeing with
`Nat.log2`: the fuel `n` always suffices since `n` halves each step. -/
def log2_go : ℕ → ℕ → ℕ
  | 0, _ => 0
  | fuel + 1, n => if n ≥ 2 then log2_go fuel (n / 2) + 1 else 0

/-- `log2(n)` as used for `m_height`; `n` is always a power of two. -/
def nat_log2 (n : ℕ) : ℕ := log2_go n n

/-- Structural helper for `hyperceil`: double `acc` until it reaches
`n` (the fuel `n` always suffices, as `2^n ≥ n`). -/
def hyperceil_go : ℕ → ℕ → ℕ → ℕ
  | 0, _, acc => acc
  | fuel + 1, n, acc => if n ≤ acc then acc else hyperceil_go fuel n (2 * acc)

/-- Modelled from the spec: `hyperceil(n)` — the smallest power of two
that is greater than or equal to `n` (from `miscellaneous.hpp`, which is
not under `src/`; the glossary of the specification defines it). -/
def hyperceil (n : ℕ) : ℕ := hyperceil_go n n 1

namespace DensityBounds

/-- Modelled from the spec: lower density threshold at the leaves
(`ρ` for height 1), "a low floor (e.g., 0.08)". -/
def lower_threshold_leaves : ℚ := 2 / 25

/-- Modelled from the spec: lower density threshold at the root,
"a tighter band (e.g., 0.30 / 0.75)". -/
def lower_threshold_root : ℚ := 3 / 10

/-- Modelled from the spec: upper density threshold at the root. -/
def get_upper_threshold_root : ℚ := 3 / 4

/-- Modelled from the spec: upper density threshold at the leaves,
"high ceiling (e.g., 0.92)". -/
def get_upper_threshold_leaves : ℚ := 23 / 25

/-- Modelled from the spec: `thresholds(tree_height, node_height)`
returns the pair `(ρ_h, τ_h)`; "Intermediate levels interpolate
linearly between these endpoints"; leaves are `node_height = 1`, the
root is `node_height = tree_height`.  With `f = (h-1)/(H-1)`,
`ρ_h = 2/25 + (3/10 - 2/25)·f = (4(H-1) + 11(h-1)) / (50(H-1))` and
`τ_h = 23/25 - (23/25 - 3/4)·f = (92(H-1) - 17(h-1)) / (100(H-1))`
(the rationals are built with `mkRat` from these integer forms). -/
def thresholds (tree_height node_height : ℕ) : ℚ × ℚ :=
  if tree_height ≤ 1 then
    (lower_threshold_leaves, get_upper_threshold_leaves)
  else
    (mkRat (4 * (tree_height - 1) + 11 * (node_height - 1)) (50 * (tree_height - 1)),
     mkRat ((92 * (tree_height - 1) : ℤ) - 17 * (node_height - 1)) (100 * (tree_height - 1)))

end DensityBounds

/-- Modelled from the spec: the static separator index (§4.3), an opaque
ordered map from segment ids to the minimum key of the segment.  It
records its number of segments (`rebuild(S)` resets it to `S` segments
with undefined contents, modelled as `0`). -/
structure StaticIndex where
  n : ℕ
  seps : ℕ → Int

namespace StaticIndex

/-- Modelled from the spec: `set_separator_key(segment_id, key)` records
the minimum key for `segment_id`. -/
def set_separator_key (I : StaticIndex) (segment_id : ℕ) (key : Int) : StaticIndex :=
  { I with seps := fun j => if j = segment_id then key else I.seps j }

/-- Modelled from the spec: `rebuild(S)` resets the index to `S`
segments, contents undefined until set (modelled as `0`). -/
def rebuild (_I : StaticIndex) (S : ℕ) : StaticIndex :=
  { n := S, seps := fun _ => 0 }

/-- Modelled from the spec: `find(key)` returns the unique segment whose
separator is `≤ key` with the next separator `> key` (or the last such
segment), and `0` for keys below the minimum.  Realised as the largest
segment id whose separator is `≤ key`, defaulting to `0`. -/
def find (I : StaticIndex) (key : Int) : ℕ :=
  (List.range I.n).foldl (fun acc s => if I.seps s ≤ key then s else acc) 0

/-- Modelled from the spec: `find_first(key)` — the leftmost candidate
segment intersecting `[key, +∞)`.  With strictly increasing separators
(the invariant of well-formed states) this coincides with `find`. -/
def find_first (I : StaticIndex) (key : Int) : ℕ := I.find key

/-- Modelled from the spec: `find_last(key)` — the rightmost candidate
segment intersecting `(-∞, key]`.  With strictly increasing separators
this coincides with `find`. -/
def find_last (I : StaticIndex) (key : Int) : ℕ := I.find key

/-- Modelled from the spec: `get_separator_key(segment_id)`. -/
def get_separator_key (I : StaticIndex) (segment_id : ℕ) : Int := I.seps segment_id

end StaticIndex

/-- Storage state of the PMA (`class PMA` of the source).  `m_capacity`
and `m_height` are stored fields in the source but are always maintained
equal to `m_number_segments * m_segment_capacity` and
`log2(m_number_segments) + 1`; they are modelled as derived functions.
`pageSize` models the ambient OS page size (`get_memory_page_size()`),
and `hasRewired` whether `m_memory_keys != nullptr`, i.e. whether
`alloc_workspace` chose rewired memory for the element arrays. -/
structure PMA where
  m_segment_capacity : ℕ
  m_pages_per_extent : ℕ
  pageSize : ℕ
  hasRewired : Bool
  m_number_segments : ℕ
  m_keys : ℕ → Int
  m_values : ℕ → Int
  m_segment_sizes : ℕ → ℕ
  m_cardinality : ℕ

namespace PMA

/-- `m_capacity = m_number_segments * m_segment_capacity` (maintained by
every path of the source that updates either field). -/
def m_capacity (P : PMA) : ℕ := P.m_number_segments * P.m_segment_capacity

/-- `m_height = log2(m_number_segments) + 1` (maintained by every path
of the source; `m_number_segments` is always a power of two). -/
def m_height (P : PMA) : ℕ := nat_log2 P.m_number_segments + 1

/-- Extent size in bytes: `m_pages_per_extent * get_memory_page_size()`
(`BufferedRewiredMemory::get_extent_size`). -/
def extent_size (P : PMA) : ℕ := P.m_pages_per_extent * P.pageSize

/-- The test `alloc_workspace` uses to decide between rewired memory and
`posix_memalign`: the byte size of the element arrays reaches one
extent. -/
def use_rewired_memory (segment_capacity pages_per_extent pageSize num_segments : ℕ) : Bool :=
  num_segments * segment_capacity * 8 ≥ pages_per_extent * pageSize

/-- `PMA::PMA(segment_size, pages_per_extent)` (lines 441–454): validates
the parameters in source order and allocates a one-segment workspace.
`sizeof(m_keys[0]) = sizeof(int64_t) = 8`.  Freshly allocated array
contents are undefined in the source and modelled as `0`; the sentinel
entry `sizes[1] = 0` is set explicitly. -/
def new (segment_size pages_per_extent pageSize : ℕ) : Except String PMA :=
  if hyperceil segment_size > 65535 then
    .error "segment size too big, maximum is 65535"
  else if hyperceil segment_size < 32 then
    .error "segment size too small, minimum is 32"
  else if hyperceil pages_per_extent ≠ pages_per_extent then
    .error "pages per extent must be a value from a power of 2"
  else if pageSize % (hyperceil segment_size * 8) ≠ 0 then
    .error "segment capacity must be a divisor of the virtual page size"
  else
    .ok { m_segment_capacity := hyperceil segment_size
          m_pages_per_extent := pages_per_extent
          pageSize := pageSize
          hasRewired := use_rewired_memory (hyperceil segment_size) pages_per_extent pageSize 1
          m_number_segments := 1
          m_keys := fun _ => 0
          m_values := fun _ => 0
          m_segment_sizes := fun _ => 0
          m_cardinality := 0 }

end PMA

/-- Read `n` consecutive cells of an array starting at `start` (the
source slice of a `memcpy`). -/
def readSlice (f : ℕ → Int) (start n : ℕ) : List Int :=
  (List.range n).map fun j => f (start + j)

/-- Overwrite the cells `start .. start + l.length` of an array with the
elements of `l` (the destination of a `memcpy`; the source slice is read
before the write, as in a non-overlapping `memcpy`). -/
def writeSlice (f : ℕ → Int) (start : ℕ) (l : List Int) : ℕ → Int :=
  fun p => if start ≤ p ∧ p < start + l.length then l.getD (p - start) 0 else f p

/-- Sum of `sizes` over the half-open range `[a, b)` of segments. -/
def sumSizes (sizes : ℕ → ℕ) (a b : ℕ) : ℕ :=
  ((List.range' a (b - a)).map sizes).sum

/-- The whole index: the PMA storage plus the static separator index
(`class BTreePMACC7` of the source). -/
structure BTreePMACC7 where
  m_index : StaticIndex
  m_storage : PMA

namespace BTreePMACC7

/-- `BTreePMACC7::BTreePMACC7(btree_block_size, pma_segment_size,
pages_per_extent)`: builds the storage and an index over one segment. -/
def new (pma_segment_size pages_per_extent pageSize : ℕ) : Except String BTreePMACC7 :=
  (PMA.new pma_segment_size pages_per_extent pageSize).map fun storage =>
    { m_index := { n := 1, seps := fun _ => 0 }, m_storage := storage }

/-- `BTreePMACC7::size()`. -/
def size (T : BTreePMACC7) : ℕ := T.m_storage.m_cardinality

/-- `BTreePMACC7::empty()`. -/
def empty (T : BTreePMACC7) : Bool := T.m_storage.m_cardinality = 0

/-- `BTreePMACC7::thresholds(node_height)` — delegates to the density
bounds with the current tree height. -/
def thresholds (T : BTreePMACC7) (height : ℕ) : ℚ × ℚ :=
  DensityBounds.thresholds T.m_storage.m_height height

/-- `BTreePMACC7::get_minimum(segment_id)` (lines 2909–2921): the first
key of the packed run of the segment. -/
def get_minimum (T : BTreePMACC7) (segment_id : ℕ) : Int :=
  let B := T.m_storage.m_segment_capacity
  if segment_id % 2 = 0 then
    T.m_storage.m_keys ((segment_id + 1) * B - T.m_storage.m_segment_sizes segment_id)
  else
    T.m_storage.m_keys (segment_id * B)

/-- `BTreePMACC7::find(key)` (lines 1523–1548): route through the index,
then linearly scan the packed run of the segment. -/
def find (T : BTreePMACC7) (key : Int) : Int :=
  if T.m_storage.m_cardinality = 0 then -1
  else
    let segment_id := T.m_index.find key
    let B := T.m_storage.m_segment_capacity
    let sz := T.m_storage.m_segment_sizes segment_id
    let base := segment_id * B
    let start := if segment_id % 2 = 0 then B - sz else 0
    let stop := if segment_id % 2 = 0 then B else sz
    match (List.range' start (stop - start)).find? (fun i => T.m_storage.m_keys (base + i) = key) with
    | some i => T.m_storage.m_values (base + i)
    | none => -1

/-- `BTreePMACC7::insert_empty(key, value)` (lines 622–632): place the
pair at position `B - 1` of segment 0. -/
def insert_empty (T : BTreePMACC7) (key value : Int) : BTreePMACC7 :=
  let B := T.m_storage.m_segment_capacity
  let pos := B - 1
  { m_index := T.m_index.set_separator_key 0 key
    m_storage := { T.m_storage with
      m_segment_sizes := fun i => if i = 0 then 1 else T.m_storage.m_segment_sizes i
      m_keys := fun p => if p = pos then key else T.m_storage.m_keys p
      m_values := fun p => if p = pos then value else T.m_storage.m_values p
      m_cardinality := 1 } }

/-- `BTreePMACC7::storage_insert_unsafe(segment_id, key, value)` (lines
652–702), named `storage_insert_raw` here: shift the larger keys of the
packed run towards the free space and place the new pair; returns
whether the inserted key became the segment minimum, and the updated
state.  For an even segment the `while` loop walks `i` from
`start = B - sz - 1` as long as `keys[i+1] < key`, so the final `i` is
`start` plus the length of the largest prefix of the run whose keys are
`< key`; the subsequent shifts move those elements one slot to the left
(right for odd segments). -/
def storage_insert_raw (T : BTreePMACC7) (segment_id : ℕ) (key value : Int) :
    Bool × BTreePMACC7 :=
  let B := T.m_storage.m_segment_capacity
  let base := segment_id * B
  let sz := T.m_storage.m_segment_sizes segment_id
  if segment_id % 2 = 0 then
    let start := B - sz - 1
    let m := ((List.range' (start + 1) (B - 1 - start)).takeWhile
      (fun p => T.m_storage.m_keys (base + p) < key)).length
    let i := start + m
    (m = 0,
     { m_index := T.m_index
       m_storage := { T.m_storage with
         m_keys := fun p =>
           if p = base + i then key
           else if base + start ≤ p ∧ p < base + i then T.m_storage.m_keys (p + 1)
           else T.m_storage.m_keys p
         m_values := fun p =>
           if p = base + i then value
           else if base + start ≤ p ∧ p < base + i then T.m_storage.m_values (p + 1)
           else T.m_storage.m_values p
         m_segment_sizes := fun j =>
           if j = segment_id then sz + 1 else T.m_storage.m_segment_sizes j
         m_cardinality := T.m_storage.m_cardinality + 1 } })
  else
    let m := (((List.range sz).reverse).takeWhile
      (fun p => key < T.m_storage.m_keys (base + p))).length
    let i := sz - m
    (i = 0,
     { m_index := T.m_index
       m_storage := { T.m_storage with
         m_keys := fun p =>
           if p = base + i then key
           else if base + i < p ∧ p ≤ base + sz then T.m_storage.m_keys (p - 1)
           else T.m_storage.m_keys p
         m_values := fun p =>
           if p = base + i then value
           else if base + i < p ∧ p ≤ base + sz then T.m_storage.m_values (p - 1)
           else T.m_storage.m_values p
         m_segment_sizes := fun j =>
           if j = segment_id then sz + 1 else T.m_storage.m_segment_sizes j
         m_cardinality := T.m_storage.m_cardinality + 1 } })

/-- `BTreePMACC7::spread_insert_unsafe` (lines 704–718), named
`spread_insert_raw` here and acting on the extracted source slice: copy
the elements smaller than `new_key`, place the new pair, `memcpy` the
rest.  The `m_cardinality++` of the source is accounted for by the
caller.  The insertion point is the first index whose key is not
`< new_key`. -/
def spread_insert_raw (keys_from values_from : List Int) (new_key new_value : Int) :
    List Int × List Int :=
  let i := keys_from.findIdx fun x => decide (new_key ≤ x)
  (keys_from.take i ++ new_key :: keys_from.drop i,
   values_from.take i ++ new_value :: values_from.drop i)

end BTreePMACC7

/-- The `spread_insert` record of the source (btreepmacc7.hpp): the
pending element of a spread triggered by an insertion, with the segment
where the element was meant to be placed. -/
structure spread_insert where
  m_key : Int
  m_value : Int
  m_segment_id : ℕ

namespace BTreePMACC7

/-- Does the pair of window-relative segments `(oid, oid + 1)` contain
the pending insert?  The source compares the window-relative
`insert_segment_id = spread_insertion->m_segment_id - segment_start`
(an `int64_t`, `-1` when there is no pending insert). -/
def stc_ins_here (segment_start : ℕ) (si : Option spread_insert) (oid : Int) : Bool :=
  match si with
  | none => oid = -1 ∨ oid + 1 = -1
  | some s => (s.m_segment_id : Int) - (segment_start : ℤ) = oid ∨
              (s.m_segment_id : Int) - (segment_start : ℤ) = oid + 1

/-- Phase 1a of `spread_two_copies` (lines 1322–1352): walk segment
pairs of the window right-to-left, copying up to four segments into the
`input_chunk2` buffer (the copies fill the buffer from its high end, so
the accumulated list keeps the pairs in window order).  Returns the next
pair to process, the buffer contents and whether the pending insert was
spliced in.  `fuel` bounds the iteration count (the loop runs at most
twice: `input_chunk2_segments_copied` steps by 2 up to 4). -/
def stc_chunk2_loop (T : BTreePMACC7) (segment_start : ℕ) (si : Option spread_insert) :
    ℕ → Int → ℕ → List Int → List Int → Bool → Int × List Int × List Int × Bool
  | 0, oid, _, accK, accV, did => (oid, accK, accV, did)
  | fuel + 1, oid, copied, accK, accV, did =>
    if oid < 0 ∨ ¬ copied < 4 then (oid, accK, accV, did)
    else
      let B := T.m_storage.m_segment_capacity
      let o := oid.toNat
      let szl := T.m_storage.m_segment_sizes (segment_start + o)
      let szr := T.m_storage.m_segment_sizes (segment_start + o + 1)
      let output_start := (o + 1) * B - szl
      let e2c := szl + szr
      let srcK := readSlice T.m_storage.m_keys (segment_start * B + output_start) e2c
      let srcV := readSlice T.m_storage.m_values (segment_start * B + output_start) e2c
      if stc_ins_here segment_start si oid then
        let s := si.getD ⟨0, 0, 0⟩
        let (insK, insV) := spread_insert_raw srcK srcV s.m_key s.m_value
        stc_chunk2_loop T segment_start si fuel (oid - 2) (copied + 2)
          (insK ++ accK) (insV ++ accV) true
      else
        stc_chunk2_loop T segment_start si fuel (oid - 2) (copied + 2)
          (srcK ++ accK) (srcV ++ accV) did

/-- Phase 1b of `spread_two_copies` (lines 1359–1380): compact the
remaining pairs towards the end of the window in place
(`input_chunk1`).  Each `memcpy`/`spread_insert_unsafe` call reads its
source slice from the current array state and writes it below the
running cursor `cur` (`input_chunk1_current`).  Returns the updated
arrays, the final cursor and whether the pending insert was spliced. -/
def stc_chunk1_loop (B segment_start : ℕ) (sizes : ℕ → ℕ) (si : Option spread_insert) :
    ℕ → Int → ℕ → (ℕ → Int) → (ℕ → Int) → Bool → (ℕ → Int) × (ℕ → Int) × ℕ × Bool
  | 0, _, cur, ks, vs, did => (ks, vs, cur, did)
  | fuel + 1, oid, cur, ks, vs, did =>
    if oid < 0 then (ks, vs, cur, did)
    else
      let o := oid.toNat
      let szl := sizes (segment_start + o)
      let szr := sizes (segment_start + o + 1)
      let output_start := (o + 1) * B - szl
      let e2c := szl + szr
      let srcK := readSlice ks (segment_start * B + output_start) e2c
      let srcV := readSlice vs (segment_start * B + output_start) e2c
      if stc_ins_here segment_start si oid then
        let s := si.getD ⟨0, 0, 0⟩
        let (insK, insV) := spread_insert_raw srcK srcV s.m_key s.m_value
        stc_chunk1_loop B segment_start sizes si fuel (oid - 2) (cur - e2c - 1)
          (writeSlice ks (segment_start * B + cur - e2c - 1) insK)
          (writeSlice vs (segment_start * B + cur - e2c - 1) insV) true
      else
        stc_chunk1_loop B segment_start sizes si fuel (oid - 2) (cur - e2c)
          (writeSlice ks (segment_start * B + cur - e2c) srcK)
          (writeSlice vs (segment_start * B + cur - e2c) srcV) did

/-- Phase 4 of `spread_two_copies` (lines 1410–1438): walk the segment
pairs left to right, draining the concatenated input stream (chunk 1
then chunk 2) into the packed layout of each pair, then update the two
separator keys from the just-written array. -/
def stc_phase4_loop (B segment_start num_segments : ℕ) (sizes' : ℕ → ℕ)
    (streamK streamV : List Int) :
    ℕ → ℕ → ℕ → (ℕ → Int) → (ℕ → Int) → StaticIndex →
    (ℕ → Int) × (ℕ → Int) × StaticIndex
  | 0, _, _, ks, vs, idx => (ks, vs, idx)
  | fuel + 1, i, consumed, ks, vs, idx =>
    if i < num_segments then
      let szl := sizes' (segment_start + i)
      let szr := sizes' (segment_start + i + 1)
      let output_start := (i + 1) * B - szl
      let need := szl + szr
      let abs := segment_start * B + output_start
      let ks' := writeSlice ks abs ((streamK.drop consumed).take need)
      let vs' := writeSlice vs abs ((streamV.drop consumed).take need)
      let idx' := (idx.set_separator_key (segment_start + i) (ks' abs)).set_separator_key
        (segment_start + i + 1) (ks' (abs + szl))
      stc_phase4_loop B segment_start num_segments sizes' streamK streamV fuel
        (i + 2) (consumed + need) ks' vs' idx'
    else (ks, vs, idx)

/-- `BTreePMACC7::spread_two_copies(cardinality, segment_start,
num_segments, spread_insertion)` (lines 1295–1439): compact the window
into two chunks (phase 1), set the target segment sizes (phase 2),
redistribute the stream into the packed layout and refresh the
separators (phases 3–4).  `cardinality` already counts the pending
insert; the `m_cardinality++` performed inside `spread_insert_unsafe`
is applied when a splice happened. -/
def spread_two_copies (T : BTreePMACC7) (cardinality segment_start num_segments : ℕ)
    (si : Option spread_insert) : BTreePMACC7 :=
  let B := T.m_storage.m_segment_capacity
  let ofs := segment_start * B
  let p2 :=
    stc_chunk2_loop T segment_start si (num_segments + 2) ((num_segments : Int) - 2) 0 [] [] false
  let p1 :=
    stc_chunk1_loop B segment_start T.m_storage.m_segment_sizes si (num_segments + 2)
      p2.1 (num_segments * B) T.m_storage.m_keys T.m_storage.m_values false
  let chunk1_current := p1.2.2.1
  let chunk1_size := num_segments * B - chunk1_current
  let elements_per_segment := cardinality / num_segments
  let num_odd_segments := cardinality % num_segments
  let sizes' : ℕ → ℕ := fun i =>
    if segment_start ≤ i ∧ i < segment_start + num_segments then
      elements_per_segment + (if i - segment_start < num_odd_segments then 1 else 0)
    else T.m_storage.m_segment_sizes i
  let streamK := readSlice p1.1 (ofs + chunk1_current) chunk1_size ++ p2.2.1
  let streamV := readSlice p1.2.1 (ofs + chunk1_current) chunk1_size ++ p2.2.2.1
  let p4 :=
    stc_phase4_loop B segment_start num_segments sizes' streamK streamV
      (num_segments + 2) 0 0 p1.1 p1.2.1 T.m_index
  { m_index := p4.2.2
    m_storage := { T.m_storage with
      m_keys := p4.1
      m_values := p4.2.1
      m_segment_sizes := sizes'
      m_cardinality := T.m_storage.m_cardinality + (if p1.2.2.2 || p2.2.2.2 then 1 else 0) } }

end BTreePMACC7

/-- One entry of `SpreadWithRewiring::m_extents_to_rewire`: a window
extent whose new contents sit in an acquired scratch buffer (modelled as
functions over `[0, segments_per_extent * B)`), waiting for
`swap_and_release`.  Modelled from the spec: the rewired-memory facility
(`buffered_rewired_memory.hpp`, not under `src/`) hands out spare
buffers in `acquire_buffer` and `swap_and_release(active, scratch)`
commits the scratch bytes to the active virtual address; functionally
this is a region copy at the commit point, and the number of
outstanding buffers (`get_used_buffers`) is the number of acquired but
not yet released buffers. -/
structure Extent2Rewire where
  m_extent_id : Int
  m_buffer_keys : ℕ → Int
  m_buffer_values : ℕ → Int

/-- The mutable state of a `SpreadWithRewiring` run: the live element
arrays, the read cursor `m_position` and the deque of extents to
rewire. -/
structure SWRState where
  keys : ℕ → Int
  values : ℕ → Int
  position : Int
  extents_to_rewire : List Extent2Rewire

namespace SpreadWithRewiring

/-- `SpreadWithRewiring::position2segment`. -/
def position2segment (B : ℕ) (position : Int) : Int := Int.fdiv position B

/-- `SpreadWithRewiring::position2extent` (relative to the window). -/
def position2extent (B ws spe : ℕ) (position : Int) : Int :=
  Int.fdiv (position2segment B (position - ws * B)) spe

/-- `SpreadWithRewiring::get_current_extent`. -/
def get_current_extent (B ws spe : ℕ) (st : SWRState) : Int :=
  position2extent B ws spe (st.position - 1)

/-- `SpreadWithRewiring::get_offset(relative_extent_id)`: start position
of the given window extent in the element arrays. -/
def get_offset (B ws spe : ℕ) (relative_extent_id : Int) : ℕ :=
  (ws * B + relative_extent_id * (spe * B)).toNat

/-- `SpreadWithRewiring::reclaim_past_extents` (lines 805–821): commit
(`swap_and_release`) every scheduled scratch buffer whose extent lies
strictly beyond the current read extent. -/
def reclaim_past_extents (B ws spe : ℕ) : ℕ → SWRState → SWRState
  | 0, st => st
  | fuel + 1, st =>
    match st.extents_to_rewire with
    | [] => st
    | e :: rest =>
      if e.m_extent_id > get_current_extent B ws spe st then
        let base := get_offset B ws spe e.m_extent_id
        reclaim_past_extents B ws spe fuel
          { st with
            keys := writeSlice st.keys base (readSlice e.m_buffer_keys 0 (spe * B))
            values := writeSlice st.values base (readSlice e.m_buffer_values 0 (spe * B))
            extents_to_rewire := rest }
      else st

/-- The inner `while(output_run_sz > 0)` loop of
`SpreadWithRewiring::spread_elements` (lines 853–878): repeatedly copy
the top of the current input run to the top of the remaining output
run, refilling the input run from the preceding even segment when it is
exhausted.  The destination is addressed relative to `destBase` (`0`
for a scratch buffer, the extent start for an in-place write); reads
are from the live `keys`/`values`.  Returns the updated destination
arrays and input cursor `(input_segment_id, input_displacement,
input_run_sz)`. -/
def swr_copy_loop (B ws : ℕ) (keys values : ℕ → Int) (sizes : ℕ → ℕ)
    (destBase outDisp : ℕ) :
    ℕ → ℕ → Int → Int → ℕ → (ℕ → Int) → (ℕ → Int) →
    ((ℕ → Int) × (ℕ → Int) × Int × Int × ℕ)
  | 0, _, isid, idisp, irun, dK, dV => (dK, dV, isid, idisp, irun)
  | fuel + 1, orun, isid, idisp, irun, dK, dV =>
    if orun = 0 then (dK, dV, isid, idisp, irun)
    else
      let e2c := min orun irun
      let srcK := readSlice keys ((idisp + (irun - e2c : ℕ)).toNat) e2c
      let srcV := readSlice values ((idisp + (irun - e2c : ℕ)).toNat) e2c
      let dK' := writeSlice dK (destBase + outDisp + (orun - e2c)) srcK
      let dV' := writeSlice dV (destBase + outDisp + (orun - e2c)) srcV
      let irun' := irun - e2c
      let orun' := orun - e2c
      if irun' = 0 then
        let isid' := isid - 2
        if isid' ≥ (ws : Int) then
          let s := isid'.toNat
          let irun'' := sizes s + sizes (s + 1)
          let idisp' : Int := s * B + B - sizes s
          swr_copy_loop B ws keys values sizes destBase outDisp fuel
            orun' isid' idisp' irun'' dK' dV'
        else
          swr_copy_loop B ws keys values sizes destBase outDisp fuel
            orun' isid' (ws * B) 0 dK' dV'
      else
        swr_copy_loop B ws keys values sizes destBase outDisp fuel
          orun' isid idisp irun' dK' dV'

/-- The outer `for(output_segment_id = spe - 2; ...; -= 2)` loop of
`spread_elements` (lines 843–883). -/
def swr_pair_loop (B ws spe : ℕ) (keys values : ℕ → Int) (sizes : ℕ → ℕ)
    (destBase eps odd : ℕ) :
    ℕ → Int → Int → Int → ℕ → (ℕ → Int) → (ℕ → Int) →
    ((ℕ → Int) × (ℕ → Int) × Int × Int × ℕ)
  | 0, _, isid, idisp, irun, dK, dV => (dK, dV, isid, idisp, irun)
  | fuel + 1, oid, isid, idisp, irun, dK, dV =>
    if oid < 0 then (dK, dV, isid, idisp, irun)
    else
      let o := oid.toNat
      let lhs := eps + (if oid < (odd : Int) then 1 else 0)
      let rhs := eps + (if oid + 1 < (odd : Int) then 1 else 0)
      let outDisp := o * B + (B - lhs)
      let c :=
        swr_copy_loop B ws keys values sizes destBase outDisp
          (lhs + rhs + 2) (lhs + rhs) isid idisp irun dK dV
      swr_pair_loop B ws spe keys values sizes destBase eps odd fuel
        (oid - 2) c.2.2.1 c.2.2.2.1 c.2.2.2.2 c.1 c.2.1

/-- `SpreadWithRewiring::spread_elements(destination, extent_id,
num_elements)` (lines 827–887): spread `num_elements` elements
right-to-left into the destination (scratch buffer or live extent) and
advance the read cursor.  The initial input run is the tail of the even
segment pair containing `m_position`. -/
def spread_elements (B ws spe : ℕ) (sizes : ℕ → ℕ) (st : SWRState)
    (destBase : ℕ) (dK dV : ℕ → Int) (num_elements : ℕ) :
    (ℕ → Int) × (ℕ → Int) × Int :=
  let eps := num_elements / spe
  let odd := num_elements % spe
  let isid : Int := (Int.tdiv (st.position - 1) (2 * B)) * 2
  let idisp : Int := isid * B + B - sizes isid.toNat
  let irun : ℕ := (st.position - idisp).toNat
  let c :=
    swr_pair_loop B ws spe st.keys st.values sizes destBase eps odd
      (spe + 2) ((spe : Int) - 2) isid idisp irun dK dV
  (c.1, c.2.1, c.2.2.2.1 + c.2.2.2.2)

/-- `SpreadWithRewiring::spread_extent(extent_id, num_elements)` (lines
889–908): write in place when the read cursor has moved past the
extent, otherwise acquire a scratch buffer to be rewired later; then
reclaim the extents now fully behind the cursor. -/
def spread_extent (B ws spe _wl : ℕ) (sizes : ℕ → ℕ) (st : SWRState)
    (extent_id : Int) (num_elements : ℕ) : SWRState :=
  let use_rewiring := get_current_extent B ws spe st ≥ extent_id
  let st' :=
    if ¬ use_rewiring then
      let base := get_offset B ws spe extent_id
      let c := spread_elements B ws spe sizes st base st.keys st.values num_elements
      { st with keys := c.1, values := c.2.1, position := c.2.2 }
    else
      let c :=
        spread_elements B ws spe sizes st 0 (fun _ => 0) (fun _ => 0) num_elements
      { st with
        position := c.2.2
        extents_to_rewire := st.extents_to_rewire ++ [⟨extent_id, c.1, c.2.1⟩] }
  reclaim_past_extents B ws spe (st'.extents_to_rewire.length + 1) st'

/-- The `for(i = num_extents - 1; i >= 0; i--)` loop of
`SpreadWithRewiring::spread_window` (lines 910–925). -/
def swr_window_loop (B ws spe wl : ℕ) (sizes : ℕ → ℕ) (eps odd : ℕ) :
    ℕ → Int → SWRState → SWRState
  | 0, _, st => st
  | fuel + 1, i, st =>
    if i < 0 then st
    else
      let st' := spread_extent B ws spe wl sizes st i (eps + (if i < (odd : Int) then 1 else 0))
      swr_window_loop B ws spe wl sizes eps odd fuel (i - 1) st'

/-- `SpreadWithRewiring::update_segment_sizes` (lines 927–947): the
window cardinality is divided over the extents (leftmost extents get
the remainder), then each extent's share over its segments (leftmost
segments get the remainder). -/
def update_segment_sizes (sizes : ℕ → ℕ) (ws wl spe cardinality : ℕ) : ℕ → ℕ :=
  let num_extents := wl / spe
  let eps := cardinality / num_extents
  let odd := cardinality % num_extents
  fun sid =>
    if ws ≤ sid ∧ sid < ws + wl then
      let i := (sid - ws) / spe
      let j := (sid - ws) % spe
      let extent_cardinality := eps + (if i < odd then 1 else 0)
      extent_cardinality / spe + (if j < extent_cardinality % spe then 1 else 0)
    else sizes sid

/-- `SpreadWithRewiring::update_index` (lines 960–986): refresh the
separators of the window from the new segment minima and, when a
pending insert exists, place it in front of the first segment whose
minimum exceeds it (or in the last segment of the window). -/
def update_index (ws wl : ℕ) :
    ℕ → ℕ → BTreePMACC7 → Option (Int × Int) → BTreePMACC7
  | 0, _, T, ins =>
    match ins with
    | some (k, v) => (T.storage_insert_raw (ws + wl - 1) k v).2
    | none => T
  | fuel + 1, i, T, ins =>
    if i < wl then
      let sid := ws + i
      let minimum := T.get_minimum sid
      match ins with
      | some (k, v) =>
        if k < minimum then
          if i > 0 then
            let T' := (T.storage_insert_raw (sid - 1) k v).2
            let T'' := { T' with m_index := T'.m_index.set_separator_key sid minimum }
            update_index ws wl fuel (i + 1) T'' none
          else
            let T' := (T.storage_insert_raw sid k v).2
            let T'' := { T' with m_index := T'.m_index.set_separator_key sid k }
            update_index ws wl fuel (i + 1) T'' none
        else
          update_index ws wl fuel (i + 1)
            { T with m_index := T.m_index.set_separator_key sid minimum } ins
      | none =>
        update_index ws wl fuel (i + 1)
          { T with m_index := T.m_index.set_separator_key sid minimum } none
    else
      match ins with
      | some (k, v) => (T.storage_insert_raw (ws + wl - 1) k v).2
      | none => T

/-- `SpreadWithRewiring::execute()` (lines 1020–1031) together with the
constructor (lines 989–995) and `set_start_position`: spread the window
extent by extent, update the segment sizes, then refresh the index and
insert the pending element.  `start_position` overrides the default
read cursor (used by the resize paths). -/
def execute (T : BTreePMACC7) (window_start window_length cardinality : ℕ)
    (ins : Option (Int × Int)) (start_position : Option ℕ) : BTreePMACC7 :=
  let B := T.m_storage.m_segment_capacity
  let spe := T.m_storage.extent_size / (B * 8)
  let window_end := window_start + window_length - 1
  let pos0 : Int := window_end * B + T.m_storage.m_segment_sizes window_end
  let st0 : SWRState :=
    { keys := T.m_storage.m_keys
      values := T.m_storage.m_values
      position := match start_position with | some p => (p : Int) | none => pos0
      extents_to_rewire := [] }
  let num_extents := window_length / spe
  let eps := cardinality / num_extents
  let odd := cardinality % num_extents
  let st1 := swr_window_loop B window_start spe window_length
    T.m_storage.m_segment_sizes eps odd (num_extents + 2) ((num_extents : Int) - 1) st0
  let sizes' := update_segment_sizes T.m_storage.m_segment_sizes
    window_start window_length spe cardinality
  let T1 : BTreePMACC7 :=
    { m_index := T.m_index
      m_storage := { T.m_storage with
        m_keys := st1.keys, m_values := st1.values, m_segment_sizes := sizes' } }
  update_index window_start window_length (window_length + 2) 0 T1 ins

end SpreadWithRewiring

namespace BTreePMACC7

/-- Advance of the input cursor in `resize_general` (lines 1231–1255):
move to the next old segment, skipping at most one empty segment
(`::remove()` may leave one); recompute the cursor position from the
segment parity.  Returns `(input_segment_id, input_size, position)`. -/
def rg_advance (ixSizes : ℕ → ℕ) (B oldNSegs : ℕ) (iseg isize ipos : ℕ) : ℕ × ℕ × ℕ :=
  let i1 := iseg + 1
  if i1 < oldNSegs then
    let s1 := ixSizes i1
    let (i2, s2) :=
      if s1 = 0 then (i1 + 1, if i1 + 1 < oldNSegs then ixSizes (i1 + 1) else 0)
      else (i1, s1)
    (i2, s2, i2 * B + (if i2 % 2 = 1 then 0 else B - s2))
  else (i1, isize, ipos)

/-- The inner `do { ... } while(elements_to_copy > 0)` loop of
`resize_general` (lines 1220–1258): copy `e2c` elements for one output
segment from the old arrays, advancing the input cursor across old
segments.  The body runs at least once (a `do`/`while`). -/
def rg_copy_loop (ixKeys ixValues : ℕ → Int) (ixSizes : ℕ → ℕ) (B oldNSegs : ℕ) :
    ℕ → ℕ → ℕ → ℕ → ℕ → ℕ → (ℕ → Int) → (ℕ → Int) →
    ((ℕ → Int) × (ℕ → Int) × ℕ × ℕ × ℕ × ℕ)
  | 0, _, opos, iseg, isize, ipos, ks, vs => (ks, vs, opos, iseg, isize, ipos)
  | fuel + 1, e2c, opos, iseg, isize, ipos, ks, vs =>
    let cpy1 := min e2c isize
    let ks' := writeSlice ks opos (readSlice ixKeys ipos cpy1)
    let vs' := writeSlice vs opos (readSlice ixValues ipos cpy1)
    let opos' := opos + cpy1
    let ipos' := ipos + cpy1
    let isize' := isize - cpy1
    let (iseg', isize'', ipos'') :=
      if isize' = 0 then rg_advance ixSizes B oldNSegs iseg isize' ipos'
      else (iseg, isize', ipos')
    let e2c' := e2c - cpy1
    if e2c' > 0 then
      rg_copy_loop ixKeys ixValues ixSizes B oldNSegs fuel e2c' opos' iseg' isize'' ipos'' ks' vs'
    else (ks', vs', opos', iseg', isize'', ipos'')

/-- The main `for(j = 0; j < num_segments; j++)` loop of
`resize_general` (lines 1207–1268): for each new segment, record its
size and separator, copy its share from the old arrays, and place the
pending insert as soon as its key is smaller than the last key written.
The state `T` carries the fresh arrays (already swapped into
`m_storage`, with `m_number_segments` still the old value, as in the
source). -/
def rg_main_loop (ixKeys ixValues : ℕ → Int) (ixSizes : ℕ → ℕ)
    (B oldNSegs num_segments eps odd : ℕ) :
    ℕ → ℕ → ℕ → ℕ → ℕ → BTreePMACC7 → Option (Int × Int) → BTreePMACC7
  | 0, _, _, _, _, T, _ => T
  | fuel + 1, j, iseg, isize, ipos, T, newkv =>
    if j < num_segments then
      let e2c := eps + (if j < odd then 1 else 0)
      let out_start := j * B + (if j % 2 = 1 then 0 else B - e2c)
      let T1 : BTreePMACC7 :=
        { m_index := T.m_index.set_separator_key j (ixKeys ipos)
          m_storage := { T.m_storage with
            m_segment_sizes := fun i =>
              if i = j then e2c else T.m_storage.m_segment_sizes i } }
      let (ks', vs', opos', iseg', isize', ipos') :=
        rg_copy_loop ixKeys ixValues ixSizes B oldNSegs (e2c + oldNSegs + 2)
          e2c out_start iseg isize ipos T1.m_storage.m_keys T1.m_storage.m_values
      let T2 : BTreePMACC7 :=
        { T1 with m_storage := { T1.m_storage with m_keys := ks', m_values := vs' } }
      match newkv with
      | some (k, v) =>
        if k < ks' (opos' - 1) then
          let (mn, T3) := T2.storage_insert_raw j k v
          let T4 := if mn then
              { T3 with m_index := T3.m_index.set_separator_key j k }
            else T3
          rg_main_loop ixKeys ixValues ixSizes B oldNSegs num_segments eps odd fuel
            (j + 1) iseg' isize' ipos' T4 none
        else
          rg_main_loop ixKeys ixValues ixSizes B oldNSegs num_segments eps odd fuel
            (j + 1) iseg' isize' ipos' T2 newkv
      | none =>
        rg_main_loop ixKeys ixValues ixSizes B oldNSegs num_segments eps odd fuel
          (j + 1) iseg' isize' ipos' T2 none
    else
      match newkv with
      | some (k, v) =>
        let (mn, T') := T.storage_insert_raw (num_segments - 1) k v
        if mn then { T' with m_index := T'.m_index.set_separator_key (num_segments - 1) k }
        else T'
      | none => T

/-- `BTreePMACC7::resize_general(new_key, new_value)` (lines 1158–1281):
double the capacity on insert (halve on delete), rebuild the index,
stream the old contents evenly into the new segments and place the
pending insert.  Freshly allocated arrays are modelled as `0`-filled
(contents undefined in the source). -/
def resize_general (T : BTreePMACC7) (newkv : Option (Int × Int)) : BTreePMACC7 :=
  let B := T.m_storage.m_segment_capacity
  let is_insert := newkv.isSome
  let capacity := if is_insert then T.m_storage.m_capacity * 2 else T.m_storage.m_capacity / 2
  let num_segments := capacity / B
  let eps := T.m_storage.m_cardinality / num_segments
  let odd := T.m_storage.m_cardinality % num_segments
  let ixKeys := T.m_storage.m_keys
  let ixValues := T.m_storage.m_values
  let ixSizes := T.m_storage.m_segment_sizes
  let oldNSegs := T.m_storage.m_number_segments
  let T0 : BTreePMACC7 :=
    { m_index := T.m_index.rebuild num_segments
      m_storage := { T.m_storage with
        m_keys := fun _ => 0
        m_values := fun _ => 0
        m_segment_sizes := fun _ => 0
        hasRewired := PMA.use_rewired_memory B T.m_storage.m_pages_per_extent
          T.m_storage.pageSize num_segments } }
  let (iseg0, isize0, ipos0) :=
    if ixSizes 0 = 0 then (1, ixSizes 1, B) else (0, ixSizes 0, B - ixSizes 0)
  let T' := rg_main_loop ixKeys ixValues ixSizes B oldNSegs num_segments eps odd
    (num_segments + 1) 0 iseg0 isize0 ipos0 T0 newkv
  { T' with m_storage := { T'.m_storage with m_number_segments := num_segments } }

/-- The `do { ... } while(...)` window search of
`BTreePMACC7::rebalance` (lines 1063–1095): climb the calibrator tree,
accumulating the element count of the doubling window (the source walks
`index_left`/`index_right` outwards; the accumulated interval is
exactly `[l, r)`, extended to the new window bounds at each level).
Returns `(num_elements, window_start, window_length, rho, theta,
density)`. -/
def rebalance_loop (sizes : ℕ → ℕ) (B H : ℕ) (is_insert : Bool) :
    ℕ → ℕ → ℕ → ℕ → ℕ → ℕ → ℕ → (ℕ × ℕ × ℕ × ℚ × ℚ × ℚ)
  | 0, _, _, wlen, _, _, num => (num, 0, wlen, 0, 1, 0)
  | fuel + 1, height, wid, wlen, l, r, num =>
    let height' := height + 1
    let wlen' := wlen * 2
    let wid' := wid / 2
    let ws := wid' * wlen'
    let we := ws + wlen'
    let (rho, theta) := DensityBounds.thresholds H height'
    let num' := num + sumSizes sizes ws l + sumSizes sizes r we
    let density : ℚ := mkRat num' (wlen' * B)
    if ((is_insert = true ∧ density > theta) ∨ (is_insert = false ∧ density < rho)) ∧ height' < H then
      rebalance_loop sizes B H is_insert fuel height' wid' wlen' ws we num'
    else (num', ws, wlen', rho, theta, density)

/-- The result of the window search of `BTreePMACC7::rebalance`:
`(num_elements, window_start, window_length, rho, theta, density)`,
starting from the single segment (`rho = 0`, `theta = 1`) and climbing
only when the tree has more than one level. -/
def rebalance_search (T : BTreePMACC7) (segment_id : ℕ) (is_insert : Bool) :
    ℕ × ℕ × ℕ × ℚ × ℚ × ℚ :=
  let B := T.m_storage.m_segment_capacity
  let num0 := if is_insert then B + 1 else T.m_storage.m_segment_sizes segment_id
  let density0 : ℚ := mkRat num0 B
  if T.m_storage.m_height > 1 then
    rebalance_loop T.m_storage.m_segment_sizes B T.m_storage.m_height is_insert
      T.m_storage.m_height 1 segment_id 1 segment_id (segment_id + 1) num0
  else (num0, segment_id, 1, 0, 1, density0)

/-- `BTreePMACC7::spread(cardinality, segment_start, num_segments,
spread_insertion)` (lines 1283–1293): use the rewired spread when the
window's key array spans at least one extent (the rewiring then
receives the cardinality without the pending element and inserts it
itself), otherwise the two-chunk spread. -/
def spread (T : BTreePMACC7) (cardinality segment_start num_segments : ℕ)
    (si : Option spread_insert) : BTreePMACC7 :=
  let B := T.m_storage.m_segment_capacity
  if T.m_storage.hasRewired ∧ num_segments * B * 8 ≥ T.m_storage.extent_size then
    SpreadWithRewiring.execute T segment_start num_segments
      (cardinality - (if si.isSome then 1 else 0))
      (si.map fun s => (s.m_key, s.m_value)) none
  else
    spread_two_copies T cardinality segment_start num_segments si

/-- `BTreePMACC7::rebalance(segment_id, key, value)` (lines 1046–1124):
search for the smallest window within its density bounds; spread it, or
resize when even the root is out of bounds (the resize path of
`rebalance` always calls `resize_general`). -/
def rebalance (T : BTreePMACC7) (segment_id : ℕ) (kv : Option (Int × Int)) : BTreePMACC7 :=
  let is_insert := kv.isSome
  let (num, ws, wlen, rho, theta, density) := rebalance_search T segment_id is_insert
  if (is_insert = true ∧ density ≤ theta) ∨ (is_insert = false ∧ density ≥ rho) then
    spread T num ws wlen (kv.map fun p => ⟨p.1, p.2, segment_id⟩)
  else
    resize_general T kv

/-- `BTreePMACC7::insert_common(segment_id, key, value)` (lines
634–650): rebalance when the segment is full, otherwise a segment-local
insert, updating the separator when the key became the minimum. -/
def insert_common (T : BTreePMACC7) (segment_id : ℕ) (key value : Int) : BTreePMACC7 :=
  if T.m_storage.m_segment_sizes segment_id = T.m_storage.m_segment_capacity then
    rebalance T segment_id (some (key, value))
  else
    let (minimum_updated, T') := T.storage_insert_raw segment_id key value
    if minimum_updated then
      { T' with m_index := T'.m_index.set_separator_key segment_id key }
    else T'

/-- `BTreePMACC7::insert(key, value)` (lines 609–620). -/
def insert (T : BTreePMACC7) (key value : Int) : BTreePMACC7 :=
  if T.m_storage.m_cardinality = 0 then T.insert_empty key value
  else T.insert_common (T.m_index.find key) key value

/-- `int64_t` minimum, the global-minimum sentinel written by
`::remove` when the container becomes empty. -/
def int64_min : Int := -(2 ^ 63)

/-- The deletion part of `BTreePMACC7::remove(key)` (lines 1446–1502),
before the rebalancing check: route through the index, scan the packed
run, close the gap and update the separator.  Returns the value (`-1`
when not found), the updated state, the scanned segment and its new
size. -/
def remove_core (T : BTreePMACC7) (key : Int) : Int × BTreePMACC7 × ℕ × ℕ :=
  if T.m_storage.m_cardinality = 0 then (-1, T, 0, 0)
  else
    let B := T.m_storage.m_segment_capacity
    let segment_id := T.m_index.find key
    let base := segment_id * B
    let sz := T.m_storage.m_segment_sizes segment_id
    if segment_id % 2 = 0 then
      let imin := B - sz
      match (List.range' imin (B - imin)).find? (fun i => T.m_storage.m_keys (base + i) = key) with
      | some i =>
        let value := T.m_storage.m_values (base + i)
        let keys' : ℕ → Int := fun p =>
          if base + imin < p ∧ p ≤ base + i then T.m_storage.m_keys (p - 1)
          else T.m_storage.m_keys p
        let values' : ℕ → Int := fun p =>
          if base + imin < p ∧ p ≤ base + i then T.m_storage.m_values (p - 1)
          else T.m_storage.m_values p
        let card' := T.m_storage.m_cardinality - 1
        let idx' :=
          if i = imin then
            if card' = 0 then T.m_index.set_separator_key 0 int64_min
            else T.m_index.set_separator_key segment_id (keys' (base + imin + 1))
          else T.m_index
        (value,
         { m_index := idx'
           m_storage := { T.m_storage with
             m_keys := keys'
             m_values := values'
             m_segment_sizes := fun j =>
               if j = segment_id then sz - 1 else T.m_storage.m_segment_sizes j
             m_cardinality := card' } },
         segment_id, sz - 1)
      | none => (-1, T, segment_id, sz)
    else
      match (List.range sz).find? (fun i => T.m_storage.m_keys (base + i) = key) with
      | some i =>
        let value := T.m_storage.m_values (base + i)
        let keys' : ℕ → Int := fun p =>
          if base + i ≤ p ∧ p + 1 < base + sz then T.m_storage.m_keys (p + 1)
          else T.m_storage.m_keys p
        let values' : ℕ → Int := fun p =>
          if base + i ≤ p ∧ p + 1 < base + sz then T.m_storage.m_values (p + 1)
          else T.m_storage.m_values p
        let idx' :=
          if i = 0 ∧ sz - 1 > 0 then T.m_index.set_separator_key segment_id (keys' base)
          else T.m_index
        (value,
         { m_index := idx'
           m_storage := { T.m_storage with
             m_keys := keys'
             m_values := values'
             m_segment_sizes := fun j =>
               if j = segment_id then sz - 1 else T.m_storage.m_segment_sizes j
             m_cardinality := T.m_storage.m_cardinality - 1 } },
         segment_id, sz - 1)
      | none => (-1, T, segment_id, sz)

/-- The minimum segment size below which `::remove` rebalances (line
1506): `max<size_t>(thresholds(1).first * m_segment_capacity, 1)`; the
`double` → `size_t` conversion truncates the product towards zero, so
with `ρ₁ = num/den ≥ 0` the first operand is `⌊ρ₁ · B⌋ = num·B / den`. -/
def remove_minimum_size (T : BTreePMACC7) : ℕ :=
  let rho := (T.thresholds 1).1
  max (rho.num.toNat * T.m_storage.m_segment_capacity / rho.den) 1

/-- The rebalancing decision of `BTreePMACC7::remove` (lines
1504–1508): an element was deleted, more than one segment exists and
the segment dropped below the minimum size. -/
def remove_triggers_rebalance (T : BTreePMACC7) (key : Int) : Bool :=
  let r := remove_core T key
  r.1 ≠ -1 ∧ r.2.1.m_storage.m_number_segments > 1 ∧ r.2.2.2 < remove_minimum_size r.2.1

/-- `BTreePMACC7::remove(key)` (lines 1446–1515): delete the key and
rebalance the segment when it dropped below the minimum size. -/
def remove (T : BTreePMACC7) (key : Int) : Int × BTreePMACC7 :=
  let r := remove_core T key
  if r.1 ≠ -1 ∧ r.2.1.m_storage.m_number_segments > 1 ∧ r.2.2.2 < remove_minimum_size r.2.1 then
    (r.1, rebalance r.2.1 r.2.2.1 none)
  else (r.1, r.2.1)

end BTreePMACC7

/-- Modelled from the spec: `pma::Interface::SumResult` (declared in
`interface.hpp`, not under `src/`) — the aggregate returned by `sum`:
count, key and value sums, first and last qualifying key; the
default-constructed result (`SumResult{}`) is all zeros. -/
structure SumResult where
  m_first_key : Int := 0
  m_num_elements : ℕ := 0
  m_sum_keys : Int := 0
  m_sum_values : Int := 0
  m_last_key : Int := 0
deriving DecidableEq, Repr

namespace BTreePMACC7

/-- The first `while(notfound && ...)` loop of `BTreePMACC7::sum`
(lines 1731–1753): find the first position whose key is `≥ min`,
walking segments upward from `segment_start`.  Returns the segment, the
position and that segment's `stop`, or `none` when every segment is
exhausted. -/
def sum_lower_loop (keys : ℕ → Int) (sizes : ℕ → ℕ) (B nSegs : ℕ) (mn : Int) :
    ℕ → ℕ → Option (ℕ × ℕ × ℕ)
  | 0, _ => none
  | fuel + 1, sid =>
    if sid < nSegs then
      let start := if sid % 2 = 0 then (sid + 1) * B - sizes sid else sid * B
      let stop := if sid % 2 = 0 then (sid + 1) * B else sid * B + sizes sid
      match (List.range' start (stop - start)).find? (fun o => decide (¬ keys o < mn)) with
      | some o => some (sid, o, stop)
      | none => sum_lower_loop keys sizes B nSegs mn fuel (sid + 1)
    else none

/-- The downward scan of the upper-bound loop of `BTreePMACC7::sum`
(lines 1781–1784): from `start` down to `stop`, the first position
whose key is not `> max`. -/
def sum_scan_down (keys : ℕ → Int) (mx : Int) (stop : Int) : ℕ → Int → Option Int
  | 0, _ => none
  | fuel + 1, o =>
    if o ≥ stop then
      if keys o.toNat > mx then sum_scan_down keys mx stop fuel (o - 1) else some o
    else none

/-- The `while(notfound && segment_id >= interval_start_segment)` loop
of `BTreePMACC7::sum` (lines 1770–1791): walk segments downward from
`segment_end` looking for the last position whose key is `≤ max`; when
a segment is exhausted the running `offset` is one below its `stop`. -/
def sum_upper_loop (keys : ℕ → Int) (sizes : ℕ → ℕ) (B : ℕ) (mx : Int)
    (interval_start : Int) : ℕ → Int → Int → Int
  | 0, _, offset => offset
  | fuel + 1, sid, offset =>
    if sid ≥ interval_start then
      let sz : Int := sizes sid.toNat
      let start : Int := if sid % 2 = 0 then (sid + 1) * B - 1 else sid * B + sz - 1
      let stop : Int := if sid % 2 = 0 then (sid + 1) * B - 1 - sz else sid * B
      match sum_scan_down keys mx stop ((start - stop + 2).toNat) start with
      | some o => o
      | none => sum_upper_loop keys sizes B mx interval_start fuel (sid - 1) (stop - 1)
    else offset

/-- The accumulation loop of `BTreePMACC7::sum` (lines 1803–1818): add
up the packed run `[offset, stop)`, then jump to the next even segment
pair, clipping at `end`. -/
def sum_acc_loop (keys values : ℕ → Int) (sizes : ℕ → ℕ) (B nSegs : ℕ) (endp : Int) :
    ℕ → Int → Int → Int → ℕ → Int → Int → ℕ × Int × Int
  | 0, _, _, _, cnt, sk, sv => (cnt, sk, sv)
  | fuel + 1, sid, offset, stop, cnt, sk, sv =>
    if offset < endp then
      let n := (stop - offset).toNat
      let cnt' := cnt + n
      let sk' := sk + ((List.range n).map fun j => keys (offset + j).toNat).sum
      let sv' := sv + ((List.range n).map fun j => values (offset + j).toNat).sum
      let sid' := sid + 1 + (if sid % 2 = 0 then 1 else 0)
      if sid' < (nSegs : Int) then
        let lhs : Int := sizes sid'.toNat
        let rhs : Int := sizes (sid'.toNat + 1)
        let offset' : Int := (sid' + 1) * B - lhs
        let stop' : Int := min endp (offset' + lhs + rhs)
        sum_acc_loop keys values sizes B nSegs endp fuel sid' offset' stop' cnt' sk' sv'
      else
        sum_acc_loop keys values sizes B nSegs endp fuel sid' stop stop cnt' sk' sv'
    else (cnt, sk, sv)

/-- `BTreePMACC7::sum(min, max)` (lines 1717–1822): locate the first
position with key `≥ min` and the last with key `≤ max`, then
accumulate count and sums over the packed runs in between. -/
def sum (T : BTreePMACC7) (mn mx : Int) : SumResult :=
  if mn > mx ∨ T.m_storage.m_cardinality = 0 then {}
  else
    let segment_start := T.m_index.find_first mn
    let segment_end := T.m_index.find_last mx
    if segment_end < segment_start then {}
    else
      let B := T.m_storage.m_segment_capacity
      let nSegs := T.m_storage.m_number_segments
      let keys := T.m_storage.m_keys
      let values := T.m_storage.m_values
      let sizes := T.m_storage.m_segment_sizes
      match sum_lower_loop keys sizes B nSegs mn (nSegs + 2) segment_start with
      | none => {}
      | some (sid, offset, stop0) =>
        let stop1 := if sid % 2 = 0 ∧ sid < nSegs - 1 then (sid + 1) * B + sizes (sid + 1) else stop0
        if keys offset > mx then {}
        else
          let endp : Int :=
            sum_upper_loop keys sizes B mx (sid : Int) (nSegs + 2) (segment_end : Int) 0 + 1
          if endp ≤ (offset : Int) then {}
          else
            let stop2 : Int := min (stop1 : Int) endp
            let res :=
              sum_acc_loop keys values sizes B nSegs endp (nSegs + 2)
                (sid : Int) (offset : Int) stop2 0 0 0
            { m_first_key := keys offset
              m_num_elements := res.1
              m_sum_keys := res.2.1
              m_sum_values := res.2.2
              m_last_key := keys (endp - 1).toNat }

end BTreePMACC7

namespace PMA

/-- First array position of the packed run of segment `i`: even
segments pack against the right edge (`[B - sz, B)` within the
segment), odd segments against the left edge. -/
def seg_start (P : PMA) (i : ℕ) : ℕ :=
  if i % 2 = 0 then i * P.m_segment_capacity + (P.m_segment_capacity - P.m_segment_sizes i)
  else i * P.m_segment_capacity

/-- The stored pairs of segment `i`, in packed order. -/
def seg_slice (P : PMA) (i : ℕ) : List (Int × Int) :=
  (List.range (P.m_segment_sizes i)).map fun j =>
    (P.m_keys (P.seg_start i + j), P.m_values (P.seg_start i + j))

/-- All stored pairs in segment order — the logical contents of the
index (invariant 3 of the specification reads the arrays in exactly
this order). -/
def content (P : PMA) : List (Int × Int) :=
  (List.range P.m_number_segments).flatMap P.seg_slice

/-- The stored keys in segment order. -/
def content_keys (P : PMA) : List Int := P.content.map Prod.fst

end PMA

namespace BTreePMACC7

/-- Insert the pairs `(lo, f lo), (lo+1, f (lo+1)), …, (hi, f hi)` in
ascending key order (driver for the literal seed scenarios of the
specification). -/
def insert_range (T : BTreePMACC7) (lo hi : Int) (f : Int → Int) : BTreePMACC7 :=
  (List.range (hi - lo + 1).toNat).foldl (fun t i => t.insert (lo + i) (f (lo + i))) T

end BTreePMACC7

/-- The freshly constructed index of the first seed scenario of the
specification: `B = 32`, one page per extent, 4096-byte pages (the
construction succeeds, so the default is irrelevant). -/
def c3_start : BTreePMACC7 :=
  (BTreePMACC7.new 32 1 4096).toOption.getD
    ⟨⟨1, fun _ => 0⟩, ⟨32, 1, 4096, false, 1, fun _ => 0, fun _ => 0, fun _ => 0, 0⟩⟩

/-- Segment sizes of the `C5` counterexample state: the left half of
the 32-segment array is full, the right half sparse (`15 × 10 + 11`),
673 elements in total. -/
def c5_sizes : ℕ → ℕ := fun i =>
  if i < 16 then 32 else if i < 31 then 10 else if i = 31 then 11 else 0

/-- A well-formed 32-segment state (`B = 32`, rewired memory active,
extent = 4096 bytes = 16 segments): keys are `10 · position` (sorted in
segment order for any packing), values the position, separators the
respective segment minima.  Inserting key `15` into the full segment 0
drives the rebalance to the root window, which is within its upper
threshold, so it resolves to a spread with rewiring of all `W = 32`
segments holding `N = 674` elements. -/
def c5_state : BTreePMACC7 :=
  { m_index :=
      { n := 32
        seps := fun s =>
          10 * (((if s % 2 = 0 then (s + 1) * 32 - c5_sizes s else s * 32) : ℕ) : Int) }
    m_storage :=
      { m_segment_capacity := 32, m_pages_per_extent := 1, pageSize := 4096
        hasRewired := true, m_number_segments := 32
        m_keys := fun p => 10 * (p : Int), m_values := fun p => (p : Int)
        m_segment_sizes := c5_sizes, m_cardinality := 673 } }

/-- A well-formed two-segment state (`B = 32`): segment 0 holds keys
`{290, 300, 310}`, segment 1 holds `{320, 330, 340}`; removing key
`300` leaves segment 0 with 2 elements. -/
def c6_state : BTreePMACC7 :=
  { m_index := { n := 2, seps := fun s => if s = 0 then 290 else 320 }
    m_storage :=
      { m_segment_capacity := 32, m_pages_per_extent := 1, pageSize := 4096
        hasRewired := false, m_number_segments := 2
        m_keys := fun p => 10 * (p : Int), m_values := fun p => (p : Int)
        m_segment_sizes := fun i => if i < 2 then 3 else 0, m_cardinality := 6 } }

/-- The array positions of all packed runs, in segment order; `content`
is the key/value image of this list. -/
def PMA.pos_list (P : PMA) : List ℕ :=
  (List.range P.m_number_segments).flatMap fun s =>
    List.range' (P.seg_start s) (P.m_segment_sizes s)

/-- Well-formedness of a `BTreePMACC7` state: the geometric invariants
of §3 of the specification (packed-edge layout is built into
`seg_start`), strictly sorted keys (unique keys assumed), separators
equal to segment minima, no empty segments while more than one segment
exists, and a power-of-two segment count matched by the index. -/
structure WF (T : BTreePMACC7) : Prop where
  hB : 0 < T.m_storage.m_segment_capacity
  hn : 0 < T.m_storage.m_number_segments
  hpow : T.m_storage.m_number_segments = 2 ^ nat_log2 T.m_storage.m_number_segments
  hidx : T.m_index.n = T.m_storage.m_number_segments
  hsz : ∀ i < T.m_storage.m_number_segments,
    T.m_storage.m_segment_sizes i ≤ T.m_storage.m_segment_capacity
  hcard : T.m_storage.m_cardinality = sumSizes T.m_storage.m_segment_sizes 0
    T.m_storage.m_number_segments
  hsorted : T.m_storage.content_keys.Pairwise (· < ·)
  hsep : ∀ i < T.m_storage.m_number_segments, 0 < T.m_storage.m_segment_sizes i →
    T.m_index.seps i = T.m_storage.m_keys (T.m_storage.seg_start i)
  hne : 1 < T.m_storage.m_number_segments →
    ∀ i < T.m_storage.m_number_segments, 0 < T.m_storage.m_segment_sizes i


/-- End (one past) of the contiguous packed block that the accumulation
loop of `sum` covers when entering segment `s`: for an even `s` with a
right neighbour the block spans the adjacent runs of `s` and `s + 1`,
otherwise just the run of `s`. -/
def blockEnd (P : PMA) (s : ℕ) : ℕ :=
  if s % 2 = 0 ∧ s + 1 < P.m_number_segments
  then P.seg_start (s + 1) + P.m_segment_sizes (s + 1)
  else P.seg_start s + P.m_segment_sizes s

/-- The packed positions lying in the half-open interval `[lo, hi)`. -/
def posFilter (P : PMA) (lo hi : Int) : List ℕ :=
  P.pos_list.filter (fun (p : ℕ) => decide (lo ≤ (p : Int) ∧ (p : Int) < hi))

/-- Number of stored elements at positions in `[lo, hi)`. -/
def posCount (P : PMA) (lo hi : Int) : ℕ := (posFilter P lo hi).length

/-- Sum of `f` over the stored positions in `[lo, hi)`. -/
def posSum (P : PMA) (f : ℕ → Int) (lo hi : Int) : Int :=
  ((posFilter P lo hi).map f).sum


/-- The stored pairs whose key lies in `[mn, mx]` — the specification's
description of what `sum` aggregates (claim C3). -/
def qualifying (T : BTreePMACC7) (mn mx : Int) : List (Int × Int) :=
  T.m_storage.content.filter (fun kv => decide (mn ≤ kv.1 ∧ kv.1 ≤ mx))


/-- Counting invariant of the read cursor of
`SpreadWithRewiring::spread_elements`: either the source is exhausted
(`r = 0`, cursor parked at the window start), or the cursor sits in the
even pair of segment `s` with `irun` elements of the pair still unread
and `r` elements of the window below the cursor in total. -/
def cursor_inv (B ws wl : ℕ) (sizes : ℕ → ℕ) (isid idisp : Int) (irun r : ℕ) : Prop :=
  (r = 0 ∧ irun = 0 ∧ idisp = ((ws * B : ℕ) : Int)) ∨
  (0 < irun ∧ ∃ s : ℕ, isid = (s : Int) ∧ s % 2 = 0 ∧ ws ≤ s ∧ s + 1 < ws + wl ∧
    idisp = (s : Int) * B + B - sizes s ∧ irun ≤ sizes s + sizes (s + 1) ∧
    r = sumSizes sizes ws s + irun)

/-- Position form of `cursor_inv`, tracked by `m_position` between
extents: `r` elements of the window lie strictly below `p`. -/
def pos_inv (B ws wl : ℕ) (sizes : ℕ → ℕ) (p : Int) (r : ℕ) : Prop :=
  (r = 0 ∧ p = ((ws * B : ℕ) : Int)) ∨
  (∃ s : ℕ, s % 2 = 0 ∧ ws ≤ s ∧ s + 1 < ws + wl ∧
    (s : Int) * B + B - sizes s < p ∧
    p ≤ ((s : Int) + 1) * B + sizes (s + 1) ∧
    r = sumSizes sizes ws s + (p - ((s : Int) * B + B - sizes s)).toNat)

/-- Total output budget of the remaining iterations of the pair loop of
`spread_elements` when entering iteration `oid`: the sum of
`eps + (j < odd)` over `j ≤ oid + 1`. -/
def pair_budget (eps odd : ℕ) (oid : Int) : ℕ :=
  if oid < 0 then 0 else eps * (oid + 2).toNat + min (oid + 2).toNat odd

/-- Remaining elements to spread when the extent loop of `spread_window`
enters iteration `i`: the allotments of extents `0 .. i`. -/
def extent_budget (eps odd : ℕ) (i : Int) : ℕ :=
  if i < 0 then 0 else eps * (i + 1).toNat + min (i + 1).toNat odd

namespace SpreadWithRewiringBulkLoading

/-- The input-1 refetch step of `SpreadWithRewiringBulkLoading::spread_elements`
(lines 1984–1996 and 2009–2022): when the current PMA run is exhausted and a
previous even segment of the window remains, move the cursor to that segment
pair. -/
def refill (B ws : ℕ) (sizes : ℕ → ℕ) (isid idisp iidx : Int) : Int × Int × Int :=
  if iidx < 0 ∧ isid > (ws : Int) then
    let s := (isid - 2).toNat
    (isid - 2, (s : Int) * B + B - sizes s, ((sizes s + sizes (s + 1) : ℕ) : Int) - 1)
  else (isid, idisp, iidx)

/-- The first `while` loop of `SpreadWithRewiringBulkLoading::spread_elements`
(lines 1975–2001): merge the PMA input run and the user sequence from the
right while output slots and both inputs remain.  Returns
`(dK, dV, k, input1_segment_id, input1_displacement, input1_index,
input2_index)`. -/
def merge_loop (B ws : ℕ) (keys values : ℕ → Int) (sizes : ℕ → ℕ)
    (user : ℕ → Int × Int) (destBase outDisp : ℕ) :
    ℕ → Int → Int → Int → Int → Int → (ℕ → Int) → (ℕ → Int) →
    ((ℕ → Int) × (ℕ → Int) × Int × Int × Int × Int × Int)
  | 0, k, isid, idisp, iidx, uidx, dK, dV => (dK, dV, k, isid, idisp, iidx, uidx)
  | fuel + 1, k, isid, idisp, iidx, uidx, dK, dV =>
    if 0 ≤ k ∧ 0 ≤ iidx ∧ 0 ≤ uidx then
      if keys (idisp + iidx).toNat > (user uidx.toNat).1 then
        let dK' := writeSlice dK (destBase + outDisp + k.toNat) [keys (idisp + iidx).toNat]
        let dV' := writeSlice dV (destBase + outDisp + k.toNat) [values (idisp + iidx).toNat]
        let c := refill B ws sizes isid idisp (iidx - 1)
        merge_loop B ws keys values sizes user destBase outDisp fuel
          (k - 1) c.1 c.2.1 c.2.2 uidx dK' dV'
      else
        let dK' := writeSlice dK (destBase + outDisp + k.toNat) [(user uidx.toNat).1]
        let dV' := writeSlice dV (destBase + outDisp + k.toNat) [(user uidx.toNat).2]
        merge_loop B ws keys values sizes user destBase outDisp fuel
          (k - 1) isid idisp iidx (uidx - 1) dK' dV'
    else (dK, dV, k, isid, idisp, iidx, uidx)

/-- The second `while` loop of the bulk-loading `spread_elements` (lines
2003–2026): drain the PMA input into the remaining output slots.  Returns
`(dK, dV, k, input1_segment_id, input1_displacement, input1_index)`. -/
def copy1_loop (B ws : ℕ) (keys values : ℕ → Int) (sizes : ℕ → ℕ)
    (destBase outDisp : ℕ) :
    ℕ → Int → Int → Int → Int → (ℕ → Int) → (ℕ → Int) →
    ((ℕ → Int) × (ℕ → Int) × Int × Int × Int × Int)
  | 0, k, isid, idisp, iidx, dK, dV => (dK, dV, k, isid, idisp, iidx)
  | fuel + 1, k, isid, idisp, iidx, dK, dV =>
    if 0 ≤ k ∧ 0 ≤ iidx then
      let dK' := writeSlice dK (destBase + outDisp + k.toNat) [keys (idisp + iidx).toNat]
      let dV' := writeSlice dV (destBase + outDisp + k.toNat) [values (idisp + iidx).toNat]
      let c := refill B ws sizes isid idisp (iidx - 1)
      copy1_loop B ws keys values sizes destBase outDisp fuel (k - 1) c.1 c.2.1 c.2.2 dK' dV'
    else (dK, dV, k, isid, idisp, iidx)

/-- The third `while` loop of the bulk-loading `spread_elements` (lines
2027–2033): drain the user sequence into the remaining output slots.
Returns `(dK, dV, input2_index)`. -/
def copy2_loop (user : ℕ → Int × Int) (destBase outDisp : ℕ) :
    ℕ → Int → Int → (ℕ → Int) → (ℕ → Int) → ((ℕ → Int) × (ℕ → Int) × Int)
  | 0, _, uidx, dK, dV => (dK, dV, uidx)
  | fuel + 1, k, uidx, dK, dV =>
    if 0 ≤ k ∧ 0 ≤ uidx then
      let dK' := writeSlice dK (destBase + outDisp + k.toNat) [(user uidx.toNat).1]
      let dV' := writeSlice dV (destBase + outDisp + k.toNat) [(user uidx.toNat).2]
      copy2_loop user destBase outDisp fuel (k - 1) (uidx - 1) dK' dV'
    else (dK, dV, uidx)

/-- The outer `for(output_segment_id = spe - 2; ...; -= 2)` loop of the
bulk-loading `spread_elements` (lines 1969–2040): fill each output
segment pair by the three input-draining loops in sequence. -/
def swrb_pair_loop (B ws spe : ℕ) (keys values : ℕ → Int) (sizes : ℕ → ℕ)
    (user : ℕ → Int × Int) (destBase eps odd : ℕ) :
    ℕ → Int → Int → Int → Int → Int → (ℕ → Int) → (ℕ → Int) →
    ((ℕ → Int) × (ℕ → Int) × Int × Int × Int × Int)
  | 0, _, isid, idisp, iidx, uidx, dK, dV => (dK, dV, isid, idisp, iidx, uidx)
  | fuel + 1, oid, isid, idisp, iidx, uidx, dK, dV =>
    if oid < 0 then (dK, dV, isid, idisp, iidx, uidx)
    else
      let o := oid.toNat
      let lhs := eps + (if oid < (odd : Int) then 1 else 0)
      let rhs := eps + (if oid + 1 < (odd : Int) then 1 else 0)
      let outDisp := o * B + (B - lhs)
      let m := merge_loop B ws keys values sizes user destBase outDisp
        (lhs + rhs + 2) (((lhs + rhs : ℕ) : Int) - 1) isid idisp iidx uidx dK dV
      let c1 := copy1_loop B ws keys values sizes destBase outDisp
        (lhs + rhs + 2) m.2.2.1 m.2.2.2.1 m.2.2.2.2.1 m.2.2.2.2.2.1 m.1 m.2.1
      let c2 := copy2_loop user destBase outDisp
        (lhs + rhs + 2) c1.2.2.1 m.2.2.2.2.2.2 c1.1 c1.2.1
      swrb_pair_loop B ws spe keys values sizes user destBase eps odd fuel
        (oid - 2) c1.2.2.2.1 c1.2.2.2.2.1 c1.2.2.2.2.2 c2.2.2 c2.1 c2.2.1

/-- `SpreadWithRewiringBulkLoading::spread_elements(destination, extent_id,
num_elements)` (lines 1931–2046): merge `num_elements` elements of the PMA
window and the user sequence right-to-left into the destination extent, and
advance both read cursors.  `st.position` plays `m_position_pma`; the user
cursor `m_position_user_sequence` is threaded explicitly.  Returns
`(dK, dV, m_position_pma, m_position_user_sequence)`. -/
def spread_elements (B ws spe : ℕ) (sizes : ℕ → ℕ) (user : ℕ → Int × Int)
    (st : SWRState) (uidx : Int) (destBase : ℕ) (dK dV : ℕ → Int)
    (num_elements : ℕ) : (ℕ → Int) × (ℕ → Int) × Int × Int :=
  let eps := num_elements / spe
  let odd := num_elements % spe
  let isid0 : Int := (Int.tdiv (st.position - 1) (2 * B)) * 2
  let idisp0 : Int :=
    if isid0 ≥ (ws : Int) then isid0 * B + B - sizes isid0.toNat else 0
  let iidx0 : Int :=
    if isid0 ≥ (ws : Int) then st.position - (isid0 * B + B - sizes isid0.toNat) - 1 else -1
  let c := swrb_pair_loop B ws spe st.keys st.values sizes user destBase eps odd
    (spe + 2) ((spe : Int) - 2) isid0 idisp0 iidx0 uidx dK dV
  let pos' : Int := if 0 ≤ c.2.2.2.2.1 then c.2.2.2.1 + c.2.2.2.2.1 + 1 else -1
  (c.1, c.2.1, pos', c.2.2.2.2.2)

/-- `SpreadWithRewiringBulkLoading::spread_extent(extent_id, num_elements)`
(lines 2048–2065): write in place when the read cursor has moved past the
extent, otherwise acquire a scratch buffer to be rewired later; then reclaim
the extents now fully behind the cursor.  The geometry helpers and
`reclaim_past_extents` are the same as in `SpreadWithRewiring`. -/
def spread_extent (B ws spe _wl : ℕ) (sizes : ℕ → ℕ) (user : ℕ → Int × Int)
    (st : SWRState) (uidx : Int) (extent_id : Int) (num_elements : ℕ) :
    SWRState × Int :=
  let use_rewiring := SpreadWithRewiring.get_current_extent B ws spe st ≥ extent_id
  let p :=
    if ¬ use_rewiring then
      let base := SpreadWithRewiring.get_offset B ws spe extent_id
      let c := spread_elements B ws spe sizes user st uidx base st.keys st.values num_elements
      ({ st with keys := c.1, values := c.2.1, position := c.2.2.1 }, c.2.2.2)
    else
      let c := spread_elements B ws spe sizes user st uidx 0 (fun _ => 0) (fun _ => 0)
        num_elements
      ({ st with
          position := c.2.2.1
          extents_to_rewire := st.extents_to_rewire ++ [⟨extent_id, c.1, c.2.1⟩] }, c.2.2.2)
  (SpreadWithRewiring.reclaim_past_extents B ws spe (p.1.extents_to_rewire.length + 1) p.1, p.2)

/-- The `for(i = num_extents - 1; i >= 0; i--)` loop of
`SpreadWithRewiringBulkLoading::spread_window` (lines 2067–2082). -/
def swrb_window_loop (B ws spe wl : ℕ) (sizes : ℕ → ℕ) (user : ℕ → Int × Int)
    (eps odd : ℕ) :
    ℕ → Int → SWRState → Int → SWRState × Int
  | 0, _, st, uidx => (st, uidx)
  | fuel + 1, i, st, uidx =>
    if i < 0 then (st, uidx)
    else
      let c := spread_extent B ws spe wl sizes user st uidx i
        (eps + (if i < (odd : Int) then 1 else 0))
      swrb_window_loop B ws spe wl sizes user eps odd fuel (i - 1) c.1 c.2

end SpreadWithRewiringBulkLoading

/-- Read-cursor accounting invariant for the bulk-loading spread, at the
granularity of `spread_elements` cursors: either the PMA input is depleted
(`input1_index < 0`, no elements remain and no refetch is possible), or the
cursor sits in an even window segment pair `s` with `iidx + 1` elements of
the pair still unread and `r1` window elements unread in total. -/
def cursor1_inv (B ws wl : ℕ) (sizes : ℕ → ℕ) (isid idisp iidx : Int) (r1 : ℕ) : Prop :=
  (iidx < 0 ∧ r1 = 0 ∧ isid ≤ (ws : Int)) ∨
  (0 ≤ iidx ∧ ∃ s : ℕ, isid = (s : Int) ∧ s % 2 = 0 ∧ ws ≤ s ∧ s + 1 < ws + wl ∧
    idisp = (s : Int) * B + B - sizes s ∧ (iidx + 1).toNat ≤ sizes s + sizes (s + 1) ∧
    r1 = sumSizes sizes ws s + (iidx + 1).toNat)

/-- Read-position accounting invariant for the bulk-loading spread, at the
granularity of `spread_extent` (`m_position_pma`): either the PMA input is
depleted (`m_position_pma = -1`) or the position lies in an even window
segment pair with `r1` window elements unread. -/
def pos_inv_b (B ws wl : ℕ) (sizes : ℕ → ℕ) (p : Int) (r1 : ℕ) : Prop :=
  (r1 = 0 ∧ p = -1) ∨
  (∃ s : ℕ, s % 2 = 0 ∧ ws ≤ s ∧ s + 1 < ws + wl ∧
    (s : Int) * B + B - sizes s < p ∧ p ≤ ((s : Int) + 1) * B + sizes (s + 1) ∧
    r1 = sumSizes sizes ws s + (p - ((s : Int) * B + B - sizes s)).toNat)


/-- `std::numeric_limits<int64_t>::max()`. -/
def int64_max : Int := 2 ^ 63 - 1

/-- The scan cursor of `btree_pmacc7_details::Iterator` (its member
declaration lives in the class body, not under `src/`; the four cursor
fields and their use are taken from the method definitions, lines
1562–1693, with the default member values modelled as `0`, which makes
the `Iterator(const PMA&)` "empty iterator" (line 1560) report
`hasNext() == false`). -/
structure Iterator where
  m_offset : Int := 0
  m_next_segment : ℕ := 0
  m_stop : Int := 0
  m_index_max : Int := 0

/-- `Iterator::next_sequence()` (lines 1653–1675): jump the cursor to
the packed run of the next segment pair (even case) or segment (odd
case), clipping at `m_index_max`. -/
def Iterator.next_sequence (P : PMA) (it : Iterator) : Iterator :=
  let segment1 := it.m_next_segment
  if segment1 < P.m_number_segments then
    if segment1 % 2 = 0 then
      let offset : ℕ := segment1 * P.m_segment_capacity + P.m_segment_capacity -
        P.m_segment_sizes segment1
      let segment2 := segment1 + 1
      let stop : Int := ((segment2 * P.m_segment_capacity : ℕ) : Int)
      let stop2 : Int :=
        if segment2 < P.m_number_segments then
          min (stop + P.m_segment_sizes segment2) it.m_index_max
        else min stop it.m_index_max
      { it with
        m_offset := (offset : Int)
        m_stop := stop2
        m_next_segment := segment1 + 2 }
    else
      let offset : ℕ := segment1 * P.m_segment_capacity
      { it with
        m_offset := (offset : Int)
        m_stop := min it.m_index_max ((offset : Int) + P.m_segment_sizes segment1)
        m_next_segment := segment1 + 1 }
  else it

/-- `Iterator::next()` (lines 1681–1693): emit the pair under the
cursor, advance, and jump to the next run when the current one is
exhausted. -/
def Iterator.next (P : PMA) (it : Iterator) : (Int × Int) × Iterator :=
  let result := (P.m_keys it.m_offset.toNat, P.m_values it.m_offset.toNat)
  let it2 := { it with m_offset := it.m_offset + 1 }
  (result, if it2.m_stop ≤ it2.m_offset then Iterator.next_sequence P it2 else it2)

/-- `Iterator::Iterator(storage, segment_start, segment_end, key_min,
key_max)` (lines 1562–1650).  The two boundary scans are the same loops
as in `BTreePMACC7::sum` (lines 1572–1596 = 1731–1753 and 1612–1639 =
1770–1791) and are embedded by the same functions.  When the lower scan
exhausts every segment the source leaves `m_offset` at the last `stop`
while setting `m_index_max = m_stop = 0`; since `hasNext()` is then
false regardless of `m_offset`, the model parks `m_offset` at `0`. -/
def Iterator.construct (P : PMA) (segment_start segment_end : ℕ) (key_min key_max : Int) :
    Except String Iterator :=
  if segment_start > segment_end then .error "segment_start > segment_end"
  else .ok (
    if P.m_number_segments ≤ segment_end then {} else
    match BTreePMACC7.sum_lower_loop P.m_keys P.m_segment_sizes P.m_segment_capacity
        P.m_number_segments key_min (P.m_number_segments + 2) segment_start with
    | none =>
      { m_offset := 0, m_next_segment := P.m_number_segments + 1, m_stop := 0,
        m_index_max := 0 }
    | some (sid, offset, stop0) =>
      let nSegs := P.m_number_segments
      let next0 := sid + 1
      let stop1 : Int := if sid % 2 = 0 ∧ next0 < nSegs then
          ((next0 * P.m_segment_capacity + P.m_segment_sizes next0 : ℕ) : Int)
        else (stop0 : Int)
      let next1 := if sid % 2 = 0 ∧ next0 < nSegs then next0 + 1 else next0
      if P.m_keys offset > key_max then
        { m_offset := (offset : Int), m_next_segment := next1, m_stop := 0, m_index_max := 0 }
      else
        let endp : Int := BTreePMACC7.sum_upper_loop P.m_keys P.m_segment_sizes
          P.m_segment_capacity key_max (sid : Int) (nSegs + 2) (segment_end : Int) 0 + 1
        if endp - 1 < (offset : Int) then
          { m_offset := (offset : Int), m_next_segment := next1, m_stop := 0, m_index_max := 0 }
        else
          { m_offset := (offset : Int), m_next_segment := next1,
            m_stop := min endp stop1, m_index_max := endp })

/-- The `while(it->hasNext()) it->next()` driver used by the callers of
`BTreePMACC7::iterator()`: collect the emitted pairs in order.  The
fuel bounds the number of emitted pairs; one unit per element plus one
suffices. -/
def iter_drain (P : PMA) : ℕ → Iterator → List (Int × Int)
  | 0, _ => []
  | fuel + 1, it =>
    if it.m_offset < it.m_stop then
      let n := Iterator.next P it
      n.1 :: iter_drain P fuel n.2
    else []

/-- `BTreePMACC7::iterator()` (lines 1705–1710) followed by a full
drain: an iterator over the whole key range
`[numeric_limits<int64_t>::min(), numeric_limits<int64_t>::max()]`, or
the empty iterator when the container is empty. -/
def BTreePMACC7.iterate (T : BTreePMACC7) : List (Int × Int) :=
  if T.m_storage.m_cardinality = 0 then []
  else
    match Iterator.construct T.m_storage 0 (T.m_storage.m_number_segments - 1)
        BTreePMACC7.int64_min int64_max with
    | .error _ => []
    | .ok it => iter_drain T.m_storage (T.m_storage.m_cardinality + 1) it

/-- `BTreePMACC7::load_empty_single(array, array_sz)` (lines 2838–2853):
pack the whole batch right-aligned into segment 0. -/
def BTreePMACC7.load_empty_single (T : BTreePMACC7) (A : List (Int × Int)) : BTreePMACC7 :=
  let B := T.m_storage.m_segment_capacity
  let sz := A.length
  let output_start := B - sz
  { m_index := T.m_index.set_separator_key 0 (A.headD (0, 0)).1
    m_storage := { T.m_storage with
      m_keys := writeSlice T.m_storage.m_keys output_start (A.map Prod.fst)
      m_values := writeSlice T.m_storage.m_values output_start (A.map Prod.snd)
      m_segment_sizes := fun i => if i = 0 then sz else T.m_storage.m_segment_sizes i
      m_cardinality := sz } }

/-- The `for(i = 0; i < num_segments; i += 2)` copy loop of
`BTreePMACC7::load_empty_multi` (lines 2880–2895): write each segment
pair's share of the batch right-packed around the pair boundary and
record the two separators from the written keys. -/
def lem_pair_loop (A : List (Int × Int)) (B num_segments : ℕ) (sizes : ℕ → ℕ) :
    ℕ → ℕ → ℕ → (ℕ → Int) → (ℕ → Int) → StaticIndex →
    ((ℕ → Int) × (ℕ → Int) × StaticIndex)
  | 0, _, _, ks, vs, ix => (ks, vs, ix)
  | fuel + 1, i, cur, ks, vs, ix =>
    if i < num_segments then
      let output_start := (i + 1) * B - sizes i
      let len := sizes i + sizes (i + 1)
      let ks2 := writeSlice ks output_start (((A.drop cur).take len).map Prod.fst)
      let vs2 := writeSlice vs output_start (((A.drop cur).take len).map Prod.snd)
      let ix2 := (ix.set_separator_key i (ks2 output_start)).set_separator_key (i + 1)
        (ks2 (output_start + sizes i))
      lem_pair_loop A B num_segments sizes fuel (i + 2) (cur + len) ks2 vs2 ix2
    else (ks, vs, ix)

/-- `BTreePMACC7::load_empty_multi(array, array_sz)` (lines 2854–2907):
resize to `hyperceil(ceil(array_sz / target_density))` cells (the
average of the root and leaf upper densities), rebuild the index,
allocate fresh arrays (fresh contents modelled as `0`), fix the segment
sizes (leftmost `array_sz mod num_segments` segments get one extra) and
copy the batch pair by pair. -/
def BTreePMACC7.load_empty_multi (T : BTreePMACC7) (A : List (Int × Int)) : BTreePMACC7 :=
  let B := T.m_storage.m_segment_capacity
  let sz := A.length
  let target_density : ℚ :=
    (DensityBounds.get_upper_threshold_root + DensityBounds.get_upper_threshold_leaves) / 2
  let capacity := hyperceil (Int.toNat ⌈(sz : ℚ) / target_density⌉)
  let num_segments := capacity / B
  let eps := sz / num_segments
  let odd := sz % num_segments
  let sizes2 : ℕ → ℕ := fun i =>
    if i < num_segments then eps + (if i < odd then 1 else 0) else 0
  let r := lem_pair_loop A B num_segments sizes2 (num_segments + 2) 0 0
    (fun _ => 0) (fun _ => 0) (T.m_index.rebuild num_segments)
  { m_index := r.2.2
    m_storage := { T.m_storage with
      m_keys := r.1
      m_values := r.2.1
      m_segment_sizes := sizes2
      m_cardinality := sz
      m_number_segments := num_segments } }

/-- `BTreePMACC7::load_empty(array, array_sz)` (lines 2827–2836):
dispatch on whether the batch fits a single segment at the leaves'
upper density (`load_sorted`, lines 2183–2190, routes here when the
container is empty and the batch is non-empty). -/
def BTreePMACC7.load_empty (T : BTreePMACC7) (A : List (Int × Int)) : BTreePMACC7 :=
  if (T.m_storage.m_segment_capacity : ℚ) * DensityBounds.get_upper_threshold_leaves ≥
      (A.length : ℚ) then
    T.load_empty_single A
  else
    T.load_empty_multi A

/-- `BTreePMACC7::load_sorted(array, array_sz)` (lines 2183–2201) on an
empty container (`m_cardinality == 0`): nothing to load when
`array_sz == 0`, otherwise the `empty()` branch routes to `load_empty`.
(The branch taken for a non-empty container generates, fuses and merges
runs; it is not reachable from an empty index.) -/
def BTreePMACC7.load_sorted_empty (T : BTreePMACC7) (A : List (Int × Int)) : BTreePMACC7 :=
  if A.length = 0 then T else T.load_empty A

/-!
## Theorems
-/

/-- C9: construction fails with an invalid-argument error if and only
if the segment capacity rounded up to a power of two is below 32 or
above 65535, `pages_per_extent` is not a power of two, or the rounded
capacity times `sizeof(int64_t)` does not divide the page size;
otherwise it succeeds and yields an empty index with one segment. -/
theorem claim_C9_construction (s p ps : ℕ) :
    ((BTreePMACC7.new s p ps).isOk = true ↔
      ¬ (hyperceil s < 32 ∨ 65535 < hyperceil s ∨ hyperceil p ≠ p ∨
          ps % (hyperceil s * 8) ≠ 0)) ∧
    ((BTreePMACC7.new s p ps).toOption.map
        (fun T => (T.m_storage.m_cardinality, T.m_storage.m_number_segments)) = some (0, 1) ∨
      (BTreePMACC7.new s p ps).toOption = none) := by
  unfold BTreePMACC7.new PMA.new
  split_ifs with h1 h2 h3 h4
  · exact ⟨by simp [Except.isOk, Except.toBool, Except.map]; omega, by simp [Except.toOption, Except.map]⟩
  · exact ⟨by simp [Except.isOk, Except.toBool, Except.map]; omega, by simp [Except.toOption, Except.map]⟩
  · exact ⟨by simp [Except.isOk, Except.toBool, Except.map]; omega, by simp [Except.toOption, Except.map]⟩
  · exact ⟨by simp [Except.isOk, Except.toBool, Except.map]; omega, by simp [Except.toOption, Except.map]⟩
  · exact ⟨by simp [Except.isOk, Except.toBool, Except.map]; omega, by simp [Except.toOption, Except.map]⟩

/-- C10: for every state, `sum(min, max)` with `min > max` returns the
empty (all-zero) result; the underlying method is `const`, so the
container is a pure input of the modelled function and is unchanged. -/
theorem claim_C10_sum_empty_range (T : BTreePMACC7) (mn mx : Int) (h : mn > mx) :
    T.sum mn mx = {} := by
  unfold BTreePMACC7.sum
  rw [if_pos (Or.inl h)]

/-- Witness for C10 at a concrete state and bounds. -/
theorem claim_C10_witness : (1 : Int) > 0 ∧ c6_state.sum 1 0 = {} :=
  ⟨by decide, claim_C10_sum_empty_range c6_state 1 0 (by decide)⟩

/-- Nested flooring: dividing by `wl/spe` and then by `spe` is dividing
by `wl`, when `spe ∣ wl`. -/
theorem div_div_of_dvd_spread (c spe wl : ℕ) (hd : spe ∣ wl) :
    c / (wl / spe) / spe = c / wl := by
  rw [Nat.div_div_eq_div_mul, Nat.div_mul_cancel hd]

/-- `(a + 1) / n ≤ a / n + 1`. -/
theorem succ_div_le_div_succ (a n : ℕ) (hn : 0 < n) : (a + 1) / n ≤ a / n + 1 := by
  calc (a + 1) / n ≤ (a + n) / n := Nat.div_le_div_right (by omega)
  _ = a / n + 1 := Nat.add_div_right a hn

/-- Dropping one unit from a non-multiple does not change the floor of
the division. -/
theorem div_le_sub_one_div (ec spe : ℕ) (hs : 0 < spe) (h : ec % spe ≠ 0) :
    ec / spe ≤ (ec - 1) / spe := by
  have h1 := Nat.div_add_mod ec spe
  have h2 : 1 ≤ ec % spe := Nat.one_le_iff_ne_zero.mpr h
  have key : spe * (ec / spe) ≤ ec - 1 := by omega
  rw [Nat.le_div_iff_mul_le hs, Nat.mul_comm]
  exact key

/-- The per-segment cardinality assigned by the rewired spread's
`update_segment_sizes` lies between `⌊c/wl⌋` and `⌈c/wl⌉`. -/
theorem uss_bounds (sizes : ℕ → ℕ) (ws wl spe c i : ℕ)
    (hs : 0 < spe) (hd : spe ∣ wl) (hw : 0 < wl) (hi : i < wl) :
    c / wl ≤ SpreadWithRewiring.update_segment_sizes sizes ws wl spe c (ws + i) ∧
    SpreadWithRewiring.update_segment_sizes sizes ws wl spe c (ws + i) ≤
      c / wl + (if c % wl = 0 then 0 else 1) := by
  have hEs : wl / spe * spe = wl := Nat.div_mul_cancel hd
  have hcond : ws ≤ ws + i ∧ ws + i < ws + wl := ⟨Nat.le_add_right ws i, by omega⟩
  unfold SpreadWithRewiring.update_segment_sizes
  rw [if_pos hcond]
  simp only [Nat.add_sub_cancel_left]
  set E := wl / spe with hE
  have hE0 : 0 < E := Nat.div_pos (Nat.le_of_dvd hw hd) hs
  set ec := c / E + (if i / spe < c % E then 1 else 0) with hec
  have hcE : c / E / spe = c / wl := div_div_of_dvd_spread c spe wl hd
  constructor
  · calc c / wl = c / E / spe := hcE.symm
    _ ≤ ec / spe := Nat.div_le_div_right (by rw [hec]; exact Nat.le_add_right _ _)
    _ ≤ _ := Nat.le_add_right _ _
  · by_cases h0 : c % wl = 0
    · obtain ⟨q, hq⟩ := Nat.dvd_of_mod_eq_zero h0
      have hq' : c = E * (spe * q) := by rw [hq, ← hEs]; ring
      have hcEq : c / E = spe * q := by
        rw [hq', Nat.mul_div_cancel_left _ hE0]
      have hcEm : c % E = 0 := by
        rw [hq', Nat.mul_mod_right]
      have hecq : ec = spe * q := by
        rw [hec, hcEq, hcEm]
        simp
      have hcwl : c / wl = q := by
        rw [hq, Nat.mul_div_cancel_left _ hw]
      rw [hecq, h0, hcwl, Nat.mul_mod_right, Nat.mul_div_cancel_left _ hs]
      simp
    · rw [if_neg h0]
      have hup : ec ≤ c / E + 1 := by
        rw [hec]
        split <;> simp
      by_cases hm : ec % spe = 0
      · have : ec / spe ≤ c / wl + 1 := by
          calc ec / spe ≤ (c / E + 1) / spe := Nat.div_le_div_right hup
          _ ≤ c / E / spe + 1 := succ_div_le_div_succ _ _ hs
          _ = c / wl + 1 := by rw [hcE]
        rw [hm]
        simpa using this
      · have h1 : ec / spe ≤ (ec - 1) / spe := div_le_sub_one_div ec spe hs hm
        have h2 : (ec - 1) / spe ≤ c / E / spe :=
          Nat.div_le_div_right (by rw [hec]; generalize c / E = g; split <;> omega)
        have h3 : ec / spe ≤ c / wl := by
          rw [← hcE]
          exact le_trans h1 h2
        have h4 : (if i % spe < ec % spe then 1 else 0) ≤ 1 := by split <;> omega
        exact Nat.add_le_add h3 h4

/-- The segment sizes set by phase 2 of `spread_two_copies`. -/
theorem stc_sizes (T : BTreePMACC7) (c ss W : ℕ) (si : Option spread_insert) (i : ℕ)
    (hi : i < W) :
    (BTreePMACC7.spread_two_copies T c ss W si).m_storage.m_segment_sizes (ss + i) =
      c / W + (if i < c % W then 1 else 0) := by
  show (if ss ≤ ss + i ∧ ss + i < ss + W then
      c / W + (if ss + i - ss < c % W then 1 else 0)
    else T.m_storage.m_segment_sizes (ss + i)) = _
  rw [if_pos ⟨Nat.le_add_right ss i, by omega⟩]
  simp

/-- Floor of a nonnegative rational times a natural, in integer form. -/
theorem floor_rat_mul_nat (q : ℚ) (n : ℕ) (hq : 0 ≤ q) :
    Int.toNat ⌊q * (n : ℚ)⌋ = q.num.toNat * n / q.den := by
  have h1 : ⌊q * (n : ℚ)⌋ = (q.num * n) / (q.den : ℤ) := by
    conv_lhs => rw [← Rat.num_div_den q]
    rw [div_mul_eq_mul_div]
    rw [show ((n : ℚ)) = ((n : ℤ) : ℚ) by push_cast; ring]
    rw [← Int.cast_mul]
    exact Rat.floor_intCast_div_natCast _ _
  have h2 : (q.num : ℤ) = (q.num.toNat : ℤ) :=
    (Int.toNat_of_nonneg (Rat.num_nonneg.mpr hq)).symm
  rw [h1]
  rw [show q.num * (n : ℤ) = ((q.num.toNat * n : ℕ) : ℤ) by rw [Nat.cast_mul, ← h2]]
  rw [← Int.natCast_div, Int.toNat_natCast]

/-- The decision of `BTreePMACC7::remove` in terms of the real-number
reading of line 1506: a rebalance is invoked iff the key was found,
more than one segment exists and the shrunk segment holds fewer than
`max(⌊ρ₁ · B⌋, 1)` elements, `ρ₁` the lower leaf threshold. -/
theorem remove_decision (T : BTreePMACC7) (key : Int) :
    (BTreePMACC7.remove_triggers_rebalance T key = true ↔
      ((T.remove_core key).1 ≠ -1 ∧
        1 < (T.remove_core key).2.1.m_storage.m_number_segments ∧
        (T.remove_core key).2.2.2 <
          max (Int.toNat ⌊((T.remove_core key).2.1.thresholds 1).1 *
            ((T.remove_core key).2.1.m_storage.m_segment_capacity : ℚ)⌋) 1)) := by
  unfold BTreePMACC7.remove_triggers_rebalance
  rw [floor_rat_mul_nat _ _ ?pos]
  case pos =>
    set H := (T.remove_core key).2.1.m_storage.m_height with hH
    unfold BTreePMACC7.thresholds DensityBounds.thresholds
    split
    · unfold DensityBounds.lower_threshold_leaves
      positivity
    · next h =>
      have hH2 : 2 ≤ H := by omega
      apply Rat.mkRat_nonneg
      push_cast
      omega
  simp [BTreePMACC7.remove_minimum_size]

set_option maxRecDepth 4000000 in
/-- C5 (counterexample): in the well-formed state `c5_state`
(`B = 32`, 32 segments, extent = 16 segments, 673 elements), inserting
key 15 into the full segment 0 resolves to a spread of the whole window
(`W = 32` segments, `N = 674` elements counting the pending insert,
density `337/512 ≤ τ_root = 3/4`) executed with rewiring.  The claim
then demands `674 = 21·32 + 2` elements distributed with exactly the
leftmost two segments holding `22 = ⌈N/W⌉`; instead segment 1 (window
index `1 < N mod W`) holds only 21 elements, while segment 0 holds 23,
exceeding even the ceiling (the rewired spread distributes the
remainder per extent and then inserts the pending element). -/
theorem claim_C5_counterexample :
    BTreePMACC7.rebalance_search c5_state 0 true =
      (674, 0, 32, mkRat 3 10, mkRat 3 4, mkRat 337 512) ∧
    mkRat 337 512 ≤ mkRat 3 4 ∧
    c5_state.m_storage.hasRewired = true ∧
    c5_state.m_storage.extent_size = 4096 ∧
    32 * c5_state.m_storage.m_segment_capacity * 8 ≥ 4096 ∧
    674 / 32 = 21 ∧ 674 % 32 = 2 ∧
    (BTreePMACC7.insert c5_state 15 0).m_storage.m_segment_sizes (0 + 1) = 21 ∧
    (BTreePMACC7.insert c5_state 15 0).m_storage.m_segment_sizes (0 + 0) = 23 := by
  decide

/-- C5 (amended): the two-chunk spread gives every window segment
`⌊N/W⌋` elements with exactly the leftmost `N mod W` segments holding
one extra; the rewired spread distributes its cardinality `N'` (which
excludes a pending insert) first over the extents and then inside each
extent, so each segment receives between `⌊N'/W⌋` and `⌈N'/W⌉`
elements before the pending element (if any) is placed by a
segment-local insert. -/
theorem claim_C5_amended_spread_sizes :
    (∀ (T : BTreePMACC7) (c ss W : ℕ) (si : Option spread_insert) (i : ℕ), i < W →
      (BTreePMACC7.spread_two_copies T c ss W si).m_storage.m_segment_sizes (ss + i) =
        c / W + (if i < c % W then 1 else 0)) ∧
    (∀ (sizes : ℕ → ℕ) (ws wl spe c i : ℕ), 0 < spe → spe ∣ wl → 0 < wl → i < wl →
      c / wl ≤ SpreadWithRewiring.update_segment_sizes sizes ws wl spe c (ws + i) ∧
      SpreadWithRewiring.update_segment_sizes sizes ws wl spe c (ws + i) ≤
        c / wl + (if c % wl = 0 then 0 else 1)) :=
  ⟨stc_sizes, fun sizes ws wl spe c i hs hd hw hi => uss_bounds sizes ws wl spe c i hs hd hw hi⟩

/-- Witness for the amended C5 at concrete windows. -/
theorem claim_C5_amended_witness :
    ((1 : ℕ) < 4 ∧
      (BTreePMACC7.spread_two_copies c6_state 6 0 4 none).m_storage.m_segment_sizes (0 + 1) =
        6 / 4 + (if 1 < 6 % 4 then 1 else 0)) ∧
    ((0 : ℕ) < 2 ∧ (2 : ℕ) ∣ 4 ∧ (0 : ℕ) < 4 ∧ (1 : ℕ) < 4 ∧
      (6 / 4 ≤ SpreadWithRewiring.update_segment_sizes (fun _ => 0) 0 4 2 6 (0 + 1) ∧
        SpreadWithRewiring.update_segment_sizes (fun _ => 0) 0 4 2 6 (0 + 1) ≤
          6 / 4 + (if 6 % 4 = 0 then 0 else 1))) :=
  ⟨⟨by decide, claim_C5_amended_spread_sizes.1 c6_state 6 0 4 none 1 (by decide)⟩,
   ⟨by decide, by decide, by decide, by decide,
    claim_C5_amended_spread_sizes.2 (fun _ => 0) 0 4 2 6 1 (by decide) (by decide)
      (by decide) (by decide)⟩⟩

/-- C6 (counterexample): in the two-segment state `c6_state` (`B = 32`,
`ρ₁ = 2/25`), removing key 300 succeeds (value 30), leaves segment 0
with 2 elements, and `2 < max(⌈ρ₁ · 32⌉, 1) = 3`, so the claim demands
a rebalance — but the code compares against the truncated
`max(⌊ρ₁ · 32⌋, 1) = 2` and does not rebalance. -/
theorem claim_C6_counterexample :
    (BTreePMACC7.remove_core c6_state 300).1 = 30 ∧
    (BTreePMACC7.remove_core c6_state 300).2.2.1 = 0 ∧
    (BTreePMACC7.remove_core c6_state 300).2.2.2 = 2 ∧
    (BTreePMACC7.remove_core c6_state 300).2.1.m_storage.m_number_segments = 2 ∧
    ((BTreePMACC7.remove_core c6_state 300).2.1.thresholds 1).1 = mkRat 2 25 ∧
    (2 : ℕ) < max (Int.toNat ⌈mkRat 2 25 * (32 : ℚ)⌉) 1 ∧
    BTreePMACC7.remove_triggers_rebalance c6_state 300 = false := by
  refine ⟨by decide, by decide, by decide, by decide, by decide, ?ceil, by decide⟩
  case ceil =>
    rw [show mkRat 2 25 * (32 : ℚ) = 64 / 25 by rw [Rat.mkRat_eq_div]; norm_num]
    rw [show ⌈(64 / 25 : ℚ)⌉ = 3 by rw [Int.ceil_eq_iff]; norm_num]
    decide

/-- C6 (amended): after a `remove(k)` that found and deleted `k` from
segment `s`, a rebalance of `s` is invoked if and only if the number of
segments exceeds 1 and the new `seg_size[s]` is strictly less than
`max(⌊ρ₁ · B⌋, 1)` — the `double → size_t` conversion at line 1506
truncates `ρ₁ · B` (the specification's `⌈ρ₁ · B⌉` is wrong); no
rebalance occurs otherwise. -/
theorem claim_C6_remove_rebalance_threshold (T : BTreePMACC7) (key : Int) :
    ((T.remove key).2 =
      if BTreePMACC7.remove_triggers_rebalance T key = true then
        BTreePMACC7.rebalance (T.remove_core key).2.1 (T.remove_core key).2.2.1 none
      else (T.remove_core key).2.1) ∧
    (BTreePMACC7.remove_triggers_rebalance T key = true ↔
      ((T.remove_core key).1 ≠ -1 ∧
        1 < (T.remove_core key).2.1.m_storage.m_number_segments ∧
        (T.remove_core key).2.2.2 <
          max (Int.toNat ⌊((T.remove_core key).2.1.thresholds 1).1 *
            ((T.remove_core key).2.1.m_storage.m_segment_capacity : ℚ)⌋) 1)) := by
  constructor
  · unfold BTreePMACC7.remove BTreePMACC7.remove_triggers_rebalance
    by_cases h : ((T.remove_core key).1 ≠ -1 ∧
        (T.remove_core key).2.1.m_storage.m_number_segments > 1 ∧
        (T.remove_core key).2.2.2 < BTreePMACC7.remove_minimum_size (T.remove_core key).2.1)
    · simp only [h, if_pos, decide_eq_true_eq]
      simp [h]
    · simp [h]
  · exact remove_decision T key

/-- The separator index routes every key to an existing segment. -/
theorem StaticIndex_find_lt (I : StaticIndex) (k : Int) (h : 0 < I.n) :
    I.find k < I.n := by
  unfold StaticIndex.find
  have H : ∀ (l : List ℕ) (acc : ℕ), acc < I.n → (∀ x ∈ l, x < I.n) →
      List.foldl (fun acc s => if I.seps s ≤ k then s else acc) acc l < I.n := by
    intro l
    induction l with
    | nil => exact fun acc hacc _ => hacc
    | cons a as ih =>
      intro acc hacc hall
      simp only [List.foldl_cons]
      apply ih
      · split
        · exact hall a (List.mem_cons_self a as)
        · exact hacc
      · exact fun x hx => hall x (List.mem_cons_of_mem a hx)
  exact H _ 0 h fun x hx => List.mem_range.mp hx

/-- Every key read from a packed run belongs to the logical contents. -/
theorem key_in_content (P : PMA) (i j : ℕ) (hi : i < P.m_number_segments)
    (hj : j < P.m_segment_sizes i) :
    P.m_keys (P.seg_start i + j) ∈ P.content_keys := by
  unfold PMA.content_keys PMA.content
  rw [List.map_flatMap]
  apply List.mem_flatMap.mpr
  refine ⟨i, List.mem_range.mpr hi, ?_⟩
  unfold PMA.seg_slice
  rw [List.map_map]
  exact List.mem_map.mpr ⟨j, List.mem_range.mpr hj, rfl⟩

/-- The linear scan of an even segment fails for a key that is not
stored anywhere. -/
theorem scan_none_even (T : BTreePMACC7) (k : Int) (sid : ℕ)
    (hsid : sid < T.m_storage.m_number_segments)
    (hsz : T.m_storage.m_segment_sizes sid ≤ T.m_storage.m_segment_capacity)
    (hpar : sid % 2 = 0)
    (hk : k ∉ T.m_storage.content_keys) :
    (List.range' (T.m_storage.m_segment_capacity - T.m_storage.m_segment_sizes sid)
        (T.m_storage.m_segment_capacity -
          (T.m_storage.m_segment_capacity - T.m_storage.m_segment_sizes sid))).find?
      (fun i => T.m_storage.m_keys (sid * T.m_storage.m_segment_capacity + i) = k) = none := by
  apply List.find?_eq_none.mpr
  intro i hi
  have hmem := List.mem_range'_1.mp hi
  simp only [decide_eq_true_eq]
  intro heq
  apply hk
  rw [← heq]
  have hpos : sid * T.m_storage.m_segment_capacity + i =
      T.m_storage.seg_start sid +
        (i - (T.m_storage.m_segment_capacity - T.m_storage.m_segment_sizes sid)) := by
    unfold PMA.seg_start
    rw [if_pos hpar]
    omega
  rw [hpos]
  exact key_in_content T.m_storage sid _ hsid (by omega)

/-- The linear scan of an odd segment fails for a key that is not
stored anywhere. -/
theorem scan_none_odd (T : BTreePMACC7) (k : Int) (sid : ℕ)
    (hsid : sid < T.m_storage.m_number_segments)
    (hpar : ¬ sid % 2 = 0)
    (hk : k ∉ T.m_storage.content_keys) :
    (List.range (T.m_storage.m_segment_sizes sid)).find?
      (fun i => T.m_storage.m_keys (sid * T.m_storage.m_segment_capacity + i) = k) = none := by
  apply List.find?_eq_none.mpr
  intro i hi
  have hmem := List.mem_range.mp hi
  simp only [decide_eq_true_eq]
  intro heq
  apply hk
  rw [← heq]
  have hpos : sid * T.m_storage.m_segment_capacity + i = T.m_storage.seg_start sid + i := by
    unfold PMA.seg_start
    rw [if_neg hpar]
  rw [hpos]
  exact key_in_content T.m_storage sid i hsid hmem

/-- `remove_core` on a key that is not stored: the scan fails and
nothing is modified. -/
theorem remove_core_missing (T : BTreePMACC7) (k : Int)
    (hidx : T.m_index.n = T.m_storage.m_number_segments)
    (hn : 0 < T.m_storage.m_number_segments)
    (hsz : ∀ i < T.m_storage.m_number_segments,
      T.m_storage.m_segment_sizes i ≤ T.m_storage.m_segment_capacity)
    (hk : k ∉ T.m_storage.content_keys) :
    (T.remove_core k).1 = -1 ∧ (T.remove_core k).2.1 = T := by
  unfold BTreePMACC7.remove_core
  by_cases hc : T.m_storage.m_cardinality = 0
  · simp [hc]
  · rw [if_neg hc]
    have hsid : T.m_index.find k < T.m_storage.m_number_segments := by
      rw [← hidx]
      exact StaticIndex_find_lt T.m_index k (hidx ▸ hn)
    by_cases hpar : T.m_index.find k % 2 = 0
    · rw [if_pos hpar]
      simp [scan_none_even T k _ hsid (hsz _ hsid) hpar hk]
    · rw [if_neg hpar]
      simp [scan_none_odd T k _ hsid hpar hk]

/-- C4: for every state whose index covers its segments and whose
segment sizes fit the capacity, removing a key that is not stored
(including from the empty container) returns the missing sentinel `-1`
and returns the state unchanged — cardinality, segment sizes, arrays
and separators included. -/
theorem claim_C4_remove_missing (T : BTreePMACC7) (k : Int)
    (hidx : T.m_index.n = T.m_storage.m_number_segments)
    (hn : 0 < T.m_storage.m_number_segments)
    (hsz : ∀ i < T.m_storage.m_number_segments,
      T.m_storage.m_segment_sizes i ≤ T.m_storage.m_segment_capacity)
    (hk : k ∉ T.m_storage.content_keys) :
    T.remove k = (-1, T) := by
  obtain ⟨h1, h2⟩ := remove_core_missing T k hidx hn hsz hk
  unfold BTreePMACC7.remove
  simp [h1, h2]

/-- Witness for C4: removing the absent key `5` from the concrete
two-segment state. -/
theorem claim_C4_witness :
    c6_state.m_index.n = c6_state.m_storage.m_number_segments ∧
    0 < c6_state.m_storage.m_number_segments ∧
    (∀ i < c6_state.m_storage.m_number_segments,
      c6_state.m_storage.m_segment_sizes i ≤ c6_state.m_storage.m_segment_capacity) ∧
    (5 : Int) ∉ c6_state.m_storage.content_keys ∧
    c6_state.remove 5 = (-1, c6_state) :=
  ⟨by decide, by decide, by decide, by decide,
   claim_C4_remove_missing c6_state 5 (by decide) (by decide) (by decide) (by decide)⟩

/-! Infrastructure for the general `sum` correctness proof. -/

theorem content_eq_pos_list (P : PMA) :
    P.content = P.pos_list.map (fun p => (P.m_keys p, P.m_values p)) := by
  unfold PMA.content PMA.pos_list
  rw [List.map_flatMap]
  congr 1
  funext s
  rw [List.range'_eq_map_range, List.map_map]
  rfl

theorem mem_pos_list {P : PMA} {p : ℕ} :
    p ∈ P.pos_list ↔ ∃ s, s < P.m_number_segments ∧
      P.seg_start s ≤ p ∧ p < P.seg_start s + P.m_segment_sizes s := by
  unfold PMA.pos_list
  simp [List.mem_flatMap, List.mem_range, List.mem_range'_1]

theorem seg_start_even (P : PMA) (s : ℕ) (hs : s % 2 = 0)
    (h : P.m_segment_sizes s ≤ P.m_segment_capacity) :
    P.seg_start s = (s + 1) * P.m_segment_capacity - P.m_segment_sizes s := by
  unfold PMA.seg_start
  simp only [hs, if_pos]
  have e : (s + 1) * P.m_segment_capacity = s * P.m_segment_capacity + P.m_segment_capacity := by
    ring
  omega

theorem seg_start_odd (P : PMA) (s : ℕ) (hs : s % 2 = 1) :
    P.seg_start s = s * P.m_segment_capacity := by
  unfold PMA.seg_start
  simp [hs]

theorem seg_start_boundary (P : PMA) (s : ℕ)
    (h1 : P.m_segment_sizes s ≤ P.m_segment_capacity)
    (h2 : P.m_segment_sizes (s + 1) ≤ P.m_segment_capacity) :
    P.seg_start s + P.m_segment_sizes s ≤ P.seg_start (s + 1) := by
  obtain h | h := Nat.mod_two_eq_zero_or_one s
  · have h' : (s + 1) % 2 = 1 := by omega
    rw [seg_start_even P s h h1, seg_start_odd P (s + 1) h']
    have e1 : (s + 1) * P.m_segment_capacity =
        s * P.m_segment_capacity + P.m_segment_capacity := by ring
    omega
  · have h' : (s + 1) % 2 = 0 := by omega
    rw [seg_start_odd P s h, seg_start_even P (s + 1) h' h2]
    have e2 : (s + 1 + 1) * P.m_segment_capacity =
        s * P.m_segment_capacity + 2 * P.m_segment_capacity := by ring
    have e3 : (s + 1 + 1 + 1) * P.m_segment_capacity =
        s * P.m_segment_capacity + 3 * P.m_segment_capacity := by ring
    omega

theorem seg_start_mono (P : PMA)
    (hsz : ∀ i < P.m_number_segments, P.m_segment_sizes i ≤ P.m_segment_capacity) :
    ∀ t, ∀ s < t, t < P.m_number_segments →
      P.seg_start s + P.m_segment_sizes s ≤ P.seg_start t := by
  intro t
  induction t with
  | zero => intro s hs _; omega
  | succ t ih =>
    intro s hs ht
    rcases Nat.lt_succ_iff_lt_or_eq.mp hs with hlt | heq
    · calc P.seg_start s + P.m_segment_sizes s ≤ P.seg_start t := ih s hlt (by omega)
        _ ≤ P.seg_start t + P.m_segment_sizes t := Nat.le_add_right _ _
        _ ≤ P.seg_start (t + 1) :=
          seg_start_boundary P t (hsz t (by omega)) (hsz (t + 1) ht)
    · subst heq
      exact seg_start_boundary P s (hsz s (by omega)) (hsz (s + 1) ht)

theorem run_mem_pos_list {P : PMA} {s p : ℕ} (hs : s < P.m_number_segments)
    (h1 : P.seg_start s ≤ p) (h2 : p < P.seg_start s + P.m_segment_sizes s) :
    p ∈ P.pos_list :=
  mem_pos_list.mpr ⟨s, hs, h1, h2⟩

theorem pos_list_pairwise (P : PMA)
    (hsz : ∀ i < P.m_number_segments, P.m_segment_sizes i ≤ P.m_segment_capacity) :
    P.pos_list.Pairwise (· < ·) := by
  unfold PMA.pos_list
  rw [List.pairwise_flatMap]
  refine ⟨fun s _ => ?_, ?_⟩
  · exact List.pairwise_lt_range' _ _
  · refine List.Pairwise.imp_of_mem ?_ (List.pairwise_lt_range _)
    intro s t hs ht hst
    intro p hp q hq
    rw [List.mem_range] at ht
    rw [List.mem_range'_1] at hp hq
    have := seg_start_mono P hsz t s hst ht
    omega

theorem keys_strict_mono (T : BTreePMACC7) (hwf : WF T) :
    ∀ p ∈ T.m_storage.pos_list, ∀ q ∈ T.m_storage.pos_list, p < q →
      T.m_storage.m_keys p < T.m_storage.m_keys q := by
  have hk : T.m_storage.pos_list.Pairwise
      (fun a b => T.m_storage.m_keys a < T.m_storage.m_keys b) := by
    have h := hwf.hsorted
    unfold PMA.content_keys at h
    rw [content_eq_pos_list, List.map_map, List.pairwise_map] at h
    exact h
  have hp : T.m_storage.pos_list.Pairwise (· < ·) :=
    pos_list_pairwise _ hwf.hsz
  intro p hpmem q hqmem hpq
  obtain ⟨i, hi, hpi⟩ := List.mem_iff_getElem.mp hpmem
  obtain ⟨j, hj, hqj⟩ := List.mem_iff_getElem.mp hqmem
  rw [List.pairwise_iff_getElem] at hk hp
  rcases lt_trichotomy i j with hij | hij | hij
  · have := hk i j hi hj hij
    rwa [hpi, hqj] at this
  · subst hij; rw [hpi] at hqj; omega
  · have := hp j i hj hi hij
    rw [hpi, hqj] at this; omega

theorem range_foldl_if_spec (P : ℕ → Prop) [DecidablePred P] : ∀ n : ℕ,
    ((List.range n).foldl (fun acc s => if P s then s else acc) 0 = 0 ∧
      ∀ s < n, ¬ P s) ∨
    ((List.range n).foldl (fun acc s => if P s then s else acc) 0 < n ∧
      P ((List.range n).foldl (fun acc s => if P s then s else acc) 0) ∧
      ∀ s < n, P s → s ≤ (List.range n).foldl (fun acc s => if P s then s else acc) 0)
  | 0 => Or.inl ⟨rfl, by omega⟩
  | n + 1 => by
    rw [List.range_succ, List.foldl_append, List.foldl_cons, List.foldl_nil]
    rcases range_foldl_if_spec P n with ⟨h0, hall⟩ | ⟨hlt, hp, hmax⟩
    · by_cases hn : P n
      · right
        rw [h0, if_pos hn]
        exact ⟨Nat.lt_succ_self n, hn, fun s hs _ => by omega⟩
      · left
        rw [h0, if_neg hn]
        refine ⟨rfl, fun s hs => ?_⟩
        rcases Nat.lt_succ_iff_lt_or_eq.mp hs with h | h
        · exact hall s h
        · subst h; exact hn
    · by_cases hn : P n
      · right
        rw [if_pos hn]
        exact ⟨Nat.lt_succ_self n, hn, fun s hs _ => by omega⟩
      · right
        rw [if_neg hn]
        refine ⟨by omega, hp, fun s hs hps => ?_⟩
        rcases Nat.lt_succ_iff_lt_or_eq.mp hs with h | h
        · exact hmax s h hps
        · subst h; exact absurd hps hn

theorem find_characterization (I : StaticIndex) (k : Int) :
    (I.find k = 0 ∧ ∀ s < I.n, ¬ I.seps s ≤ k) ∨
    (I.find k < I.n ∧ I.seps (I.find k) ≤ k ∧
      ∀ s < I.n, I.seps s ≤ k → s ≤ I.find k) :=
  range_foldl_if_spec (fun s => I.seps s ≤ k) I.n

theorem find?_range'_spec (f : ℕ → Bool) : ∀ (n a : ℕ),
    ((List.range' a n).find? f = none ∧ ∀ i, a ≤ i → i < a + n → f i = false) ∨
    (∃ o, (List.range' a n).find? f = some o ∧ a ≤ o ∧ o < a + n ∧ f o = true ∧
      ∀ i, a ≤ i → i < o → f i = false)
  | 0, a => Or.inl ⟨rfl, by omega⟩
  | n + 1, a => by
    by_cases hfa : f a
    · right
      refine ⟨a, ?_, le_refl a, by omega, hfa, by omega⟩
      simp [List.range'_succ, List.find?_cons, hfa]
    · rcases find?_range'_spec f n (a + 1) with ⟨hnone, hall⟩ | ⟨o, ho, h1, h2, h3, h4⟩
      · left
        constructor
        · simp [List.range'_succ, List.find?_cons, hfa, hnone]
        · intro i hi1 hi2
          rcases Nat.eq_or_lt_of_le hi1 with h | h
          · subst h; simpa using hfa
          · exact hall i h (by omega)
      · right
        refine ⟨o, ?_, by omega, by omega, h3, ?_⟩
        · simp [List.range'_succ, List.find?_cons, hfa, ho]
        · intro i hi1 hi2
          rcases Nat.eq_or_lt_of_le hi1 with h | h
          · subst h; simpa using hfa
          · exact h4 i h hi2

theorem sum_lower_loop_spec (P : PMA)
    (hsz : ∀ i < P.m_number_segments, P.m_segment_sizes i ≤ P.m_segment_capacity)
    (mn : Int) : ∀ (fuel : ℕ), ∀ (sid : ℕ), P.m_number_segments ≤ sid + fuel →
    (BTreePMACC7.sum_lower_loop P.m_keys P.m_segment_sizes P.m_segment_capacity
        P.m_number_segments mn fuel sid = none ∧
      ∀ s, sid ≤ s → s < P.m_number_segments →
        ∀ p, P.seg_start s ≤ p → p < P.seg_start s + P.m_segment_sizes s →
          P.m_keys p < mn) ∨
    (∃ s o, BTreePMACC7.sum_lower_loop P.m_keys P.m_segment_sizes P.m_segment_capacity
        P.m_number_segments mn fuel sid =
          some (s, o, P.seg_start s + P.m_segment_sizes s) ∧
      sid ≤ s ∧ s < P.m_number_segments ∧
      P.seg_start s ≤ o ∧ o < P.seg_start s + P.m_segment_sizes s ∧
      ¬ P.m_keys o < mn ∧
      (∀ p, P.seg_start s ≤ p → p < o → P.m_keys p < mn) ∧
      (∀ t, sid ≤ t → t < s →
        ∀ p, P.seg_start t ≤ p → p < P.seg_start t + P.m_segment_sizes t →
          P.m_keys p < mn)) := by
  intro fuel
  induction fuel with
  | zero =>
    intro sid hfuel
    left
    exact ⟨rfl, fun s hs1 hs2 => by omega⟩
  | succ fuel ih =>
    intro sid hfuel
    by_cases hsid : sid < P.m_number_segments
    · have hstart : (if sid % 2 = 0
          then (sid + 1) * P.m_segment_capacity - P.m_segment_sizes sid
          else sid * P.m_segment_capacity) = P.seg_start sid := by
        obtain h | h := Nat.mod_two_eq_zero_or_one sid
        · rw [if_pos h, seg_start_even P sid h (hsz sid hsid)]
        · rw [if_neg (by omega), seg_start_odd P sid h]
      have hstop : (if sid % 2 = 0
          then (sid + 1) * P.m_segment_capacity
          else sid * P.m_segment_capacity + P.m_segment_sizes sid) =
          P.seg_start sid + P.m_segment_sizes sid := by
        obtain h | h := Nat.mod_two_eq_zero_or_one sid
        · rw [if_pos h, seg_start_even P sid h (hsz sid hsid)]
          have e1 : (sid + 1) * P.m_segment_capacity =
              sid * P.m_segment_capacity + P.m_segment_capacity := by ring
          have := hsz sid hsid
          omega
        · rw [if_neg (by omega), seg_start_odd P sid h]
      have hlen : (if sid % 2 = 0
          then (sid + 1) * P.m_segment_capacity
          else sid * P.m_segment_capacity + P.m_segment_sizes sid) -
          (if sid % 2 = 0
          then (sid + 1) * P.m_segment_capacity - P.m_segment_sizes sid
          else sid * P.m_segment_capacity) = P.m_segment_sizes sid := by
        rw [hstart, hstop]; omega
      have heq : BTreePMACC7.sum_lower_loop P.m_keys P.m_segment_sizes P.m_segment_capacity
          P.m_number_segments mn (fuel + 1) sid =
          match (List.range' (P.seg_start sid) (P.m_segment_sizes sid)).find?
              (fun o => decide (¬ P.m_keys o < mn)) with
          | some o => some (sid, o, P.seg_start sid + P.m_segment_sizes sid)
          | none => BTreePMACC7.sum_lower_loop P.m_keys P.m_segment_sizes P.m_segment_capacity
              P.m_number_segments mn fuel (sid + 1) := by
        simp only [BTreePMACC7.sum_lower_loop, if_pos hsid]
        rw [hlen, hstart, hstop]
      rcases find?_range'_spec (fun o => decide (¬ P.m_keys o < mn))
          (P.m_segment_sizes sid) (P.seg_start sid) with ⟨hnone, hall⟩ | ⟨o, ho, h1, h2, h3, h4⟩
      · have hallk : ∀ p, P.seg_start sid ≤ p → p < P.seg_start sid + P.m_segment_sizes sid →
            P.m_keys p < mn := by
          intro p hp1 hp2
          have := hall p hp1 hp2
          simpa using this
        rw [hnone] at heq
        rcases ih (sid + 1) (by omega) with ⟨hrec, hrall⟩ | ⟨s, o, hro, hs1, hs2, hs3, hs4, hs5, hs6, hs7⟩
        · left
          refine ⟨by rw [heq]; exact hrec, ?_⟩
          intro s hs1 hs2 p hp1 hp2
          rcases Nat.eq_or_lt_of_le hs1 with h | h
          · subst h; exact hallk p hp1 hp2
          · exact hrall s h hs2 p hp1 hp2
        · right
          refine ⟨s, o, by rw [heq]; exact hro, by omega, hs2, hs3, hs4, hs5, hs6, ?_⟩
          intro t ht1 ht2 p hp1 hp2
          rcases Nat.eq_or_lt_of_le ht1 with h | h
          · subst h; exact hallk p hp1 hp2
          · exact hs7 t h ht2 p hp1 hp2
      · right
        rw [ho] at heq
        refine ⟨sid, o, heq, le_refl sid, hsid, h1, h2, by simpa using h3, ?_, ?_⟩
        · intro p hp1 hp2
          have := h4 p hp1 hp2
          simpa using this
        · intro t ht1 ht2 p hp1 hp2
          omega
    · left
      constructor
      · simp only [BTreePMACC7.sum_lower_loop, if_neg hsid]
      · intro s hs1 hs2 p
        omega

theorem sum_scan_down_spec (keys : ℕ → Int) (mx : Int) (stop : Int) :
    ∀ (fuel : ℕ) (start : Int), start - stop + 1 ≤ (fuel : Int) →
    (BTreePMACC7.sum_scan_down keys mx stop fuel start = none ∧
      ∀ i : Int, stop ≤ i → i ≤ start → keys i.toNat > mx) ∨
    (∃ o : Int, BTreePMACC7.sum_scan_down keys mx stop fuel start = some o ∧
      stop ≤ o ∧ o ≤ start ∧ ¬ keys o.toNat > mx ∧
      ∀ i : Int, o < i → i ≤ start → keys i.toNat > mx) := by
  intro fuel
  induction fuel with
  | zero =>
    intro start hfuel
    left
    exact ⟨rfl, fun i hi1 hi2 => by omega⟩
  | succ fuel ih =>
    intro start hfuel
    by_cases hos : start ≥ stop
    · by_cases hk : keys start.toNat > mx
      · have heq : BTreePMACC7.sum_scan_down keys mx stop (fuel + 1) start =
            BTreePMACC7.sum_scan_down keys mx stop fuel (start - 1) := by
          simp only [BTreePMACC7.sum_scan_down, if_pos hos, if_pos hk]
        rcases ih (start - 1) (by omega) with ⟨hnone, hall⟩ | ⟨o, ho, h1, h2, h3, h4⟩
        · left
          refine ⟨by rw [heq]; exact hnone, ?_⟩
          intro i hi1 hi2
          rcases eq_or_lt_of_le hi2 with h | h
          · subst h; exact hk
          · exact hall i hi1 (by omega)
        · right
          refine ⟨o, by rw [heq]; exact ho, h1, by omega, h3, ?_⟩
          intro i hi1 hi2
          rcases eq_or_lt_of_le hi2 with h | h
          · subst h; exact hk
          · exact h4 i hi1 (by omega)
      · right
        refine ⟨start, ?_, hos, le_refl start, hk, fun i hi1 hi2 => by omega⟩
        simp only [BTreePMACC7.sum_scan_down, if_pos hos, if_neg hk]
    · left
      refine ⟨?_, fun i hi1 hi2 => by omega⟩
      simp only [BTreePMACC7.sum_scan_down, if_neg hos]

theorem sum_upper_loop_first (P : PMA)
    (hsz : ∀ i < P.m_number_segments, P.m_segment_sizes i ≤ P.m_segment_capacity)
    (mx : Int) (se : ℕ) (hse : se < P.m_number_segments)
    (hpos : 0 < P.m_segment_sizes se)
    (hmin : P.m_keys (P.seg_start se) ≤ mx)
    (interval_start : Int) (his : interval_start ≤ (se : Int))
    (fuel : ℕ) (hfuel : 1 ≤ fuel) (offset : Int) :
    ∃ o : ℕ, BTreePMACC7.sum_upper_loop P.m_keys P.m_segment_sizes P.m_segment_capacity
        mx interval_start fuel (se : Int) offset = (o : Int) ∧
      P.seg_start se ≤ o ∧ o < P.seg_start se + P.m_segment_sizes se ∧
      P.m_keys o ≤ mx ∧
      ∀ p : ℕ, o < p → p < P.seg_start se + P.m_segment_sizes se → P.m_keys p > mx := by
  obtain ⟨fuel, rfl⟩ : ∃ f, fuel = f + 1 := ⟨fuel - 1, by omega⟩
  have hszB := hsz se hse
  have htn : ((se : Int)).toNat = se := Int.toNat_natCast se
  have hstart : (if ((se : Int)) % 2 = 0
      then ((se : Int) + 1) * P.m_segment_capacity - 1
      else (se : Int) * P.m_segment_capacity + (P.m_segment_sizes se : Int) - 1) =
      (P.seg_start se : Int) + P.m_segment_sizes se - 1 := by
    obtain h | h := Nat.mod_two_eq_zero_or_one se
    · have hip : ((se : Int)) % 2 = 0 := by omega
      rw [if_pos hip, seg_start_even P se h hszB]
      have hc : ((se + 1) * P.m_segment_capacity - P.m_segment_sizes se) +
          P.m_segment_sizes se = (se + 1) * P.m_segment_capacity := by
        have e1 : (se + 1) * P.m_segment_capacity =
            se * P.m_segment_capacity + P.m_segment_capacity := by ring
        omega
      have hcI := congrArg (Nat.cast : ℕ → ℤ) hc
      push_cast at hcI
      omega
    · have hip : ¬ ((se : Int)) % 2 = 0 := by omega
      rw [if_neg hip, seg_start_odd P se h]
      push_cast
      ring
  have hstop : (if ((se : Int)) % 2 = 0
      then ((se : Int) + 1) * P.m_segment_capacity - 1 - (P.m_segment_sizes se : Int)
      else (se : Int) * P.m_segment_capacity) =
      (P.seg_start se : Int) - (if ((se : Int)) % 2 = 0 then 1 else 0) := by
    obtain h | h := Nat.mod_two_eq_zero_or_one se
    · have hip : ((se : Int)) % 2 = 0 := by omega
      rw [if_pos hip, if_pos hip, seg_start_even P se h hszB]
      have hc : ((se + 1) * P.m_segment_capacity - P.m_segment_sizes se) +
          P.m_segment_sizes se = (se + 1) * P.m_segment_capacity := by
        have e1 : (se + 1) * P.m_segment_capacity =
            se * P.m_segment_capacity + P.m_segment_capacity := by ring
        omega
      have hcI := congrArg (Nat.cast : ℕ → ℤ) hc
      push_cast at hcI
      omega
    · have hip : ¬ ((se : Int)) % 2 = 0 := by omega
      rw [if_neg hip, if_neg hip, seg_start_odd P se h]
      push_cast
      ring
  have heq : BTreePMACC7.sum_upper_loop P.m_keys P.m_segment_sizes P.m_segment_capacity
      mx interval_start (fuel + 1) (se : Int) offset =
      match BTreePMACC7.sum_scan_down P.m_keys mx
          ((P.seg_start se : Int) - (if ((se : Int)) % 2 = 0 then 1 else 0))
          ((((P.seg_start se : Int) + P.m_segment_sizes se - 1) -
            ((P.seg_start se : Int) - (if ((se : Int)) % 2 = 0 then 1 else 0)) + 2).toNat)
          ((P.seg_start se : Int) + P.m_segment_sizes se - 1) with
      | some o => o
      | none => BTreePMACC7.sum_upper_loop P.m_keys P.m_segment_sizes P.m_segment_capacity
          mx interval_start fuel ((se : Int) - 1)
          (((P.seg_start se : Int) - (if ((se : Int)) % 2 = 0 then 1 else 0)) - 1) := by
    simp only [BTreePMACC7.sum_upper_loop, if_pos his, htn]
    rw [hstart, hstop]
  have hfuel2 : ((P.seg_start se : Int) + P.m_segment_sizes se - 1) -
      ((P.seg_start se : Int) - (if ((se : Int)) % 2 = 0 then 1 else 0)) + 1 ≤
      (((((P.seg_start se : Int) + P.m_segment_sizes se - 1) -
        ((P.seg_start se : Int) - (if ((se : Int)) % 2 = 0 then 1 else 0)) + 2)).toNat : Int) := by
    split <;> omega
  rcases sum_scan_down_spec P.m_keys mx _ _ _ hfuel2 with
    ⟨hnone, hall⟩ | ⟨o, ho, h1, h2, h3, h4⟩
  · exfalso
    have := hall (P.seg_start se : Int) (by split <;> omega) (by omega)
    rw [Int.toNat_natCast] at this
    omega
  · have hge : (P.seg_start se : Int) ≤ o := by
      by_contra hcon
      push_neg at hcon
      have := h4 (P.seg_start se : Int) hcon (by omega)
      rw [Int.toNat_natCast] at this
      omega
    have ho0 : 0 ≤ o := le_trans (by omega) hge
    refine ⟨o.toNat, ?_, by omega, by omega, by simpa [Int.toNat_of_nonneg ho0] using h3, ?_⟩
    · rw [heq, ho, Int.toNat_of_nonneg ho0]
    · intro p hp1 hp2
      have := h4 (p : Int) (by omega) (by omega)
      rwa [Int.toNat_natCast] at this

theorem filter_split_gap (lo mid mid' hi : Int) (h1 : lo ≤ mid) (h2 : mid ≤ mid')
    (h3 : mid ≤ hi) :
    ∀ l : List ℕ, l.Pairwise (· < ·) →
    (∀ p ∈ l, ¬ (mid ≤ (p : Int) ∧ (p : Int) < mid')) →
    l.filter (fun (p : ℕ) => decide (lo ≤ (p : Int) ∧ (p : Int) < hi)) =
      l.filter (fun (p : ℕ) => decide (lo ≤ (p : Int) ∧ (p : Int) < mid)) ++
      l.filter (fun (p : ℕ) => decide (mid' ≤ (p : Int) ∧ (p : Int) < hi))
  | [], _, _ => by simp
  | a :: t, hp, hgap => by
    have hpt : t.Pairwise (· < ·) := hp.of_cons
    have hat : ∀ q ∈ t, a < q := fun q hq => List.rel_of_pairwise_cons hp hq
    have hgt : ∀ p ∈ t, ¬ (mid ≤ (p : Int) ∧ (p : Int) < mid') := fun p hpm =>
      hgap p (List.mem_cons_of_mem a hpm)
    have ih := filter_split_gap lo mid mid' hi h1 h2 h3 t hpt hgt
    have hga : ¬ (mid ≤ (a : Int) ∧ (a : Int) < mid') := hgap a (List.mem_cons_self a t)
    rcases lt_or_le (a : Int) lo with hc1 | hc1
    · -- a below the window: dropped everywhere
      rw [List.filter_cons, List.filter_cons, List.filter_cons,
        if_neg (by simp; omega), if_neg (by simp; omega), if_neg (by simp; omega)]
      exact ih
    · rcases lt_or_le (a : Int) mid with hc2 | hc2
      · -- a in the first chunk
        rcases lt_or_le (a : Int) hi with hc3 | hc3
        · rw [List.filter_cons, List.filter_cons, List.filter_cons,
            if_pos (by simp; omega), if_pos (by simp; omega), if_neg (by simp; omega)]
          rw [List.cons_append]
          exact congrArg (a :: ·) ih
        · omega
      · -- a at or beyond mid: by the gap hypothesis, a ≥ mid'
        have hc4 : mid' ≤ (a : Int) := by omega
        rcases lt_or_le (a : Int) hi with hc5 | hc5
        · -- a in the second chunk: the first chunk of t is empty
          have ht1 : t.filter (fun (p : ℕ) => decide (lo ≤ (p : Int) ∧ (p : Int) < mid)) = [] := by
            rw [List.filter_eq_nil_iff]
            intro q hq
            have := hat q hq
            simp
            omega
          have ht2 : t.filter (fun (p : ℕ) => decide (lo ≤ (p : Int) ∧ (p : Int) < hi)) =
              t.filter (fun (p : ℕ) => decide (mid' ≤ (p : Int) ∧ (p : Int) < hi)) := by
            apply List.filter_congr
            intro q hq
            have := hat q hq
            simp only [decide_eq_decide]
            omega
          rw [List.filter_cons, List.filter_cons, List.filter_cons,
            if_pos (by simp; omega), if_neg (by simp; omega), if_pos (by simp; omega)]
          rw [ht1, ht2, List.nil_append]
        · -- a beyond the window: dropped everywhere
          rw [List.filter_cons, List.filter_cons, List.filter_cons,
            if_neg (by simp; omega), if_neg (by simp; omega), if_neg (by simp; omega)]
          exact ih

theorem filter_eq_range'_of_contig (l : List ℕ) (hl : l.Pairwise (· < ·)) (off stp : Int)
    (h0 : 0 ≤ off) (hos : off ≤ stp)
    (hcontig : ∀ i : ℕ, off ≤ (i : Int) → (i : Int) < stp → i ∈ l) :
    l.filter (fun (p : ℕ) => decide (off ≤ (p : Int) ∧ (p : Int) < stp)) =
      List.range' off.toNat (stp - off).toNat := by
  have hnd : l.Nodup := hl.nodup
  have hperm : (l.filter (fun (p : ℕ) => decide (off ≤ (p : Int) ∧ (p : Int) < stp))).Perm
      (List.range' off.toNat (stp - off).toNat) := by
    rw [List.perm_ext_iff_of_nodup (hnd.filter _) (List.pairwise_lt_range' _ _).nodup]
    intro x
    rw [List.mem_filter, List.mem_range'_1]
    constructor
    · rintro ⟨_, hx⟩
      simp only [decide_eq_true_eq] at hx
      omega
    · intro hx
      have hx1 : off ≤ (x : Int) := by omega
      have hx2 : (x : Int) < stp := by omega
      exact ⟨hcontig x hx1 hx2, by simp; omega⟩
  exact @List.eq_of_perm_of_sorted ℕ (· < ·) ⟨fun a b h1 h2 => by omega⟩ _ _ hperm
    (hl.filter _) (List.pairwise_lt_range' _ _)

theorem seg_start_le_blockEnd (P : PMA) (s : ℕ)
    (hsz : ∀ i < P.m_number_segments, P.m_segment_sizes i ≤ P.m_segment_capacity)
    (hs : s < P.m_number_segments) :
    P.seg_start s ≤ blockEnd P s := by
  unfold blockEnd
  split
  · next hc =>
    have := seg_start_boundary P s (hsz s hs) (hsz (s + 1) hc.2)
    omega
  · omega

theorem block_contig (P : PMA) (s : ℕ)
    (hsz : ∀ i < P.m_number_segments, P.m_segment_sizes i ≤ P.m_segment_capacity)
    (hs : s < P.m_number_segments) :
    ∀ p : ℕ, P.seg_start s ≤ p → p < blockEnd P s → p ∈ P.pos_list := by
  intro p hp1 hp2
  unfold blockEnd at hp2
  by_cases hc : s % 2 = 0 ∧ s + 1 < P.m_number_segments
  · rw [if_pos hc] at hp2
    by_cases hin : p < P.seg_start s + P.m_segment_sizes s
    · exact run_mem_pos_list hs hp1 hin
    · push_neg at hin
      have hrunend : P.seg_start s + P.m_segment_sizes s = P.seg_start (s + 1) := by
        have h1 : (s + 1) % 2 = 1 := by omega
        rw [seg_start_even P s hc.1 (hsz s hs), seg_start_odd P (s + 1) h1]
        have e1 : (s + 1) * P.m_segment_capacity =
            s * P.m_segment_capacity + P.m_segment_capacity := by ring
        have := hsz s hs
        omega
      refine run_mem_pos_list hc.2 ?_ hp2
      omega
  · rw [if_neg hc] at hp2
    exact run_mem_pos_list hs hp1 hp2

theorem no_pos_in_gap (P : PMA)
    (hsz : ∀ i < P.m_number_segments, P.m_segment_sizes i ≤ P.m_segment_capacity)
    (u : ℕ) (hu : u < P.m_number_segments) :
    ∀ p ∈ P.pos_list,
      ¬ (P.seg_start u + P.m_segment_sizes u ≤ p ∧ p < P.seg_start (u + 1)) := by
  intro p hp ⟨hge, hlt⟩
  obtain ⟨t, ht, htp1, htp2⟩ := mem_pos_list.mp hp
  rcases lt_trichotomy t u with hc | rfl | hc
  · have := seg_start_mono P hsz u t hc hu
    omega
  · omega
  · rcases Nat.eq_or_lt_of_le hc with hc2 | hc2
    · have hc2' : u + 1 = t := hc2
      rw [← hc2'] at htp1 htp2
      omega
    · have := seg_start_mono P hsz t (u + 1) hc2 ht
      omega

theorem acc_exit (keys values : ℕ → Int) (sizes : ℕ → ℕ) (B nSegs : ℕ) (endp : Int)
    (offset stop : Int) (hge : ¬ offset < endp) :
    ∀ (fuel : ℕ) (sid : Int) (cnt : ℕ) (sk sv : Int),
      BTreePMACC7.sum_acc_loop keys values sizes B nSegs endp fuel sid offset stop cnt sk sv =
        (cnt, sk, sv)
  | 0, _, _, _, _ => rfl
  | fuel + 1, sid, cnt, sk, sv => by
    simp only [BTreePMACC7.sum_acc_loop, if_neg hge]

theorem acc_step_even_cont (keys values : ℕ → Int) (sizes : ℕ → ℕ) (B nSegs : ℕ)
    (endp : Int) (fuel : ℕ) (s : ℕ) (offset stop : Int) (cnt : ℕ) (sk sv : Int)
    (hlt : offset < endp) (h : s % 2 = 0) (hb : s + 2 < nSegs) :
    BTreePMACC7.sum_acc_loop keys values sizes B nSegs endp (fuel + 1)
        (s : Int) offset stop cnt sk sv =
      BTreePMACC7.sum_acc_loop keys values sizes B nSegs endp fuel ((s + 2 : ℕ) : Int)
        ((((s + 2 : ℕ) : Int) + 1) * B - (sizes (s + 2) : Int))
        (min endp ((((s + 2 : ℕ) : Int) + 1) * B - (sizes (s + 2) : Int) +
          (sizes (s + 2) : Int) + (sizes (s + 2 + 1) : Int)))
        (cnt + (stop - offset).toNat)
        (sk + ((List.range (stop - offset).toNat).map fun j => keys (offset + j).toNat).sum)
        (sv + ((List.range (stop - offset).toNat).map fun j => values (offset + j).toNat).sum) := by
  have hip : ((s : Int)) % 2 = 0 := by omega
  have e1 : (s : Int) + 1 + (if (s : Int) % 2 = 0 then (1 : Int) else 0) =
      ((s + 2 : ℕ) : Int) := by
    rw [if_pos hip]; push_cast; ring
  simp only [BTreePMACC7.sum_acc_loop, if_pos hlt, e1, Int.toNat_natCast]
  rw [if_pos (show ((s + 2 : ℕ) : Int) < (nSegs : Int) by exact_mod_cast hb)]

theorem acc_step_even_exit (keys values : ℕ → Int) (sizes : ℕ → ℕ) (B nSegs : ℕ)
    (endp : Int) (fuel : ℕ) (s : ℕ) (offset stop : Int) (cnt : ℕ) (sk sv : Int)
    (hlt : offset < endp) (h : s % 2 = 0) (hb : ¬ s + 2 < nSegs) :
    BTreePMACC7.sum_acc_loop keys values sizes B nSegs endp (fuel + 1)
        (s : Int) offset stop cnt sk sv =
      BTreePMACC7.sum_acc_loop keys values sizes B nSegs endp fuel ((s + 2 : ℕ) : Int)
        stop stop
        (cnt + (stop - offset).toNat)
        (sk + ((List.range (stop - offset).toNat).map fun j => keys (offset + j).toNat).sum)
        (sv + ((List.range (stop - offset).toNat).map fun j => values (offset + j).toNat).sum) := by
  have hip : ((s : Int)) % 2 = 0 := by omega
  have e1 : (s : Int) + 1 + (if (s : Int) % 2 = 0 then (1 : Int) else 0) =
      ((s + 2 : ℕ) : Int) := by
    rw [if_pos hip]; push_cast; ring
  simp only [BTreePMACC7.sum_acc_loop, if_pos hlt, e1, Int.toNat_natCast]
  rw [if_neg (show ¬ ((s + 2 : ℕ) : Int) < (nSegs : Int) by exact_mod_cast hb)]

theorem acc_step_odd_cont (keys values : ℕ → Int) (sizes : ℕ → ℕ) (B nSegs : ℕ)
    (endp : Int) (fuel : ℕ) (s : ℕ) (offset stop : Int) (cnt : ℕ) (sk sv : Int)
    (hlt : offset < endp) (h : s % 2 = 1) (hb : s + 1 < nSegs) :
    BTreePMACC7.sum_acc_loop keys values sizes B nSegs endp (fuel + 1)
        (s : Int) offset stop cnt sk sv =
      BTreePMACC7.sum_acc_loop keys values sizes B nSegs endp fuel ((s + 1 : ℕ) : Int)
        ((((s + 1 : ℕ) : Int) + 1) * B - (sizes (s + 1) : Int))
        (min endp ((((s + 1 : ℕ) : Int) + 1) * B - (sizes (s + 1) : Int) +
          (sizes (s + 1) : Int) + (sizes (s + 1 + 1) : Int)))
        (cnt + (stop - offset).toNat)
        (sk + ((List.range (stop - offset).toNat).map fun j => keys (offset + j).toNat).sum)
        (sv + ((List.range (stop - offset).toNat).map fun j => values (offset + j).toNat).sum) := by
  have hip : ¬ ((s : Int)) % 2 = 0 := by omega
  have e1 : (s : Int) + 1 + (if (s : Int) % 2 = 0 then (1 : Int) else 0) =
      ((s + 1 : ℕ) : Int) := by
    rw [if_neg hip]; push_cast; ring
  simp only [BTreePMACC7.sum_acc_loop, if_pos hlt, e1, Int.toNat_natCast]
  rw [if_pos (show ((s + 1 : ℕ) : Int) < (nSegs : Int) by exact_mod_cast hb)]

theorem acc_step_odd_exit (keys values : ℕ → Int) (sizes : ℕ → ℕ) (B nSegs : ℕ)
    (endp : Int) (fuel : ℕ) (s : ℕ) (offset stop : Int) (cnt : ℕ) (sk sv : Int)
    (hlt : offset < endp) (h : s % 2 = 1) (hb : ¬ s + 1 < nSegs) :
    BTreePMACC7.sum_acc_loop keys values sizes B nSegs endp (fuel + 1)
        (s : Int) offset stop cnt sk sv =
      BTreePMACC7.sum_acc_loop keys values sizes B nSegs endp fuel ((s + 1 : ℕ) : Int)
        stop stop
        (cnt + (stop - offset).toNat)
        (sk + ((List.range (stop - offset).toNat).map fun j => keys (offset + j).toNat).sum)
        (sv + ((List.range (stop - offset).toNat).map fun j => values (offset + j).toNat).sum) := by
  have hip : ¬ ((s : Int)) % 2 = 0 := by omega
  have e1 : (s : Int) + 1 + (if (s : Int) % 2 = 0 then (1 : Int) else 0) =
      ((s + 1 : ℕ) : Int) := by
    rw [if_neg hip]; push_cast; ring
  simp only [BTreePMACC7.sum_acc_loop, if_pos hlt, e1, Int.toNat_natCast]
  rw [if_neg (show ¬ ((s + 1 : ℕ) : Int) < (nSegs : Int) by exact_mod_cast hb)]

theorem chunk_sum_eq (f : ℕ → Int) (offset : Int) (h0 : 0 ≤ offset) (n : ℕ) :
    ((List.range n).map fun j => f (offset + j).toNat).sum =
      ((List.range' offset.toNat n).map f).sum := by
  rw [List.range'_eq_map_range, List.map_map]
  simp only [List.pure_def, List.bind_eq_flatMap]
  have hndo : ((List.range n).flatMap fun a => [((a : ℕ) : Int)]) =
      (List.range n).map (fun (a : ℕ) => (a : Int)) := by
    induction List.range n with
    | nil => rfl
    | cons a t ih => simp [List.flatMap_cons, ih]
  rw [hndo, List.map_map]
  apply congrArg
  apply List.map_congr_left
  intro j _
  simp only [Function.comp_apply]
  congr 1
  omega

theorem seg_start_even_int (P : PMA) (s : ℕ) (h : s % 2 = 0)
    (hszB : P.m_segment_sizes s ≤ P.m_segment_capacity) :
    ((P.seg_start s : ℕ) : Int) =
      ((s : Int) + 1) * P.m_segment_capacity - P.m_segment_sizes s := by
  rw [seg_start_even P s h hszB]
  have hc : ((s + 1) * P.m_segment_capacity - P.m_segment_sizes s) + P.m_segment_sizes s
      = (s + 1) * P.m_segment_capacity := by
    have e1 : (s + 1) * P.m_segment_capacity =
        s * P.m_segment_capacity + P.m_segment_capacity := by ring
    omega
  have hcI := congrArg (Nat.cast : ℕ → ℤ) hc
  push_cast at hcI
  omega

theorem blockEnd_int_even (P : PMA) (s : ℕ) (h : s % 2 = 0)
    (hb : s + 1 < P.m_number_segments) :
    ((blockEnd P s : ℕ) : Int) =
      ((s : Int) + 1) * P.m_segment_capacity + P.m_segment_sizes (s + 1) := by
  unfold blockEnd
  rw [if_pos ⟨h, hb⟩, seg_start_odd P (s + 1) (by omega)]
  push_cast
  ring

theorem blockEnd_else (P : PMA) (s : ℕ)
    (h : ¬ (s % 2 = 0 ∧ s + 1 < P.m_number_segments)) :
    blockEnd P s = P.seg_start s + P.m_segment_sizes s := by
  unfold blockEnd
  rw [if_neg h]

theorem blockEnd_le_next_even (P : PMA)
    (hsz : ∀ i < P.m_number_segments, P.m_segment_sizes i ≤ P.m_segment_capacity)
    (s : ℕ) (h : s % 2 = 0) (hb : s + 2 < P.m_number_segments) :
    blockEnd P s ≤ P.seg_start (s + 2) := by
  show blockEnd P s ≤ P.seg_start (s + 1 + 1)
  unfold blockEnd
  rw [if_pos ⟨h, by omega⟩]
  have := seg_start_boundary P (s + 1) (hsz (s + 1) (by omega))
    (hsz (s + 1 + 1) (by omega))
  omega

theorem blockEnd_le_next_odd (P : PMA)
    (hsz : ∀ i < P.m_number_segments, P.m_segment_sizes i ≤ P.m_segment_capacity)
    (s : ℕ) (h : s % 2 = 1) (hb : s + 1 < P.m_number_segments) :
    blockEnd P s ≤ P.seg_start (s + 1) := by
  rw [blockEnd_else P s (by omega)]
  exact seg_start_boundary P s (hsz s (by omega)) (hsz (s + 1) hb)

theorem acc_account (P : PMA)
    (hsz : ∀ i < P.m_number_segments, P.m_segment_sizes i ≤ P.m_segment_capacity)
    (s : ℕ) (hs : s < P.m_number_segments) (X : ℕ) (offset stop endp : Int)
    (h0 : 0 ≤ offset) (hoff : ((P.seg_start s : ℕ) : Int) ≤ offset)
    (hos : offset ≤ stop) (hse : stop ≤ endp)
    (hsb : stop ≤ ((blockEnd P s : ℕ) : Int))
    (hXge : ((blockEnd P s : ℕ) : Int) ≤ (X : Int))
    (hgap : ∀ p ∈ P.pos_list, ¬ (blockEnd P s ≤ p ∧ p < X))
    (hstopc : stop = endp ∨ stop = ((blockEnd P s : ℕ) : Int)) :
    posCount P offset endp = (stop - offset).toNat + posCount P (X : Int) endp ∧
    ∀ f : ℕ → Int, posSum P f offset endp =
      ((List.range (stop - offset).toNat).map fun j => f (offset + j).toNat).sum +
        posSum P f (X : Int) endp := by
  have hpair := pos_list_pairwise P hsz
  have hcontig : ∀ i : ℕ, offset ≤ (i : Int) → (i : Int) < stop → i ∈ P.pos_list := by
    intro i hi1 hi2
    exact block_contig P s hsz hs i (by omega) (by omega)
  have hchunk := filter_eq_range'_of_contig P.pos_list hpair offset stop h0 hos hcontig
  rcases hstopc with hstopc | hstopc
  · -- the chunk reaches endp: nothing remains beyond X
    subst hstopc
    have htail : P.pos_list.filter
        (fun (p : ℕ) => decide ((X : Int) ≤ (p : Int) ∧ (p : Int) < stop)) = [] := by
      rw [List.filter_eq_nil_iff]
      intro p _
      simp only [decide_eq_true_eq]
      omega
    refine ⟨?_, ?_⟩
    · simp only [posCount, posFilter]
      rw [hchunk, htail, List.length_range']
      simp
    · intro f
      simp only [posSum, posFilter]
      rw [hchunk, htail]
      simp only [List.map_nil, List.sum_nil, add_zero]
      rw [chunk_sum_eq f offset h0]
  · -- the chunk stops at the block end: split around the empty gap
    have hsplit := filter_split_gap offset stop (X : Int) endp hos (by omega) hse
      P.pos_list hpair (by
        intro p hp
        simp only [not_and]
        intro hp1 hp2
        have := hgap p hp
        rw [hstopc] at hp1
        omega)
    refine ⟨?_, ?_⟩
    · simp only [posCount, posFilter]
      rw [hsplit, List.length_append, hchunk, List.length_range']
    · intro f
      simp only [posSum, posFilter]
      rw [hsplit, List.map_append, List.sum_append, hchunk]
      rw [chunk_sum_eq f offset h0]

theorem acc_account_last (P : PMA)
    (hsz : ∀ i < P.m_number_segments, P.m_segment_sizes i ≤ P.m_segment_capacity)
    (s : ℕ) (hs : s < P.m_number_segments) (offset endp : Int)
    (h0 : 0 ≤ offset) (hoff : ((P.seg_start s : ℕ) : Int) ≤ offset)
    (hos : offset ≤ endp) (hsb : endp ≤ ((blockEnd P s : ℕ) : Int)) :
    posCount P offset endp = (endp - offset).toNat ∧
    ∀ f : ℕ → Int, posSum P f offset endp =
      ((List.range (endp - offset).toNat).map fun j => f (offset + j).toNat).sum := by
  have hpair := pos_list_pairwise P hsz
  have hcontig : ∀ i : ℕ, offset ≤ (i : Int) → (i : Int) < endp → i ∈ P.pos_list := by
    intro i hi1 hi2
    exact block_contig P s hsz hs i (by omega) (by omega)
  have hchunk := filter_eq_range'_of_contig P.pos_list hpair offset endp h0 hos hcontig
  refine ⟨?_, ?_⟩
  · simp only [posCount, posFilter]
    rw [hchunk, List.length_range']
  · intro f
    simp only [posSum, posFilter]
    rw [hchunk, chunk_sum_eq f offset h0]

theorem sum_acc_loop_spec (P : PMA)
    (hsz : ∀ i < P.m_number_segments, P.m_segment_sizes i ≤ P.m_segment_capacity)
    (heven : P.m_number_segments % 2 = 0 ∨ P.m_number_segments = 1)
    (endp : Int)
    (hendTop : endp ≤ ((P.seg_start (P.m_number_segments - 1) +
      P.m_segment_sizes (P.m_number_segments - 1) : ℕ) : Int)) :
    ∀ (fuel : ℕ) (s : ℕ) (offset stop : Int) (cnt : ℕ) (sk sv : Int),
      s < P.m_number_segments →
      P.m_number_segments ≤ s + fuel →
      0 ≤ offset →
      ((P.seg_start s : ℕ) : Int) ≤ offset →
      (endp ≤ offset ∨
        (offset ≤ stop ∧ stop ≤ endp ∧ stop ≤ ((blockEnd P s : ℕ) : Int) ∧
          (stop = endp ∨ stop = ((blockEnd P s : ℕ) : Int)))) →
      BTreePMACC7.sum_acc_loop P.m_keys P.m_values P.m_segment_sizes P.m_segment_capacity
          P.m_number_segments endp fuel (s : Int) offset stop cnt sk sv =
        (cnt + posCount P offset endp, sk + posSum P P.m_keys offset endp,
          sv + posSum P P.m_values offset endp) := by
  intro fuel
  induction fuel with
  | zero =>
    intro s offset stop cnt sk sv hs hfuel h0 hoff hinv
    exact absurd hs (by omega)
  | succ fuel ih =>
    intro s offset stop cnt sk sv hs hfuel h0 hoff hinv
    by_cases hlt : offset < endp
    case neg =>
      rw [acc_exit P.m_keys P.m_values P.m_segment_sizes P.m_segment_capacity
        P.m_number_segments endp offset stop hlt (fuel + 1) (s : Int) cnt sk sv]
      have hempty : posFilter P offset endp = [] := by
        simp only [posFilter]
        rw [List.filter_eq_nil_iff]
        intro p _
        simp only [decide_eq_true_eq]
        omega
      simp [posCount, posSum, hempty]
    case pos =>
    have hinv' : offset ≤ stop ∧ stop ≤ endp ∧ stop ≤ ((blockEnd P s : ℕ) : Int) ∧
        (stop = endp ∨ stop = ((blockEnd P s : ℕ) : Int)) := by
      rcases hinv with h | h
      · omega
      · exact h
    obtain ⟨hos, hse, hsb, hcases⟩ := hinv'
    obtain hpar | hpar := Nat.mod_two_eq_zero_or_one s
    · -- even segment
      by_cases hb : s + 2 < P.m_number_segments
      · -- continue with the pair starting at s + 2
        rw [acc_step_even_cont P.m_keys P.m_values P.m_segment_sizes P.m_segment_capacity
          P.m_number_segments endp fuel s offset stop cnt sk sv hlt hpar hb]
        have hsz2 := hsz (s + 2) hb
        have hpar2 : (s + 2) % 2 = 0 := by omega
        have hseg2 := seg_start_even_int P (s + 2) hpar2 hsz2
        have hb3 : s + 2 + 1 < P.m_number_segments := by
          rcases heven with he | he <;> omega
        have hbe2 : ((blockEnd P (s + 2) : ℕ) : Int) =
            (((s + 2 : ℕ) : Int) + 1) * P.m_segment_capacity -
              P.m_segment_sizes (s + 2) + P.m_segment_sizes (s + 2) +
              P.m_segment_sizes (s + 2 + 1) := by
          rw [blockEnd_int_even P (s + 2) hpar2 hb3]
          push_cast
          ring
        rw [← hbe2, ← hseg2]
        have hbeq : blockEnd P s = P.seg_start (s + 1) + P.m_segment_sizes (s + 1) := by
          unfold blockEnd
          rw [if_pos ⟨hpar, by omega⟩]
        have hgap : ∀ p ∈ P.pos_list, ¬ (blockEnd P s ≤ p ∧ p < P.seg_start (s + 2)) := by
          intro p hp hcon
          refine no_pos_in_gap P hsz (s + 1) (by omega) p hp ⟨?_, ?_⟩
          · rw [← hbeq]; exact hcon.1
          · exact hcon.2
        have hXge : ((blockEnd P s : ℕ) : Int) ≤ ((P.seg_start (s + 2) : ℕ) : Int) := by
          exact_mod_cast blockEnd_le_next_even P hsz s hpar hb
        obtain ⟨hacc1, hacc2⟩ := acc_account P hsz s hs (P.seg_start (s + 2))
          offset stop endp h0 hoff hos hse hsb hXge hgap hcases
        have hinv2 : endp ≤ ((P.seg_start (s + 2) : ℕ) : Int) ∨
            (((P.seg_start (s + 2) : ℕ) : Int) ≤ min endp ((blockEnd P (s + 2) : ℕ) : Int) ∧
              min endp ((blockEnd P (s + 2) : ℕ) : Int) ≤ endp ∧
              min endp ((blockEnd P (s + 2) : ℕ) : Int) ≤ ((blockEnd P (s + 2) : ℕ) : Int) ∧
              (min endp ((blockEnd P (s + 2) : ℕ) : Int) = endp ∨
                min endp ((blockEnd P (s + 2) : ℕ) : Int) = ((blockEnd P (s + 2) : ℕ) : Int))) := by
          by_cases hex : endp ≤ ((P.seg_start (s + 2) : ℕ) : Int)
          · exact Or.inl hex
          · right
            have hsbe : P.seg_start (s + 2) ≤ blockEnd P (s + 2) :=
              seg_start_le_blockEnd P (s + 2) hsz hb
            refine ⟨le_min (by omega) (by exact_mod_cast hsbe), min_le_left _ _,
              min_le_right _ _, ?_⟩
            rcases le_total endp ((blockEnd P (s + 2) : ℕ) : Int) with h | h
            · exact Or.inl (min_eq_left h)
            · exact Or.inr (min_eq_right h)
        rw [ih (s + 2) ((P.seg_start (s + 2) : ℕ) : Int)
          (min endp ((blockEnd P (s + 2) : ℕ) : Int)) _ _ _ hb (by omega)
          (Int.natCast_nonneg _) (le_refl _) hinv2]
        rw [hacc1, hacc2 P.m_keys, hacc2 P.m_values]
        simp [add_assoc]
      · -- the pair of s is the last block
        rw [acc_step_even_exit P.m_keys P.m_values P.m_segment_sizes P.m_segment_capacity
          P.m_number_segments endp fuel s offset stop cnt sk sv hlt hpar hb]
        have hbe_last : endp ≤ ((blockEnd P s : ℕ) : Int) := by
          by_cases hb1 : s + 1 < P.m_number_segments
          · have hbeq : blockEnd P s = P.seg_start (s + 1) + P.m_segment_sizes (s + 1) := by
              unfold blockEnd
              rw [if_pos ⟨hpar, hb1⟩]
            have hs1 : s + 1 = P.m_number_segments - 1 := by omega
            rw [hbeq, hs1]
            exact hendTop
          · have hn1 : P.m_number_segments = 1 := by
              rcases heven with he | he <;> omega
            have hs0 : s = 0 := by omega
            have hbeq : blockEnd P s = P.seg_start s + P.m_segment_sizes s :=
              blockEnd_else P s (by omega)
            rw [hbeq, hs0]
            simpa [hn1] using hendTop
        have hstopend : stop = endp := by
          rcases hcases with h | h
          · exact h
          · omega
        subst hstopend
        rw [acc_exit P.m_keys P.m_values P.m_segment_sizes P.m_segment_capacity
          P.m_number_segments stop stop stop (by omega) fuel ((s + 2 : ℕ) : Int) _ _ _]
        obtain ⟨hacc1, hacc2⟩ := acc_account_last P hsz s hs offset stop h0 hoff
          (by omega) (by omega)
        rw [hacc1, hacc2 P.m_keys, hacc2 P.m_values]
    · -- odd segment
      by_cases hb : s + 1 < P.m_number_segments
      · rw [acc_step_odd_cont P.m_keys P.m_values P.m_segment_sizes P.m_segment_capacity
          P.m_number_segments endp fuel s offset stop cnt sk sv hlt hpar hb]
        have hsz1 := hsz (s + 1) hb
        have hpar1 : (s + 1) % 2 = 0 := by omega
        have hseg1 := seg_start_even_int P (s + 1) hpar1 hsz1
        have hb2 : s + 1 + 1 < P.m_number_segments := by
          rcases heven with he | he <;> omega
        have hbe1 : ((blockEnd P (s + 1) : ℕ) : Int) =
            (((s + 1 : ℕ) : Int) + 1) * P.m_segment_capacity -
              P.m_segment_sizes (s + 1) + P.m_segment_sizes (s + 1) +
              P.m_segment_sizes (s + 1 + 1) := by
          rw [blockEnd_int_even P (s + 1) hpar1 hb2]
          push_cast
          ring
        rw [← hbe1, ← hseg1]
        have hbeq : blockEnd P s = P.seg_start s + P.m_segment_sizes s :=
          blockEnd_else P s (by omega)
        have hgap : ∀ p ∈ P.pos_list, ¬ (blockEnd P s ≤ p ∧ p < P.seg_start (s + 1)) := by
          intro p hp hcon
          refine no_pos_in_gap P hsz s (by omega) p hp ⟨?_, hcon.2⟩
          rw [← hbeq]; exact hcon.1
        have hXge : ((blockEnd P s : ℕ) : Int) ≤ ((P.seg_start (s + 1) : ℕ) : Int) := by
          exact_mod_cast blockEnd_le_next_odd P hsz s hpar hb
        obtain ⟨hacc1, hacc2⟩ := acc_account P hsz s hs (P.seg_start (s + 1))
          offset stop endp h0 hoff hos hse hsb hXge hgap hcases
        have hinv2 : endp ≤ ((P.seg_start (s + 1) : ℕ) : Int) ∨
            (((P.seg_start (s + 1) : ℕ) : Int) ≤ min endp ((blockEnd P (s + 1) : ℕ) : Int) ∧
              min endp ((blockEnd P (s + 1) : ℕ) : Int) ≤ endp ∧
              min endp ((blockEnd P (s + 1) : ℕ) : Int) ≤ ((blockEnd P (s + 1) : ℕ) : Int) ∧
              (min endp ((blockEnd P (s + 1) : ℕ) : Int) = endp ∨
                min endp ((blockEnd P (s + 1) : ℕ) : Int) = ((blockEnd P (s + 1) : ℕ) : Int))) := by
          by_cases hex : endp ≤ ((P.seg_start (s + 1) : ℕ) : Int)
          · exact Or.inl hex
          · right
            have hsbe : P.seg_start (s + 1) ≤ blockEnd P (s + 1) :=
              seg_start_le_blockEnd P (s + 1) hsz hb
            refine ⟨le_min (by omega) (by exact_mod_cast hsbe), min_le_left _ _,
              min_le_right _ _, ?_⟩
            rcases le_total endp ((blockEnd P (s + 1) : ℕ) : Int) with h | h
            · exact Or.inl (min_eq_left h)
            · exact Or.inr (min_eq_right h)
        rw [ih (s + 1) ((P.seg_start (s + 1) : ℕ) : Int)
          (min endp ((blockEnd P (s + 1) : ℕ) : Int)) _ _ _ hb (by omega)
          (Int.natCast_nonneg _) (le_refl _) hinv2]
        rw [hacc1, hacc2 P.m_keys, hacc2 P.m_values]
        simp [add_assoc]
      · -- s is the last segment
        rw [acc_step_odd_exit P.m_keys P.m_values P.m_segment_sizes P.m_segment_capacity
          P.m_number_segments endp fuel s offset stop cnt sk sv hlt hpar hb]
        have hbe_last : endp ≤ ((blockEnd P s : ℕ) : Int) := by
          have hbeq : blockEnd P s = P.seg_start s + P.m_segment_sizes s :=
            blockEnd_else P s (by omega)
          have hs1 : s = P.m_number_segments - 1 := by omega
          rw [hbeq, hs1]
          exact hendTop
        have hstopend : stop = endp := by
          rcases hcases with h | h
          · exact h
          · omega
        subst hstopend
        rw [acc_exit P.m_keys P.m_values P.m_segment_sizes P.m_segment_capacity
          P.m_number_segments stop stop stop (by omega) fuel ((s + 1 : ℕ) : Int) _ _ _]
        obtain ⟨hacc1, hacc2⟩ := acc_account_last P hsz s hs offset stop h0 hoff
          (by omega) (by omega)
        rw [hacc1, hacc2 P.m_keys, hacc2 P.m_values]

theorem sumSizes_all_zero (sizes : ℕ → ℕ) (n : ℕ) (h : sumSizes sizes 0 n = 0) :
    ∀ i < n, sizes i = 0 := by
  intro i hi
  unfold sumSizes at h
  refine List.sum_eq_zero_iff.mp h (sizes i) ?_
  simp only [List.mem_map]
  refine ⟨i, ?_, rfl⟩
  rw [List.mem_range'_1]
  omega

theorem content_eq_nil_of_sizes (P : PMA)
    (hall : ∀ i < P.m_number_segments, P.m_segment_sizes i = 0) : P.content = [] := by
  unfold PMA.content
  rw [List.flatMap_eq_nil_iff]
  intro s hs
  rw [List.mem_range] at hs
  unfold PMA.seg_slice
  rw [hall s hs]
  rfl

theorem sizes_pos_of_card (T : BTreePMACC7) (hwf : WF T)
    (hcard : T.m_storage.m_cardinality ≠ 0) :
    ∀ i < T.m_storage.m_number_segments, 0 < T.m_storage.m_segment_sizes i := by
  intro i hi
  by_cases hn : 1 < T.m_storage.m_number_segments
  · exact hwf.hne hn i hi
  · have h1 : T.m_storage.m_number_segments = 1 := by
      have := hwf.hn
      omega
    have hi0 : i = 0 := by omega
    subst hi0
    by_contra hz
    push_neg at hz
    refine hcard ?_
    rw [hwf.hcard, h1]
    unfold sumSizes
    rw [show (1 - 0) = 1 from rfl, List.range'_one]
    simp
    omega

theorem pow_two_parity (n : ℕ) (h : n = 2 ^ nat_log2 n) : n % 2 = 0 ∨ n = 1 := by
  rcases Nat.eq_zero_or_pos (nat_log2 n) with h0 | h0
  · right
    rw [h, h0]
    rfl
  · left
    obtain ⟨m, hm⟩ : ∃ m, nat_log2 n = m + 1 := ⟨nat_log2 n - 1, by omega⟩
    rw [h, hm, pow_succ]
    omega

theorem run_lt_run (P : PMA)
    (hsz : ∀ i < P.m_number_segments, P.m_segment_sizes i ≤ P.m_segment_capacity)
    {t u : ℕ} (htu : t < u) (hu : u < P.m_number_segments) {p q : ℕ}
    (hp : p < P.seg_start t + P.m_segment_sizes t) (hq : P.seg_start u ≤ q) : p < q := by
  have := seg_start_mono P hsz u t htu hu
  omega

theorem head?_of_min (l : List ℕ) (hl : l.Pairwise (· < ·)) (x : ℕ) (hx : x ∈ l)
    (hmin : ∀ y ∈ l, x ≤ y) : l.head? = some x := by
  cases l with
  | nil => cases hx
  | cons a t =>
    rw [List.head?_cons]
    rcases List.mem_cons.mp hx with h | h
    · rw [h]
    · have h1 := List.rel_of_pairwise_cons hl h
      have h2 := hmin a (List.mem_cons_self a t)
      omega

theorem getLast?_of_max : ∀ (l : List ℕ), l.Pairwise (· < ·) → ∀ (x : ℕ), x ∈ l →
    (∀ y ∈ l, y ≤ x) → l.getLast? = some x
  | [], _, x, hx, _ => absurd hx (List.not_mem_nil x)
  | [a], _, x, hx, hmax => by
    rcases List.mem_singleton.mp hx with h
    rw [h, List.getLast?_singleton]
  | a :: b :: t, hl, x, hx, hmax => by
    rw [List.getLast?_cons_cons]
    have hxt : x ∈ b :: t := by
      rcases List.mem_cons.mp hx with h | h
      · exfalso
        have hb := List.rel_of_pairwise_cons hl (List.mem_cons_self b t)
        have := hmax b (List.mem_cons_of_mem a (List.mem_cons_self b t))
        omega
      · exact h
    exact getLast?_of_max (b :: t) hl.of_cons x hxt
      (fun y hy => hmax y (List.mem_cons_of_mem a hy))

theorem sum_spec (T : BTreePMACC7) (hwf : WF T) (mn mx : Int) (hle : mn ≤ mx) :
    (T.sum mn mx).m_num_elements = (qualifying T mn mx).length ∧
    (T.sum mn mx).m_sum_keys = ((qualifying T mn mx).map Prod.fst).sum ∧
    (T.sum mn mx).m_sum_values = ((qualifying T mn mx).map Prod.snd).sum ∧
    (qualifying T mn mx = [] → T.sum mn mx = {}) ∧
    (qualifying T mn mx ≠ [] →
      (qualifying T mn mx).head?.map Prod.fst = some ((T.sum mn mx).m_first_key) ∧
      (qualifying T mn mx).getLast?.map Prod.fst = some ((T.sum mn mx).m_last_key)) := by
  by_cases hcard : T.m_storage.m_cardinality = 0
  · -- empty container
    have h0 : sumSizes T.m_storage.m_segment_sizes 0 T.m_storage.m_number_segments = 0 := by
      rw [← hwf.hcard]; exact hcard
    have hall := sumSizes_all_zero _ _ h0
    have hcont : T.m_storage.content = [] := content_eq_nil_of_sizes _ hall
    have hq : qualifying T mn mx = [] := by
      unfold qualifying
      rw [hcont]
      rfl
    have hsum : T.sum mn mx = {} := by
      unfold BTreePMACC7.sum
      rw [if_pos (Or.inr hcard)]
    rw [hsum, hq]
    simp
  · -- nonempty container
    have hposz := sizes_pos_of_card T hwf hcard
    have hB := hwf.hB
    have hn := hwf.hn
    have hidx := hwf.hidx
    have hsz := hwf.hsz
    -- routing facts for the separator index
    have hss_lt : T.m_index.find mn < T.m_storage.m_number_segments := by
      rcases find_characterization T.m_index mn with ⟨h1, _⟩ | ⟨h1, _, _⟩
      · omega
      · omega
    have hse_lt : T.m_index.find mx < T.m_storage.m_number_segments := by
      rcases find_characterization T.m_index mx with ⟨h1, _⟩ | ⟨h1, _, _⟩
      · omega
      · omega
    have hmono : T.m_index.find mn ≤ T.m_index.find mx := by
      rcases find_characterization T.m_index mn with ⟨h1, _⟩ | ⟨h1, h2, _⟩
      · omega
      · rcases find_characterization T.m_index mx with ⟨_, h4⟩ | ⟨_, _, h6⟩
        · exact absurd (le_trans h2 hle) (h4 _ h1)
        · exact h6 _ h1 (le_trans h2 hle)
    -- keys in segments strictly before `find mn` are below `mn`
    have hRa : ∀ t, t < T.m_index.find mn →
        ∀ p, T.m_storage.seg_start t ≤ p →
          p < T.m_storage.seg_start t + T.m_storage.m_segment_sizes t →
          T.m_storage.m_keys p < mn := by
      intro t ht p hp1 hp2
      rcases find_characterization T.m_index mn with ⟨h1, _⟩ | ⟨h1, h2, _⟩
      · omega
      · have hfn_lt : T.m_index.find mn < T.m_storage.m_number_segments := by omega
        have hmin : T.m_index.seps (T.m_index.find mn) =
            T.m_storage.m_keys (T.m_storage.seg_start (T.m_index.find mn)) :=
          hwf.hsep _ hfn_lt (hposz _ hfn_lt)
        have hplt : p < T.m_storage.seg_start (T.m_index.find mn) := by
          have := seg_start_mono T.m_storage hsz (T.m_index.find mn) t ht hfn_lt
          omega
        have hk := keys_strict_mono T hwf p
          (run_mem_pos_list (by omega) hp1 hp2)
          (T.m_storage.seg_start (T.m_index.find mn))
          (run_mem_pos_list hfn_lt (le_refl _) (by have := hposz _ hfn_lt; omega))
          hplt
        omega
    have hcond : ¬ (mn > mx ∨ T.m_storage.m_cardinality = 0) := by
      push_neg
      exact ⟨by omega, hcard⟩
    have hnotlt : ¬ (T.m_index.find mx < T.m_index.find mn) := by omega
    -- run the lower-bound scan
    rcases sum_lower_loop_spec T.m_storage hsz mn (T.m_storage.m_number_segments + 2)
      (T.m_index.find mn) (by omega) with
      ⟨hnone, hallgt⟩ | ⟨s₀, o₀, hro, hs01, hs02, ho1, ho2, hko, hbefore, hsegs⟩
    · -- every key from `find mn` on is `< mn`: nothing qualifies
      have hallkey : ∀ p ∈ T.m_storage.pos_list, T.m_storage.m_keys p < mn := by
        intro p hp
        obtain ⟨t, ht, hp1, hp2⟩ := mem_pos_list.mp hp
        rcases lt_or_le t (T.m_index.find mn) with hc | hc
        · exact hRa t hc p hp1 hp2
        · exact hallgt t hc ht p hp1 hp2
      have hq : qualifying T mn mx = [] := by
        unfold qualifying
        rw [content_eq_pos_list, List.filter_map]
        rw [List.filter_eq_nil_iff.mpr]
        · rfl
        · intro p hp
          simp only [Function.comp_apply, decide_eq_true_eq, not_and]
          intro h1
          have := hallkey p hp
          omega
      have hsum : T.sum mn mx = {} := by
        unfold BTreePMACC7.sum
        rw [if_neg hcond]
        simp only [StaticIndex.find_first, StaticIndex.find_last]
        rw [if_neg hnotlt, hnone]
      rw [hsum, hq]
      simp
    · -- the lower scan found the first key `≥ mn` at position `o₀` of segment `s₀`
      by_cases hkof : T.m_storage.m_keys o₀ > mx
      · -- that key is already above `mx`: nothing qualifies
        have hq : qualifying T mn mx = [] := by
          unfold qualifying
          rw [content_eq_pos_list, List.filter_map]
          rw [List.filter_eq_nil_iff.mpr]
          · rfl
          · intro p hp
            simp only [Function.comp_apply, decide_eq_true_eq, not_and]
            intro h1
            obtain ⟨t, ht, hp1, hp2⟩ := mem_pos_list.mp hp
            rcases lt_trichotomy t s₀ with hc | hc | hc
            · rcases lt_or_le t (T.m_index.find mn) with hc2 | hc2
              · have := hRa t hc2 p hp1 hp2
                omega
              · have := hsegs t hc2 hc p hp1 hp2
                omega
            · subst hc
              rcases lt_or_le p o₀ with hc2 | hc2
              · have := hbefore p hp1 hc2
                omega
              · rcases Nat.eq_or_lt_of_le hc2 with hc3 | hc3
                · rw [← hc3]
                  omega
                · have := keys_strict_mono T hwf o₀
                    (run_mem_pos_list hs02 ho1 ho2) p
                    (run_mem_pos_list hs02 hp1 hp2) hc3
                  omega
            · have hplt : o₀ < p := run_lt_run T.m_storage hsz hc ht ho2 hp1
              have := keys_strict_mono T hwf o₀
                (run_mem_pos_list hs02 ho1 ho2) p
                (run_mem_pos_list ht hp1 hp2) hplt
              omega
        have hsum : T.sum mn mx = {} := by
          unfold BTreePMACC7.sum
          rw [if_neg hcond]
          simp only [StaticIndex.find_first, StaticIndex.find_last]
          rw [if_neg hnotlt, hro]
          simp only []
          rw [if_pos hkof]
        rw [hsum, hq]
        simp
      · -- main path
        push_neg at hkof
        have hsep_s0 : T.m_index.seps s₀ =
            T.m_storage.m_keys (T.m_storage.seg_start s₀) :=
          hwf.hsep s₀ hs02 (hposz s₀ hs02)
        have hks0 : T.m_storage.m_keys (T.m_storage.seg_start s₀) ≤
            T.m_storage.m_keys o₀ := by
          rcases Nat.eq_or_lt_of_le ho1 with h | h
          · rw [h]
          · exact le_of_lt (keys_strict_mono T hwf _
              (run_mem_pos_list hs02 (le_refl _) (by have := hposz s₀ hs02; omega)) o₀
              (run_mem_pos_list hs02 ho1 ho2) h)
        have hseps0_le : T.m_index.seps s₀ ≤ mx := by
          rw [hsep_s0]
          omega
        rcases find_characterization T.m_index mx with ⟨_, hnone_mx⟩ | ⟨hse_lt', hse_sat, hse_max⟩
        · exact absurd hseps0_le (hnone_mx s₀ (by omega))
        · have hs0_le_se : s₀ ≤ T.m_index.find mx := hse_max s₀ (by omega) hseps0_le
          have hsemin : T.m_storage.m_keys
              (T.m_storage.seg_start (T.m_index.find mx)) ≤ mx := by
            rw [← hwf.hsep _ hse_lt (hposz _ hse_lt)]
            exact hse_sat
          obtain ⟨ostar, hupeq, hosa, hosb, hosc, hosd⟩ :=
            sum_upper_loop_first T.m_storage hsz mx (T.m_index.find mx) hse_lt
              (hposz _ hse_lt) hsemin (s₀ : Int) (by exact_mod_cast hs0_le_se)
              (T.m_storage.m_number_segments + 2) (by omega) 0
          have ho0le : o₀ ≤ ostar := by
            rcases Nat.eq_or_lt_of_le hs0_le_se with he | hlt2
            · by_contra hcon
              push_neg at hcon
              have := hosd o₀ hcon (by rw [← he]; exact ho2)
              omega
            · exact le_of_lt (run_lt_run T.m_storage hsz hlt2 hse_lt ho2 hosa)
          have hTopN : ostar + 1 ≤
              T.m_storage.seg_start (T.m_storage.m_number_segments - 1) +
                T.m_storage.m_segment_sizes (T.m_storage.m_number_segments - 1) := by
            rcases Nat.eq_or_lt_of_le (show T.m_index.find mx ≤
                T.m_storage.m_number_segments - 1 by omega) with he | hlt2
            · rw [← he]
              omega
            · have := seg_start_mono T.m_storage hsz
                (T.m_storage.m_number_segments - 1) (T.m_index.find mx) hlt2 (by omega)
              omega
          have hstop1 : (if s₀ % 2 = 0 ∧ s₀ < T.m_storage.m_number_segments - 1
              then (s₀ + 1) * T.m_storage.m_segment_capacity +
                T.m_storage.m_segment_sizes (s₀ + 1)
              else T.m_storage.seg_start s₀ + T.m_storage.m_segment_sizes s₀) =
              blockEnd T.m_storage s₀ := by
            unfold blockEnd
            by_cases hc : s₀ % 2 = 0 ∧ s₀ + 1 < T.m_storage.m_number_segments
            · rw [if_pos ⟨hc.1, by omega⟩, if_pos hc,
                seg_start_odd T.m_storage (s₀ + 1) (by omega)]
            · rw [if_neg (fun h => hc ⟨h.1, by omega⟩), if_neg hc]
          have hrunend_le : T.m_storage.seg_start s₀ + T.m_storage.m_segment_sizes s₀ ≤
              blockEnd T.m_storage s₀ := by
            unfold blockEnd
            split
            · next hc =>
              have := seg_start_boundary T.m_storage s₀ (hsz s₀ hs02) (hsz (s₀ + 1) hc.2)
              omega
            · exact le_refl _
          have hinv : ((ostar : Int) + 1 ≤ (o₀ : ℕ) ∨
              (((o₀ : ℕ) : Int) ≤ min ((blockEnd T.m_storage s₀ : ℕ) : Int) ((ostar : Int) + 1) ∧
                min ((blockEnd T.m_storage s₀ : ℕ) : Int) ((ostar : Int) + 1) ≤ (ostar : Int) + 1 ∧
                min ((blockEnd T.m_storage s₀ : ℕ) : Int) ((ostar : Int) + 1) ≤
                  ((blockEnd T.m_storage s₀ : ℕ) : Int) ∧
                (min ((blockEnd T.m_storage s₀ : ℕ) : Int) ((ostar : Int) + 1) = (ostar : Int) + 1 ∨
                  min ((blockEnd T.m_storage s₀ : ℕ) : Int) ((ostar : Int) + 1) =
                    ((blockEnd T.m_storage s₀ : ℕ) : Int)))) := by
            right
            refine ⟨le_min (by exact_mod_cast by omega) (by omega), min_le_right _ _,
              min_le_left _ _, ?_⟩
            rcases le_total ((blockEnd T.m_storage s₀ : ℕ) : Int) ((ostar : Int) + 1) with h | h
            · exact Or.inr (min_eq_left h)
            · exact Or.inl (min_eq_right h)
          have hacc := sum_acc_loop_spec T.m_storage hsz
            (pow_two_parity _ hwf.hpow) ((ostar : Int) + 1)
            (by exact_mod_cast hTopN) (T.m_storage.m_number_segments + 2) s₀
            ((o₀ : ℕ) : Int) (min ((blockEnd T.m_storage s₀ : ℕ) : Int) ((ostar : Int) + 1))
            0 0 0 hs02 (by omega) (Int.natCast_nonneg _) (by exact_mod_cast ho1) hinv
          have hsum : T.sum mn mx = {
              m_first_key := T.m_storage.m_keys o₀
              m_num_elements := 0 + posCount T.m_storage ((o₀ : ℕ) : Int) ((ostar : Int) + 1)
              m_sum_keys := 0 + posSum T.m_storage T.m_storage.m_keys
                ((o₀ : ℕ) : Int) ((ostar : Int) + 1)
              m_sum_values := 0 + posSum T.m_storage T.m_storage.m_values
                ((o₀ : ℕ) : Int) ((ostar : Int) + 1)
              m_last_key := T.m_storage.m_keys ostar } := by
            unfold BTreePMACC7.sum
            rw [if_neg hcond]
            simp only [StaticIndex.find_first, StaticIndex.find_last]
            rw [if_neg hnotlt, hro]
            simp only []
            rw [if_neg (by omega), hupeq]
            rw [if_neg (show ¬ ((ostar : Int) + 1 ≤ ((o₀ : ℕ) : Int)) by omega)]
            rw [show (((if s₀ % 2 = 0 ∧ s₀ < T.m_storage.m_number_segments - 1
              then (s₀ + 1) * T.m_storage.m_segment_capacity +
                T.m_storage.m_segment_sizes (s₀ + 1)
              else T.m_storage.seg_start s₀ + T.m_storage.m_segment_sizes s₀ : ℕ)) : Int) =
              ((blockEnd T.m_storage s₀ : ℕ) : Int) by rw [hstop1]]
            rw [hacc]
            have he1 : ((ostar : Int) + 1 - 1) = (ostar : Int) := by ring
            rw [he1, Int.toNat_natCast]
          have hwindow : ∀ p ∈ T.m_storage.pos_list,
              ((((o₀ : ℕ) : Int) ≤ (p : Int) ∧ (p : Int) < (ostar : Int) + 1) ↔
                (mn ≤ T.m_storage.m_keys p ∧ T.m_storage.m_keys p ≤ mx)) := by
            intro p hp
            obtain ⟨t, ht, hp1, hp2⟩ := mem_pos_list.mp hp
            constructor
            · rintro ⟨hw1, hw2⟩
              have hwn1 : o₀ ≤ p := by exact_mod_cast hw1
              have hwn2 : p ≤ ostar := by omega
              constructor
              · rcases Nat.eq_or_lt_of_le hwn1 with h | h
                · rw [← h]
                  omega
                · have := keys_strict_mono T hwf o₀ (run_mem_pos_list hs02 ho1 ho2) p hp h
                  omega
              · rcases Nat.eq_or_lt_of_le hwn2 with h | h
                · rw [h]
                  exact hosc
                · have := keys_strict_mono T hwf p hp ostar
                    (run_mem_pos_list hse_lt hosa hosb) h
                  omega
            · rintro ⟨hk1, hk2⟩
              constructor
              · by_contra hcon
                push_neg at hcon
                have hpo : p < o₀ := by omega
                rcases lt_trichotomy t s₀ with hc | hc | hc
                · rcases lt_or_le t (T.m_index.find mn) with hc2 | hc2
                  · have := hRa t hc2 p hp1 hp2
                    omega
                  · have := hsegs t hc2 hc p hp1 hp2
                    omega
                · subst hc
                  have := hbefore p hp1 hpo
                  omega
                · have := run_lt_run T.m_storage hsz hc ht ho2 hp1
                  omega
              · by_contra hcon
                push_neg at hcon
                have hpo : ostar < p := by omega
                rcases lt_trichotomy t (T.m_index.find mx) with hc | hc | hc
                · have := run_lt_run T.m_storage hsz hc hse_lt hp2 hosa
                  omega
                · rw [hc] at hp2
                  have := hosd p hpo hp2
                  omega
                · have hsept : ¬ T.m_index.seps t ≤ mx := by
                    intro hcon2
                    have := hse_max t (by omega) hcon2
                    omega
                  have hsept_eq : T.m_index.seps t =
                      T.m_storage.m_keys (T.m_storage.seg_start t) :=
                    hwf.hsep t ht (hposz t ht)
                  have hge : T.m_storage.m_keys (T.m_storage.seg_start t) ≤
                      T.m_storage.m_keys p := by
                    rcases Nat.eq_or_lt_of_le hp1 with h | h
                    · rw [h]
                    · exact le_of_lt (keys_strict_mono T hwf _
                        (run_mem_pos_list ht (le_refl _)
                          (by have := hposz t ht; omega)) p hp h)
                  omega
          have hqeq : qualifying T mn mx =
              (posFilter T.m_storage ((o₀ : ℕ) : Int) ((ostar : Int) + 1)).map
                (fun p => (T.m_storage.m_keys p, T.m_storage.m_values p)) := by
            unfold qualifying posFilter
            rw [content_eq_pos_list, List.filter_map]
            congr 1
            apply List.filter_congr
            intro p hp
            simp only [Function.comp_apply, decide_eq_decide]
            exact (hwindow p hp).symm
          have hpairf : (posFilter T.m_storage ((o₀ : ℕ) : Int)
              ((ostar : Int) + 1)).Pairwise (· < ·) :=
            (pos_list_pairwise T.m_storage hsz).filter _
          have ho0mem : o₀ ∈ posFilter T.m_storage ((o₀ : ℕ) : Int) ((ostar : Int) + 1) := by
            unfold posFilter
            rw [List.mem_filter]
            refine ⟨run_mem_pos_list hs02 ho1 ho2, ?_⟩
            simp only [decide_eq_true_eq]
            omega
          have hostarmem : ostar ∈ posFilter T.m_storage ((o₀ : ℕ) : Int)
              ((ostar : Int) + 1) := by
            unfold posFilter
            rw [List.mem_filter]
            refine ⟨run_mem_pos_list hse_lt hosa hosb, ?_⟩
            simp only [decide_eq_true_eq]
            omega
          have hhead : (posFilter T.m_storage ((o₀ : ℕ) : Int)
              ((ostar : Int) + 1)).head? = some o₀ := by
            refine head?_of_min _ hpairf o₀ ho0mem ?_
            intro y hy
            unfold posFilter at hy
            rw [List.mem_filter] at hy
            have := hy.2
            simp only [decide_eq_true_eq] at this
            omega
          have hlast : (posFilter T.m_storage ((o₀ : ℕ) : Int)
              ((ostar : Int) + 1)).getLast? = some ostar := by
            refine getLast?_of_max _ hpairf ostar hostarmem ?_
            intro y hy
            unfold posFilter at hy
            rw [List.mem_filter] at hy
            have := hy.2
            simp only [decide_eq_true_eq] at this
            omega
          rw [hsum, hqeq]
          refine ⟨?_, ?_, ?_, ?_, ?_⟩
          · simp [posCount, List.length_map]
          · rw [List.map_map]
            simp only [posSum, zero_add]
            rfl
          · rw [List.map_map]
            simp only [posSum, zero_add]
            rfl
          · intro hnil
            exfalso
            rw [List.map_eq_nil_iff] at hnil
            rw [hnil] at ho0mem
            exact absurd ho0mem (List.not_mem_nil o₀)
          · intro hne
            constructor
            · rw [List.head?_map, hhead]
              rfl
            · rw [List.getLast?_map, hlast]
              rfl

set_option maxRecDepth 4000000 in
/-- **C3** (functional correctness of `sum`): for every well-formed state
and all bounds `min ≤ max`, `sum(min, max)` returns the count of stored
elements whose key lies in `[min, max]`, the exact sums of those
elements' keys and values, and the smallest and largest such key (the
empty aggregate when nothing qualifies); in particular, after inserting
keys `1..=100` in order with value equal to key (`B = 32`, one page per
extent), `sum(10, 20)` returns `{count 11, sum_keys 165, sum_values 165,
first_key 10, last_key 20}`. -/
theorem claim_C3_sum_correct :
    (∀ (T : BTreePMACC7), WF T → ∀ (mn mx : Int), mn ≤ mx →
      (T.sum mn mx).m_num_elements = (qualifying T mn mx).length ∧
      (T.sum mn mx).m_sum_keys = ((qualifying T mn mx).map Prod.fst).sum ∧
      (T.sum mn mx).m_sum_values = ((qualifying T mn mx).map Prod.snd).sum ∧
      (qualifying T mn mx = [] → T.sum mn mx = {}) ∧
      (qualifying T mn mx ≠ [] →
        (qualifying T mn mx).head?.map Prod.fst = some ((T.sum mn mx).m_first_key) ∧
        (qualifying T mn mx).getLast?.map Prod.fst = some ((T.sum mn mx).m_last_key))) ∧
    (BTreePMACC7.insert_range c3_start 1 100 (fun k => k)).sum 10 20 =
      { m_first_key := 10, m_num_elements := 11, m_sum_keys := 165,
        m_sum_values := 165, m_last_key := 20 } :=
  ⟨fun T hwf mn mx hle => sum_spec T hwf mn mx hle, by decide⟩

set_option maxRecDepth 1000000 in
/-- Witness for C3: the two-segment state `c6_state` is well formed, and
the theorem applies to it with bounds `[295, 335]`. -/
theorem claim_C3_witness :
    WF c6_state ∧ (295 : Int) ≤ 335 ∧
      (c6_state.sum 295 335).m_num_elements = (qualifying c6_state 295 335).length := by
  have hwf : WF c6_state :=
    ⟨by decide, by decide, by decide, by decide, by decide, by decide, by decide,
      by decide, by decide⟩
  exact ⟨hwf, by decide, (claim_C3_sum_correct.1 c6_state hwf 295 335 (by decide)).1⟩

theorem sumSizes_succ (sizes : ℕ → ℕ) (a b : ℕ) (h : a ≤ b) :
    sumSizes sizes a (b + 1) = sumSizes sizes a b + sizes b := by
  unfold sumSizes
  have e : b + 1 - a = (b - a) + 1 := by omega
  rw [e, List.range'_1_concat, List.map_append, List.sum_append]
  have e2 : a + (b - a) = b := by omega
  rw [e2]
  simp

theorem sumSizes_self (sizes : ℕ → ℕ) (a : ℕ) : sumSizes sizes a a = 0 := by
  unfold sumSizes
  simp

theorem swr_copy_loop_count (B ws wl : ℕ) (hws : ws % 2 = 0)
    (keys values : ℕ → Int) (sizes : ℕ → ℕ)
    (hsz : ∀ t, ws ≤ t → t < ws + wl → 0 < sizes t)
    (destBase outDisp : ℕ) :
    ∀ (fuel orun : ℕ) (isid idisp : Int) (irun r : ℕ) (dK dV : ℕ → Int),
      cursor_inv B ws wl sizes isid idisp irun r →
      orun ≤ r →
      orun + 1 ≤ fuel →
      cursor_inv B ws wl sizes
        (SpreadWithRewiring.swr_copy_loop B ws keys values sizes destBase outDisp
          fuel orun isid idisp irun dK dV).2.2.1
        (SpreadWithRewiring.swr_copy_loop B ws keys values sizes destBase outDisp
          fuel orun isid idisp irun dK dV).2.2.2.1
        (SpreadWithRewiring.swr_copy_loop B ws keys values sizes destBase outDisp
          fuel orun isid idisp irun dK dV).2.2.2.2
        (r - orun) := by
  intro fuel
  induction fuel with
  | zero =>
    intro orun isid idisp irun r dK dV hinv hor hfuel
    omega
  | succ fuel ih =>
    intro orun isid idisp irun r dK dV hinv hor hfuel
    by_cases ho : orun = 0
    · subst ho
      simp only [SpreadWithRewiring.swr_copy_loop, if_pos rfl]
      simpa using hinv
    · rcases hinv with ⟨hr0, _⟩ | ⟨hirun, s, hsid, hpar, hws1, hws2, hdisp, hbound, hr⟩
      · omega
      · have he2c : 0 < min orun irun := by omega
        by_cases hir : irun - min orun irun = 0
        · -- the input run is exhausted: move to the previous pair
          by_cases hup : isid - 2 ≥ (ws : Int)
          · -- refill from the pair of s - 2
            have hs2 : ws + 2 ≤ s := by
              rw [hsid] at hup
              omega
            have htn : ((isid - 2)).toNat = s - 2 := by
              rw [hsid]
              omega
            have heq : SpreadWithRewiring.swr_copy_loop B ws keys values sizes destBase
                outDisp (fuel + 1) orun isid idisp irun dK dV =
                SpreadWithRewiring.swr_copy_loop B ws keys values sizes destBase outDisp
                  fuel (orun - min orun irun) (isid - 2)
                  (((s - 2 : ℕ) : Int) * B + B - sizes (s - 2))
                  (sizes (s - 2) + sizes (s - 2 + 1))
                  (writeSlice dK (destBase + outDisp + (orun - min orun irun))
                    (readSlice keys ((idisp + (irun - min orun irun : ℕ)).toNat)
                      (min orun irun)))
                  (writeSlice dV (destBase + outDisp + (orun - min orun irun))
                    (readSlice values ((idisp + (irun - min orun irun : ℕ)).toNat)
                      (min orun irun))) := by
              simp only [SpreadWithRewiring.swr_copy_loop, if_neg ho, if_pos hir, if_pos hup,
                htn]
            rw [heq]
            have hnext := ih (orun - min orun irun) (isid - 2)
              (((s - 2 : ℕ) : Int) * B + B - sizes (s - 2))
              (sizes (s - 2) + sizes (s - 2 + 1)) (r - min orun irun)
              (writeSlice dK (destBase + outDisp + (orun - min orun irun))
                (readSlice keys ((idisp + (irun - min orun irun : ℕ)).toNat)
                  (min orun irun)))
              (writeSlice dV (destBase + outDisp + (orun - min orun irun))
                (readSlice values ((idisp + (irun - min orun irun : ℕ)).toNat)
                  (min orun irun)))
              (Or.inr ⟨by
                  have := hsz (s - 2) (by omega) (by omega)
                  omega,
                s - 2, by rw [hsid]; omega, by omega, by omega, by omega, rfl, le_refl _, by
                  obtain ⟨s', rfl⟩ : ∃ s', s = s' + 2 := ⟨s - 2, by omega⟩
                  have e1 : sumSizes sizes ws (s' + 2) =
                      sumSizes sizes ws (s' + 1) + sizes (s' + 1) :=
                    sumSizes_succ sizes ws (s' + 1) (by omega)
                  have e2 : sumSizes sizes ws (s' + 1) =
                      sumSizes sizes ws s' + sizes s' :=
                    sumSizes_succ sizes ws s' (by omega)
                  have e3 : s' + 2 - 2 = s' := by omega
                  rw [e3]
                  have hirmin : min orun irun = irun := by omega
                  rw [hirmin] at *
                  omega⟩)
              (by omega) (by omega)
            have e4 : (r - min orun irun) - (orun - min orun irun) = r - orun := by omega
            rw [e4] at hnext
            exact hnext
          · -- underflow: the window is fully consumed
            have hs0 : s = ws := by
              rw [hsid] at hup
              omega
            have hrest : r - min orun irun = 0 := by
              subst hs0
              rw [sumSizes_self] at hr
              omega
            have horun0 : orun - min orun irun = 0 := by omega
            have heq : SpreadWithRewiring.swr_copy_loop B ws keys values sizes destBase
                outDisp (fuel + 1) orun isid idisp irun dK dV =
                SpreadWithRewiring.swr_copy_loop B ws keys values sizes destBase outDisp
                  fuel (orun - min orun irun) (isid - 2) ((ws * B : ℕ) : Int) 0
                  (writeSlice dK (destBase + outDisp + (orun - min orun irun))
                    (readSlice keys ((idisp + (irun - min orun irun : ℕ)).toNat)
                      (min orun irun)))
                  (writeSlice dV (destBase + outDisp + (orun - min orun irun))
                    (readSlice values ((idisp + (irun - min orun irun : ℕ)).toNat)
                      (min orun irun))) := by
              simp only [SpreadWithRewiring.swr_copy_loop, if_neg ho, if_pos hir, if_neg hup]
              norm_cast
            rw [heq]
            obtain ⟨fuel', rfl⟩ : ∃ f, fuel = f + 1 := ⟨fuel - 1, by omega⟩
            rw [horun0]
            simp only [SpreadWithRewiring.swr_copy_loop, if_pos rfl]
            left
            exact ⟨by omega, rfl, rfl⟩
        · -- the input run still has elements
          have heq : SpreadWithRewiring.swr_copy_loop B ws keys values sizes destBase
              outDisp (fuel + 1) orun isid idisp irun dK dV =
              SpreadWithRewiring.swr_copy_loop B ws keys values sizes destBase outDisp
                fuel (orun - min orun irun) isid idisp (irun - min orun irun)
                (writeSlice dK (destBase + outDisp + (orun - min orun irun))
                  (readSlice keys ((idisp + (irun - min orun irun : ℕ)).toNat)
                    (min orun irun)))
                (writeSlice dV (destBase + outDisp + (orun - min orun irun))
                  (readSlice values ((idisp + (irun - min orun irun : ℕ)).toNat)
                    (min orun irun))) := by
            simp only [SpreadWithRewiring.swr_copy_loop, if_neg ho, if_neg hir]
          rw [heq]
          have hnext := ih (orun - min orun irun) isid idisp (irun - min orun irun)
            (r - min orun irun)
            (writeSlice dK (destBase + outDisp + (orun - min orun irun))
              (readSlice keys ((idisp + (irun - min orun irun : ℕ)).toNat)
                (min orun irun)))
            (writeSlice dV (destBase + outDisp + (orun - min orun irun))
              (readSlice values ((idisp + (irun - min orun irun : ℕ)).toNat)
                (min orun irun)))
            (Or.inr ⟨by omega, s, hsid, hpar, hws1, hws2, hdisp, by omega, by omega⟩)
            (by omega) (by omega)
          have e4 : (r - min orun irun) - (orun - min orun irun) = r - orun := by omega
          rw [e4] at hnext
          exact hnext

theorem pair_budget_step (eps odd : ℕ) (oid : Int) (h0 : 0 ≤ oid) (hpar : oid % 2 = 0) :
    pair_budget eps odd oid =
      ((eps + (if oid < (odd : Int) then 1 else 0)) +
        (eps + (if oid + 1 < (odd : Int) then 1 else 0))) +
      pair_budget eps odd (oid - 2) := by
  unfold pair_budget
  by_cases h2 : oid - 2 < 0
  · have hz : oid = 0 := by omega
    subst hz
    rw [if_neg (by omega), if_pos h2]
    simp only [show ((0 : Int) + 2).toNat = 2 from rfl]
    split_ifs <;> omega
  · rw [if_neg (by omega), if_neg h2]
    have e1 : (oid + 2).toNat = oid.toNat + 2 := by omega
    have e2 : (oid - 2 + 2).toNat = oid.toNat := by omega
    rw [e1, e2]
    have e3 : eps * (oid.toNat + 2) = eps * oid.toNat + 2 * eps := by ring
    rw [e3]
    split_ifs <;> omega

theorem swr_pair_loop_count (B ws wl spe : ℕ) (hws : ws % 2 = 0)
    (keys values : ℕ → Int) (sizes : ℕ → ℕ)
    (hsz : ∀ t, ws ≤ t → t < ws + wl → 0 < sizes t)
    (destBase eps odd : ℕ) :
    ∀ (fuel : ℕ) (oid isid idisp : Int) (irun r : ℕ) (dK dV : ℕ → Int),
      cursor_inv B ws wl sizes isid idisp irun r →
      oid % 2 = 0 →
      pair_budget eps odd oid ≤ r →
      oid + 2 ≤ 2 * (fuel : Int) →
      cursor_inv B ws wl sizes
        (SpreadWithRewiring.swr_pair_loop B ws spe keys values sizes destBase eps odd
          fuel oid isid idisp irun dK dV).2.2.1
        (SpreadWithRewiring.swr_pair_loop B ws spe keys values sizes destBase eps odd
          fuel oid isid idisp irun dK dV).2.2.2.1
        (SpreadWithRewiring.swr_pair_loop B ws spe keys values sizes destBase eps odd
          fuel oid isid idisp irun dK dV).2.2.2.2
        (r - pair_budget eps odd oid) := by
  intro fuel
  induction fuel with
  | zero =>
    intro oid isid idisp irun r dK dV hinv hpar hbud hfuel
    have hneg : oid < 0 := by omega
    have hb0 : pair_budget eps odd oid = 0 := by
      unfold pair_budget
      rw [if_pos hneg]
    rw [hb0]
    simpa using hinv
  | succ fuel ih =>
    intro oid isid idisp irun r dK dV hinv hpar hbud hfuel
    by_cases hneg : oid < 0
    · have hb0 : pair_budget eps odd oid = 0 := by
        unfold pair_budget
        rw [if_pos hneg]
      rw [hb0]
      simp only [SpreadWithRewiring.swr_pair_loop, if_pos hneg]
      simpa using hinv
    · have hstep := pair_budget_step eps odd oid (by omega) hpar
      have hcopy := swr_copy_loop_count B ws wl hws keys values sizes hsz destBase
        (oid.toNat * B + (B - (eps + if oid < (odd : Int) then 1 else 0)))
        ((eps + (if oid < (odd : Int) then 1 else 0)) +
          (eps + (if oid + 1 < (odd : Int) then 1 else 0)) + 2)
        ((eps + (if oid < (odd : Int) then 1 else 0)) +
          (eps + (if oid + 1 < (odd : Int) then 1 else 0)))
        isid idisp irun r dK dV hinv (by omega) (by omega)
      simp only [SpreadWithRewiring.swr_pair_loop, if_neg hneg]
      set c := SpreadWithRewiring.swr_copy_loop B ws keys values sizes destBase
        (oid.toNat * B + (B - (eps + if oid < (odd : Int) then 1 else 0)))
        ((eps + (if oid < (odd : Int) then 1 else 0)) +
          (eps + (if oid + 1 < (odd : Int) then 1 else 0)) + 2)
        ((eps + (if oid < (odd : Int) then 1 else 0)) +
          (eps + (if oid + 1 < (odd : Int) then 1 else 0)))
        isid idisp irun dK dV with hc
      have harg1 : (oid - 2) % 2 = 0 := by omega
      have harg2 : pair_budget eps odd (oid - 2) ≤
          r - ((eps + (if oid < (odd : Int) then 1 else 0)) +
            (eps + (if oid + 1 < (odd : Int) then 1 else 0))) := by omega
      have harg3 : oid - 2 + 2 ≤ 2 * (fuel : Int) := by omega
      have hnext := ih (oid - 2) c.2.2.1 c.2.2.2.1 c.2.2.2.2
        (r - ((eps + (if oid < (odd : Int) then 1 else 0)) +
          (eps + (if oid + 1 < (odd : Int) then 1 else 0)))) c.1 c.2.1
        hcopy harg1 harg2 harg3
      have e4 : r - ((eps + (if oid < (odd : Int) then 1 else 0)) +
          (eps + (if oid + 1 < (odd : Int) then 1 else 0))) -
          pair_budget eps odd (oid - 2) = r - pair_budget eps odd oid := by
        omega
      rw [e4] at hnext
      exact hnext

theorem pair_budget_full (spe n : ℕ) (hspe : 2 ≤ spe) :
    pair_budget (n / spe) (n % spe) ((spe : Int) - 2) = n := by
  unfold pair_budget
  rw [if_neg (by omega)]
  have e1 : ((spe : Int) - 2 + 2).toNat = spe := by omega
  rw [e1]
  have e2 : min spe (n % spe) = n % spe := by
    have := Nat.mod_lt n (show 0 < spe by omega)
    omega
  rw [e2, Nat.mul_comm (n / spe) spe]
  exact Nat.div_add_mod n spe

theorem spread_elements_count (B ws wl spe : ℕ) (hws : ws % 2 = 0)
    (hspe : 2 ≤ spe) (hspee : spe % 2 = 0)
    (sizes : ℕ → ℕ)
    (hsz : ∀ t, ws ≤ t → t < ws + wl → 0 < sizes t)
    (hszB : ∀ t, ws ≤ t → t < ws + wl → sizes t ≤ B)
    (st : SWRState) (destBase : ℕ) (dK dV : ℕ → Int) (n r : ℕ)
    (hr : 0 < r)
    (hpos : pos_inv B ws wl sizes st.position r) (hn : n ≤ r) :
    pos_inv B ws wl sizes
      (SpreadWithRewiring.spread_elements B ws spe sizes st destBase dK dV n).2.2 (r - n) := by
  rcases hpos with ⟨h0, _⟩ | ⟨s, hpar, hws1, hws2, hlo, hhi, hreq⟩
  · omega
  obtain ⟨m, rfl⟩ : ∃ m, s = 2 * m := ⟨s / 2, by omega⟩
  have hX2 : (((2 * m : ℕ) : Int) + 1) * B = ((2 * m : ℕ) : Int) * B + B := by ring
  rw [hX2] at hhi
  have hX1 : ((2 * m : ℕ) : Int) * B = 2 * ((m : Int) * B) := by push_cast; ring
  rw [hX1] at hlo hhi hreq
  have hsz1 := hszB (2 * m) (by omega) (by omega)
  have hsz2 := hszB (2 * m + 1) (by omega) (by omega)
  have hq : st.position - 1 = (((st.position - 1).toNat : ℕ) : Int) := by
    have h1 : (0 : Int) ≤ (m : Int) * B := by positivity
    omega
  have hisid : Int.tdiv (st.position - 1) (2 * (B : Int)) * 2 = ((2 * m : ℕ) : Int) := by
    rw [hq]
    have h2B : (2 * (B : Int)) = ((2 * B : ℕ) : Int) := by push_cast; ring
    rw [h2B]
    rw [show Int.tdiv (((st.position - 1).toNat : ℕ) : Int) ((2 * B : ℕ) : Int) =
      (((st.position - 1).toNat / (2 * B) : ℕ) : Int) from rfl]
    have hdiv : (st.position - 1).toNat / (2 * B) = m := by
      apply Nat.div_eq_of_lt_le
      · have hc : ((m * (2 * B) : ℕ) : Int) = 2 * ((m : Int) * B) := by push_cast; ring
        have hle : ((m * (2 * B) : ℕ) : Int) ≤ (((st.position - 1).toNat : ℕ) : Int) := by
          rw [hc, ← hq]
          omega
        exact_mod_cast hle
      · have hc : (((m + 1) * (2 * B) : ℕ) : Int) = 2 * ((m : Int) * B) + 2 * B := by
          push_cast; ring
        have hlt : (((st.position - 1).toNat : ℕ) : Int) < (((m + 1) * (2 * B) : ℕ) : Int) := by
          rw [hc, ← hq]
          omega
        exact_mod_cast hlt
    rw [hdiv]
    push_cast
    ring
  simp only [SpreadWithRewiring.spread_elements]
  rw [hisid, Int.toNat_natCast, hX1]
  have hinv : cursor_inv B ws wl sizes ((2 * m : ℕ) : Int)
      (2 * ((m : Int) * B) + B - sizes (2 * m))
      ((st.position - (2 * ((m : Int) * B) + B - sizes (2 * m))).toNat) r := by
    right
    refine ⟨by omega, 2 * m, rfl, by omega, hws1, hws2, by rw [hX1], by omega, by omega⟩
  have hcount := swr_pair_loop_count B ws wl spe hws st.keys st.values sizes hsz destBase
    (n / spe) (n % spe) (spe + 2) ((spe : Int) - 2) ((2 * m : ℕ) : Int)
    (2 * ((m : Int) * B) + B - sizes (2 * m))
    ((st.position - (2 * ((m : Int) * B) + B - sizes (2 * m))).toNat) r dK dV
    hinv (by omega) (by rw [pair_budget_full spe n hspe]; exact hn) (by push_cast; omega)
  rw [pair_budget_full spe n hspe] at hcount
  rcases hcount with ⟨hr0, hi0, hd0⟩ | ⟨hirun2, s', hsid', hpar', hws1', hws2', hdisp', hbound', hr'⟩
  · left
    refine ⟨hr0, ?_⟩
    rw [hd0, hi0]
    simp
  · right
    refine ⟨s', hpar', hws1', hws2', ?_, ?_, ?_⟩
    · rw [hdisp']
      omega
    · rw [hdisp']
      have e : ((s' : Int) + 1) * B = (s' : Int) * B + B := by ring
      rw [e]
      omega
    · rw [hdisp']
      have e : ((s' : Int) * B + B - sizes s' + ((SpreadWithRewiring.swr_pair_loop B ws spe
          st.keys st.values sizes destBase (n / spe) (n % spe) (spe + 2) ((spe : Int) - 2)
          ((2 * m : ℕ) : Int) (2 * ((m : Int) * B) + B - sizes (2 * m))
          ((st.position - (2 * ((m : Int) * B) + B - sizes (2 * m))).toNat) dK dV).2.2.2.2 : ℕ) -
          ((s' : Int) * B + B - sizes s')) =
          ((SpreadWithRewiring.swr_pair_loop B ws spe st.keys st.values sizes destBase
            (n / spe) (n % spe) (spe + 2) ((spe : Int) - 2)
            ((2 * m : ℕ) : Int) (2 * ((m : Int) * B) + B - sizes (2 * m))
            ((st.position - (2 * ((m : Int) * B) + B - sizes (2 * m))).toNat)
            dK dV).2.2.2.2 : ℕ) := by ring
      rw [e, Int.toNat_natCast]
      exact hr'

theorem neg_one_ediv_pos (b : ℤ) (h : 0 < b) : (-1 : ℤ) / b = -1 := by
  have h1 := Int.ediv_add_emod (-1) b
  have h2 := Int.emod_nonneg (-1) (by omega : b ≠ 0)
  have h3 := Int.emod_lt_of_pos (-1) h
  nlinarith [h1, h2, h3]

theorem current_extent_neg (B ws spe : ℕ) (hB : 0 < B) (hspe : 0 < spe)
    (st : SWRState) (hp : st.position = ((ws * B : ℕ) : Int)) :
    SpreadWithRewiring.get_current_extent B ws spe st < 0 := by
  unfold SpreadWithRewiring.get_current_extent SpreadWithRewiring.position2extent
    SpreadWithRewiring.position2segment
  rw [hp]
  have e1 : ((ws * B : ℕ) : Int) - 1 - (ws : Int) * B = -1 := by push_cast; ring
  rw [e1]
  have e2 : Int.fdiv (-1) (B : Int) = -1 := by
    rw [Int.fdiv_eq_ediv _ (by positivity)]
    exact neg_one_ediv_pos _ (by exact_mod_cast hB)
  rw [e2]
  have e3 : Int.fdiv (-1) (spe : Int) = -1 := by
    rw [Int.fdiv_eq_ediv _ (by positivity)]
    exact neg_one_ediv_pos _ (by exact_mod_cast hspe)
  rw [e3]
  omega

theorem reclaim_position (B ws spe : ℕ) : ∀ (fuel : ℕ) (st : SWRState),
    (SpreadWithRewiring.reclaim_past_extents B ws spe fuel st).position = st.position := by
  intro fuel
  induction fuel with
  | zero => intro st; rfl
  | succ fuel ih =>
    intro st
    simp only [SpreadWithRewiring.reclaim_past_extents]
    rcases h : st.extents_to_rewire with _ | ⟨e, rest⟩
    · rfl
    · dsimp only []
      by_cases hc : e.m_extent_id > SpreadWithRewiring.get_current_extent B ws spe st
      · rw [if_pos hc, ih]
      · rw [if_neg hc]

theorem reclaim_subset (B ws spe : ℕ) : ∀ (fuel : ℕ) (st : SWRState) (e : Extent2Rewire),
    e ∈ (SpreadWithRewiring.reclaim_past_extents B ws spe fuel st).extents_to_rewire →
    e ∈ st.extents_to_rewire := by
  intro fuel
  induction fuel with
  | zero => intro st e he; exact he
  | succ fuel ih =>
    intro st e he
    simp only [SpreadWithRewiring.reclaim_past_extents] at he
    rcases h : st.extents_to_rewire with _ | ⟨e2, rest⟩
    · rw [h] at he
      exact h ▸ he
    · rw [h] at he
      dsimp only [] at he
      by_cases hc : e2.m_extent_id > SpreadWithRewiring.get_current_extent B ws spe st
      · rw [if_pos hc] at he
        have := ih _ e he
        exact List.mem_cons_of_mem e2 this
      · rw [if_neg hc] at he
        exact h ▸ he

theorem reclaim_all (B ws spe : ℕ) : ∀ (fuel : ℕ) (st : SWRState),
    SpreadWithRewiring.get_current_extent B ws spe st < 0 →
    (∀ e ∈ st.extents_to_rewire, 0 ≤ e.m_extent_id) →
    st.extents_to_rewire.length + 1 ≤ fuel →
    (SpreadWithRewiring.reclaim_past_extents B ws spe fuel st).extents_to_rewire = [] := by
  intro fuel
  induction fuel with
  | zero => intro st _ _ hlen; omega
  | succ fuel ih =>
    intro st hcur hids hlen
    simp only [SpreadWithRewiring.reclaim_past_extents]
    rcases h : st.extents_to_rewire with _ | ⟨e, rest⟩
    · dsimp only []
      exact h
    · dsimp only []
      rw [if_pos (by
        have := hids e (by rw [h]; exact List.mem_cons_self e rest)
        omega)]
      apply ih
      · exact hcur
      · intro e2 he2
        exact hids e2 (by rw [h]; exact List.mem_cons_of_mem e he2)
      · show rest.length + 1 ≤ fuel
        have hl := congrArg List.length h
        simp at hl
        omega

theorem extent_budget_step (eps odd : ℕ) (i : Int) (h0 : 0 ≤ i) :
    extent_budget eps odd i =
      (eps + if i < (odd : Int) then 1 else 0) + extent_budget eps odd (i - 1) := by
  unfold extent_budget
  by_cases h2 : i - 1 < 0
  · have hz : i = 0 := by omega
    subst hz
    rw [if_neg (by omega), if_pos h2]
    simp only [show ((0 : Int) + 1).toNat = 1 from rfl]
    split_ifs <;> omega
  · rw [if_neg (by omega), if_neg h2]
    have e1 : (i + 1).toNat = (i - 1 + 1).toNat + 1 := by omega
    rw [e1]
    have e3 : eps * ((i - 1 + 1).toNat + 1) = eps * (i - 1 + 1).toNat + eps := by ring
    rw [e3]
    split_ifs <;> omega

theorem spread_extent_step (B ws wl spe : ℕ) (hB : 0 < B) (hws : ws % 2 = 0)
    (hspe : 2 ≤ spe) (hspee : spe % 2 = 0)
    (sizes : ℕ → ℕ)
    (hsz : ∀ t, ws ≤ t → t < ws + wl → 0 < sizes t)
    (hszB : ∀ t, ws ≤ t → t < ws + wl → sizes t ≤ B)
    (st : SWRState) (i : Int) (hi : 0 ≤ i) (n r : ℕ)
    (hr : 0 < r) (hn : n ≤ r)
    (hpos : pos_inv B ws wl sizes st.position r)
    (hids : ∀ e ∈ st.extents_to_rewire, 0 ≤ e.m_extent_id) :
    pos_inv B ws wl sizes
      (SpreadWithRewiring.spread_extent B ws spe wl sizes st i n).position (r - n) ∧
    (∀ e ∈ (SpreadWithRewiring.spread_extent B ws spe wl sizes st i n).extents_to_rewire,
      0 ≤ e.m_extent_id) ∧
    (r - n = 0 →
      (SpreadWithRewiring.spread_extent B ws spe wl sizes st i n).extents_to_rewire = []) := by
  have hcount1 := spread_elements_count B ws wl spe hws hspe hspee sizes hsz hszB st
    (SpreadWithRewiring.get_offset B ws spe i) st.keys st.values n r hr hpos hn
  have hcount2 := spread_elements_count B ws wl spe hws hspe hspee sizes hsz hszB st
    0 (fun _ => 0) (fun _ => 0) n r hr hpos hn
  unfold SpreadWithRewiring.spread_extent
  dsimp only []
  by_cases hu : SpreadWithRewiring.get_current_extent B ws spe st ≥ i
  · rw [if_neg (not_not_intro hu)]
    refine ⟨?_, ?_, ?_⟩
    · rw [reclaim_position]
      exact hcount2
    · intro e he
      have hsub := reclaim_subset B ws spe _ _ e he
      dsimp only [] at hsub
      rcases List.mem_append.mp hsub with h1 | h1
      · exact hids e h1
      · rcases List.mem_singleton.mp h1 with rfl
        exact hi
    · intro hr0
      apply reclaim_all
      · rcases hcount2 with ⟨_, hp⟩ | ⟨s, _, _, _, hlo, _, hreq⟩
        · exact current_extent_neg B ws spe hB (by omega) _ hp
        · exfalso; omega
      · intro e he
        dsimp only [] at he
        rcases List.mem_append.mp he with h1 | h1
        · exact hids e h1
        · rcases List.mem_singleton.mp h1 with rfl
          exact hi
      · exact le_refl _
  · rw [if_pos hu]
    refine ⟨?_, ?_, ?_⟩
    · rw [reclaim_position]
      exact hcount1
    · intro e he
      have hsub := reclaim_subset B ws spe _ _ e he
      dsimp only [] at hsub
      exact hids e hsub
    · intro hr0
      apply reclaim_all
      · rcases hcount1 with ⟨_, hp⟩ | ⟨s, _, _, _, hlo, _, hreq⟩
        · exact current_extent_neg B ws spe hB (by omega) _ hp
        · exfalso; omega
      · intro e he
        dsimp only [] at he
        exact hids e he
      · exact le_refl _

theorem window_loop_exit (B ws spe wl : ℕ) (sizes : ℕ → ℕ) (eps odd : ℕ)
    (fuel : ℕ) (i : Int) (st : SWRState) (hi : i < 0) :
    SpreadWithRewiring.swr_window_loop B ws spe wl sizes eps odd fuel i st = st := by
  cases fuel with
  | zero => rfl
  | succ fuel =>
    simp only [SpreadWithRewiring.swr_window_loop]
    rw [if_pos hi]

theorem swr_window_loop_empty (B ws wl spe : ℕ) (hB : 0 < B) (hws : ws % 2 = 0)
    (hspe : 2 ≤ spe) (hspee : spe % 2 = 0)
    (sizes : ℕ → ℕ)
    (hsz : ∀ t, ws ≤ t → t < ws + wl → 0 < sizes t)
    (hszB : ∀ t, ws ≤ t → t < ws + wl → sizes t ≤ B)
    (eps odd : ℕ) (hco : 0 < eps + odd) :
    ∀ (fuel : ℕ) (i : Int) (st : SWRState),
      0 ≤ i →
      pos_inv B ws wl sizes st.position (extent_budget eps odd i) →
      (∀ e ∈ st.extents_to_rewire, 0 ≤ e.m_extent_id) →
      i + 1 ≤ (fuel : Int) →
      (SpreadWithRewiring.swr_window_loop B ws spe wl sizes eps odd
        fuel i st).extents_to_rewire = [] := by
  intro fuel
  induction fuel with
  | zero =>
    intro i st hi0 _ _ hfi
    exfalso
    simp only [Nat.cast_zero] at hfi
    omega
  | succ fuel ih =>
    intro i st hi0 hpos hids hfi
    simp only [SpreadWithRewiring.swr_window_loop]
    rw [if_neg (not_lt.mpr hi0)]
    have hbpos : 0 < extent_budget eps odd i := by
      unfold extent_budget
      rw [if_neg (not_lt.mpr hi0)]
      have h1 : 1 ≤ (i + 1).toNat := by omega
      rcases Nat.eq_zero_or_pos eps with he | he
      · rw [he]
        simp only [Nat.zero_mul, Nat.zero_add]
        omega
      · have h2 : 1 * 1 ≤ eps * (i + 1).toNat := Nat.mul_le_mul he h1
        omega
    have hn_le : eps + (if i < (odd : Int) then 1 else 0) ≤ extent_budget eps odd i := by
      rw [extent_budget_step eps odd i hi0]
      split_ifs <;> omega
    have hstep := spread_extent_step B ws wl spe hB hws hspe hspee sizes hsz hszB st i hi0
      (eps + if i < (odd : Int) then 1 else 0) (extent_budget eps odd i) hbpos hn_le hpos hids
    obtain ⟨hp2, hids2, hempty2⟩ := hstep
    have ebudget : extent_budget eps odd i - (eps + if i < (odd : Int) then 1 else 0)
        = extent_budget eps odd (i - 1) := by
      rw [extent_budget_step eps odd i hi0]
      split_ifs <;> omega
    rw [ebudget] at hp2 hempty2
    by_cases hi1 : i - 1 < 0
    · rw [window_loop_exit B ws spe wl sizes eps odd fuel (i - 1) _ hi1]
      apply hempty2
      unfold extent_budget
      rw [if_pos hi1]
    · refine ih (i - 1) _ (by omega) hp2 hids2 ?_
      have hc : ((fuel + 1 : ℕ) : Int) = (fuel : Int) + 1 := by push_cast; ring
      rw [hc] at hfi
      omega

theorem refill_step (B ws wl : ℕ) (sizes : ℕ → ℕ) (hws : ws % 2 = 0)
    (hsz : ∀ t, ws ≤ t → t < ws + wl → 0 < sizes t)
    (s : ℕ) (hpar : s % 2 = 0) (hws1 : ws ≤ s) (hws2 : s + 1 < ws + wl)
    (iidx : Int) (h0 : 0 ≤ iidx) (hle : (iidx + 1).toNat ≤ sizes s + sizes (s + 1)) :
    cursor1_inv B ws wl sizes
      (SpreadWithRewiringBulkLoading.refill B ws sizes ((s : ℕ) : Int)
        ((s : Int) * B + B - sizes s) (iidx - 1)).1
      (SpreadWithRewiringBulkLoading.refill B ws sizes ((s : ℕ) : Int)
        ((s : Int) * B + B - sizes s) (iidx - 1)).2.1
      (SpreadWithRewiringBulkLoading.refill B ws sizes ((s : ℕ) : Int)
        ((s : Int) * B + B - sizes s) (iidx - 1)).2.2
      (sumSizes sizes ws s + (iidx + 1).toNat - 1) := by
  unfold SpreadWithRewiringBulkLoading.refill
  by_cases hc : iidx - 1 < 0 ∧ ((s : ℕ) : Int) > (ws : Int)
  · rw [if_pos hc]
    dsimp only []
    obtain ⟨hc1, hc2⟩ := hc
    have hgt : ws < s := by exact_mod_cast hc2
    obtain ⟨u, rfl⟩ : ∃ u, s = u + 2 := ⟨s - 2, by omega⟩
    have e : ((u + 2 : ℕ) : Int) - 2 = ((u : ℕ) : Int) := by push_cast; ring
    rw [e, Int.toNat_natCast]
    have hszu := hsz u (by omega) (by omega)
    have hszu1 := hsz (u + 1) (by omega) (by omega)
    right
    refine ⟨by omega, u, rfl, by omega, by omega, by omega, rfl, by omega, ?_⟩
    have e1 : sumSizes sizes ws (u + 2) = sumSizes sizes ws (u + 1) + sizes (u + 1) :=
      sumSizes_succ sizes ws (u + 1) (by omega)
    have e2 : sumSizes sizes ws (u + 1) = sumSizes sizes ws u + sizes u :=
      sumSizes_succ sizes ws u (by omega)
    omega
  · rw [if_neg hc]
    dsimp only []
    by_cases h1 : 0 ≤ iidx - 1
    · right
      refine ⟨h1, s, rfl, hpar, hws1, hws2, rfl, by omega, by omega⟩
    · left
      have hsw : s = ws := by omega
      refine ⟨by omega, ?_, by rw [hsw]⟩
      rw [hsw, sumSizes_self]
      omega

theorem merge_loop_count (B ws wl : ℕ) (hws : ws % 2 = 0)
    (keys values : ℕ → Int) (sizes : ℕ → ℕ) (user : ℕ → Int × Int)
    (hsz : ∀ t, ws ≤ t → t < ws + wl → 0 < sizes t)
    (destBase outDisp : ℕ) :
    ∀ (fuel : ℕ) (k isid idisp iidx uidx : Int) (r1 : ℕ) (dK dV : ℕ → Int),
      cursor1_inv B ws wl sizes isid idisp iidx r1 →
      (k + 1).toNat + 1 ≤ fuel →
      ∃ r1' : ℕ,
        cursor1_inv B ws wl sizes
          (SpreadWithRewiringBulkLoading.merge_loop B ws keys values sizes user destBase
            outDisp fuel k isid idisp iidx uidx dK dV).2.2.2.1
          (SpreadWithRewiringBulkLoading.merge_loop B ws keys values sizes user destBase
            outDisp fuel k isid idisp iidx uidx dK dV).2.2.2.2.1
          (SpreadWithRewiringBulkLoading.merge_loop B ws keys values sizes user destBase
            outDisp fuel k isid idisp iidx uidx dK dV).2.2.2.2.2.1 r1' ∧
        r1' + ((SpreadWithRewiringBulkLoading.merge_loop B ws keys values sizes user destBase
            outDisp fuel k isid idisp iidx uidx dK dV).2.2.2.2.2.2 + 1).toNat + (k + 1).toNat =
          r1 + (uidx + 1).toNat +
            ((SpreadWithRewiringBulkLoading.merge_loop B ws keys values sizes user destBase
              outDisp fuel k isid idisp iidx uidx dK dV).2.2.1 + 1).toNat ∧
        ((SpreadWithRewiringBulkLoading.merge_loop B ws keys values sizes user destBase
            outDisp fuel k isid idisp iidx uidx dK dV).2.2.1 + 1).toNat ≤ (k + 1).toNat ∧
        (0 ≤ (SpreadWithRewiringBulkLoading.merge_loop B ws keys values sizes user destBase
            outDisp fuel k isid idisp iidx uidx dK dV).2.2.1 →
          (SpreadWithRewiringBulkLoading.merge_loop B ws keys values sizes user destBase
            outDisp fuel k isid idisp iidx uidx dK dV).2.2.2.2.2.1 < 0 ∨
          (SpreadWithRewiringBulkLoading.merge_loop B ws keys values sizes user destBase
            outDisp fuel k isid idisp iidx uidx dK dV).2.2.2.2.2.2 < 0) := by
  intro fuel
  induction fuel with
  | zero =>
    intro k isid idisp iidx uidx r1 dK dV _ hfuel
    exfalso
    omega
  | succ fuel ih =>
    intro k isid idisp iidx uidx r1 dK dV hinv hfuel
    simp only [SpreadWithRewiringBulkLoading.merge_loop]
    by_cases hcond : 0 ≤ k ∧ 0 ≤ iidx ∧ 0 ≤ uidx
    · rw [if_pos hcond]
      obtain ⟨hk, hi, hu⟩ := hcond
      by_cases hcmp : keys (idisp + iidx).toNat > (user uidx.toNat).1
      · rw [if_pos hcmp]
        rcases hinv with ⟨hneg, _, _⟩ | ⟨h0, s, hsid, hpar, hws1, hws2, hdisp, hle, hr1⟩
        · omega
        subst hsid
        subst hdisp
        have hrf := refill_step B ws wl sizes hws hsz s hpar hws1 hws2 iidx h0 hle
        have hrec := ih (k - 1)
          (SpreadWithRewiringBulkLoading.refill B ws sizes ((s : ℕ) : Int)
            ((s : Int) * B + B - sizes s) (iidx - 1)).1
          (SpreadWithRewiringBulkLoading.refill B ws sizes ((s : ℕ) : Int)
            ((s : Int) * B + B - sizes s) (iidx - 1)).2.1
          (SpreadWithRewiringBulkLoading.refill B ws sizes ((s : ℕ) : Int)
            ((s : Int) * B + B - sizes s) (iidx - 1)).2.2
          uidx (sumSizes sizes ws s + (iidx + 1).toNat - 1)
          (writeSlice dK (destBase + outDisp + k.toNat)
            [keys (((s : Int) * B + B - sizes s + iidx).toNat)])
          (writeSlice dV (destBase + outDisp + k.toNat)
            [values (((s : Int) * B + B - sizes s + iidx).toNat)])
          hrf (by omega)
        obtain ⟨r1', hinv', hcons, hkle, hexit⟩ := hrec
        exact ⟨r1', hinv', by omega, by omega, hexit⟩
      · rw [if_neg hcmp]
        have hrec := ih (k - 1) isid idisp iidx (uidx - 1) r1
          (writeSlice dK (destBase + outDisp + k.toNat) [(user uidx.toNat).1])
          (writeSlice dV (destBase + outDisp + k.toNat) [(user uidx.toNat).2])
          hinv (by omega)
        obtain ⟨r1', hinv', hcons, hkle, hexit⟩ := hrec
        exact ⟨r1', hinv', by omega, by omega, hexit⟩
    · rw [if_neg hcond]
      dsimp only []
      exact ⟨r1, hinv, by omega, by omega, fun hk => by omega⟩

theorem copy1_loop_count (B ws wl : ℕ) (hws : ws % 2 = 0)
    (keys values : ℕ → Int) (sizes : ℕ → ℕ)
    (hsz : ∀ t, ws ≤ t → t < ws + wl → 0 < sizes t)
    (destBase outDisp : ℕ) :
    ∀ (fuel : ℕ) (k isid idisp iidx : Int) (r1 : ℕ) (dK dV : ℕ → Int),
      cursor1_inv B ws wl sizes isid idisp iidx r1 →
      (k + 1).toNat + 1 ≤ fuel →
      ∃ r1' : ℕ,
        cursor1_inv B ws wl sizes
          (SpreadWithRewiringBulkLoading.copy1_loop B ws keys values sizes destBase
            outDisp fuel k isid idisp iidx dK dV).2.2.2.1
          (SpreadWithRewiringBulkLoading.copy1_loop B ws keys values sizes destBase
            outDisp fuel k isid idisp iidx dK dV).2.2.2.2.1
          (SpreadWithRewiringBulkLoading.copy1_loop B ws keys values sizes destBase
            outDisp fuel k isid idisp iidx dK dV).2.2.2.2.2 r1' ∧
        r1' + (k + 1).toNat =
          r1 + ((SpreadWithRewiringBulkLoading.copy1_loop B ws keys values sizes destBase
            outDisp fuel k isid idisp iidx dK dV).2.2.1 + 1).toNat ∧
        ((SpreadWithRewiringBulkLoading.copy1_loop B ws keys values sizes destBase
            outDisp fuel k isid idisp iidx dK dV).2.2.1 + 1).toNat ≤ (k + 1).toNat ∧
        (0 ≤ (SpreadWithRewiringBulkLoading.copy1_loop B ws keys values sizes destBase
            outDisp fuel k isid idisp iidx dK dV).2.2.1 →
          (SpreadWithRewiringBulkLoading.copy1_loop B ws keys values sizes destBase
            outDisp fuel k isid idisp iidx dK dV).2.2.2.2.2 < 0) := by
  intro fuel
  induction fuel with
  | zero =>
    intro k isid idisp iidx r1 dK dV _ hfuel
    exfalso
    omega
  | succ fuel ih =>
    intro k isid idisp iidx r1 dK dV hinv hfuel
    simp only [SpreadWithRewiringBulkLoading.copy1_loop]
    by_cases hcond : 0 ≤ k ∧ 0 ≤ iidx
    · rw [if_pos hcond]
      obtain ⟨hk, hi⟩ := hcond
      rcases hinv with ⟨hneg, _, _⟩ | ⟨h0, s, hsid, hpar, hws1, hws2, hdisp, hle, hr1⟩
      · omega
      subst hsid
      subst hdisp
      have hrf := refill_step B ws wl sizes hws hsz s hpar hws1 hws2 iidx h0 hle
      have hrec := ih (k - 1)
        (SpreadWithRewiringBulkLoading.refill B ws sizes ((s : ℕ) : Int)
          ((s : Int) * B + B - sizes s) (iidx - 1)).1
        (SpreadWithRewiringBulkLoading.refill B ws sizes ((s : ℕ) : Int)
          ((s : Int) * B + B - sizes s) (iidx - 1)).2.1
        (SpreadWithRewiringBulkLoading.refill B ws sizes ((s : ℕ) : Int)
          ((s : Int) * B + B - sizes s) (iidx - 1)).2.2
        (sumSizes sizes ws s + (iidx + 1).toNat - 1)
        (writeSlice dK (destBase + outDisp + k.toNat)
          [keys (((s : Int) * B + B - sizes s + iidx).toNat)])
        (writeSlice dV (destBase + outDisp + k.toNat)
          [values (((s : Int) * B + B - sizes s + iidx).toNat)])
        hrf (by omega)
      obtain ⟨r1', hinv', hcons, hkle, hexit⟩ := hrec
      exact ⟨r1', hinv', by omega, by omega, hexit⟩
    · rw [if_neg hcond]
      dsimp only []
      exact ⟨r1, hinv, by omega, by omega, fun hk => by omega⟩

theorem copy2_loop_count (user : ℕ → Int × Int) (destBase outDisp : ℕ) :
    ∀ (fuel : ℕ) (k uidx : Int) (dK dV : ℕ → Int),
      (k + 1).toNat + 1 ≤ fuel →
      ((SpreadWithRewiringBulkLoading.copy2_loop user destBase outDisp
          fuel k uidx dK dV).2.2 + 1).toNat +
        min ((k + 1).toNat) ((uidx + 1).toNat) = (uidx + 1).toNat := by
  intro fuel
  induction fuel with
  | zero =>
    intro k uidx dK dV hfuel
    exfalso
    omega
  | succ fuel ih =>
    intro k uidx dK dV hfuel
    simp only [SpreadWithRewiringBulkLoading.copy2_loop]
    by_cases hcond : 0 ≤ k ∧ 0 ≤ uidx
    · rw [if_pos hcond]
      have hrec := ih (k - 1) (uidx - 1)
        (writeSlice dK (destBase + outDisp + k.toNat) [(user uidx.toNat).1])
        (writeSlice dV (destBase + outDisp + k.toNat) [(user uidx.toNat).2])
        (by omega)
      omega
    · rw [if_neg hcond]
      dsimp only []
      omega

theorem three_loop_count (B ws wl : ℕ) (hws : ws % 2 = 0)
    (keys values : ℕ → Int) (sizes : ℕ → ℕ) (user : ℕ → Int × Int)
    (hsz : ∀ t, ws ≤ t → t < ws + wl → 0 < sizes t)
    (destBase outDisp : ℕ) (L : ℕ) (isid idisp iidx uidx : Int) (r1 : ℕ)
    (dK dV : ℕ → Int)
    (m : (ℕ → Int) × (ℕ → Int) × Int × Int × Int × Int × Int)
    (c1 : (ℕ → Int) × (ℕ → Int) × Int × Int × Int × Int)
    (c2 : (ℕ → Int) × (ℕ → Int) × Int)
    (hm : m = SpreadWithRewiringBulkLoading.merge_loop B ws keys values sizes user destBase
      outDisp (L + 2) (((L : ℕ) : Int) - 1) isid idisp iidx uidx dK dV)
    (hc1 : c1 = SpreadWithRewiringBulkLoading.copy1_loop B ws keys values sizes destBase
      outDisp (L + 2) m.2.2.1 m.2.2.2.1 m.2.2.2.2.1 m.2.2.2.2.2.1 m.1 m.2.1)
    (hc2 : c2 = SpreadWithRewiringBulkLoading.copy2_loop user destBase outDisp (L + 2)
      c1.2.2.1 m.2.2.2.2.2.2 c1.1 c1.2.1)
    (hinv : cursor1_inv B ws wl sizes isid idisp iidx r1)
    (hL : L ≤ r1 + (uidx + 1).toNat) :
    ∃ r1' : ℕ,
      cursor1_inv B ws wl sizes c1.2.2.2.1 c1.2.2.2.2.1 c1.2.2.2.2.2 r1' ∧
      r1' + (c2.2.2 + 1).toNat + L = r1 + (uidx + 1).toNat := by
  have h1 := merge_loop_count B ws wl hws keys values sizes user hsz destBase outDisp
    (L + 2) (((L : ℕ) : Int) - 1) isid idisp iidx uidx r1 dK dV hinv (by omega)
  rw [← hm] at h1
  obtain ⟨r1m, hinvm, hconsm, hklem, hexitm⟩ := h1
  have h2 := copy1_loop_count B ws wl hws keys values sizes hsz destBase outDisp
    (L + 2) m.2.2.1 m.2.2.2.1 m.2.2.2.2.1 m.2.2.2.2.2.1 r1m m.1 m.2.1 hinvm (by omega)
  rw [← hc1] at h2
  obtain ⟨r1c, hinvc, hconsc, hklec, hexitc⟩ := h2
  have h3 := copy2_loop_count user destBase outDisp (L + 2) c1.2.2.1 m.2.2.2.2.2.2
    c1.1 c1.2.1 (by omega)
  rw [← hc2] at h3
  refine ⟨r1c, hinvc, ?_⟩
  have hL0 : ((((L : ℕ) : Int) - 1) + 1).toNat = L := by omega
  by_cases hck : 0 ≤ c1.2.2.1
  · have hr1c0 : r1c = 0 := by
      rcases hinvc with ⟨_, hr0, _⟩ | ⟨h0n, _⟩
      · exact hr0
      · have := hexitc hck
        omega
    omega
  · have hz : (c1.2.2.1 + 1).toNat = 0 := by omega
    omega

theorem swrb_pair_loop_count (B ws wl spe : ℕ) (hws : ws % 2 = 0)
    (keys values : ℕ → Int) (sizes : ℕ → ℕ) (user : ℕ → Int × Int)
    (hsz : ∀ t, ws ≤ t → t < ws + wl → 0 < sizes t)
    (destBase eps odd : ℕ) :
    ∀ (fuel : ℕ) (oid isid idisp iidx uidx : Int) (r1 : ℕ) (dK dV : ℕ → Int),
      cursor1_inv B ws wl sizes isid idisp iidx r1 →
      oid % 2 = 0 →
      pair_budget eps odd oid ≤ r1 + (uidx + 1).toNat →
      oid + 2 ≤ 2 * (fuel : Int) →
      ∃ r1' : ℕ,
        cursor1_inv B ws wl sizes
          (SpreadWithRewiringBulkLoading.swrb_pair_loop B ws spe keys values sizes user
            destBase eps odd fuel oid isid idisp iidx uidx dK dV).2.2.1
          (SpreadWithRewiringBulkLoading.swrb_pair_loop B ws spe keys values sizes user
            destBase eps odd fuel oid isid idisp iidx uidx dK dV).2.2.2.1
          (SpreadWithRewiringBulkLoading.swrb_pair_loop B ws spe keys values sizes user
            destBase eps odd fuel oid isid idisp iidx uidx dK dV).2.2.2.2.1 r1' ∧
        r1' + ((SpreadWithRewiringBulkLoading.swrb_pair_loop B ws spe keys values sizes user
            destBase eps odd fuel oid isid idisp iidx uidx dK dV).2.2.2.2.2 + 1).toNat +
          pair_budget eps odd oid = r1 + (uidx + 1).toNat := by
  intro fuel
  induction fuel with
  | zero =>
    intro oid isid idisp iidx uidx r1 dK dV hinv hpar hbud hfuel
    have hneg : oid < 0 := by omega
    have hb0 : pair_budget eps odd oid = 0 := by
      unfold pair_budget
      rw [if_pos hneg]
    rw [hb0]
    dsimp only [SpreadWithRewiringBulkLoading.swrb_pair_loop]
    exact ⟨r1, hinv, by omega⟩
  | succ fuel ih =>
    intro oid isid idisp iidx uidx r1 dK dV hinv hpar hbud hfuel
    by_cases hneg : oid < 0
    · have hb0 : pair_budget eps odd oid = 0 := by
        unfold pair_budget
        rw [if_pos hneg]
      rw [hb0]
      simp only [SpreadWithRewiringBulkLoading.swrb_pair_loop, if_pos hneg]
      exact ⟨r1, hinv, by omega⟩
    · have hstep := pair_budget_step eps odd oid (by omega) hpar
      simp only [SpreadWithRewiringBulkLoading.swrb_pair_loop, if_neg hneg]
      set m := SpreadWithRewiringBulkLoading.merge_loop B ws keys values sizes user destBase
        (oid.toNat * B + (B - (eps + if oid < (odd : Int) then 1 else 0)))
        ((eps + (if oid < (odd : Int) then 1 else 0)) +
          (eps + (if oid + 1 < (odd : Int) then 1 else 0)) + 2)
        ((((eps + (if oid < (odd : Int) then 1 else 0)) +
          (eps + (if oid + 1 < (odd : Int) then 1 else 0)) : ℕ) : Int) - 1)
        isid idisp iidx uidx dK dV with hm
      set c1 := SpreadWithRewiringBulkLoading.copy1_loop B ws keys values sizes destBase
        (oid.toNat * B + (B - (eps + if oid < (odd : Int) then 1 else 0)))
        ((eps + (if oid < (odd : Int) then 1 else 0)) +
          (eps + (if oid + 1 < (odd : Int) then 1 else 0)) + 2)
        m.2.2.1 m.2.2.2.1 m.2.2.2.2.1 m.2.2.2.2.2.1 m.1 m.2.1 with hc1
      set c2 := SpreadWithRewiringBulkLoading.copy2_loop user destBase
        (oid.toNat * B + (B - (eps + if oid < (odd : Int) then 1 else 0)))
        ((eps + (if oid < (odd : Int) then 1 else 0)) +
          (eps + (if oid + 1 < (odd : Int) then 1 else 0)) + 2)
        c1.2.2.1 m.2.2.2.2.2.2 c1.1 c1.2.1 with hc2
      have h3l := three_loop_count B ws wl hws keys values sizes user hsz destBase
        (oid.toNat * B + (B - (eps + if oid < (odd : Int) then 1 else 0)))
        ((eps + (if oid < (odd : Int) then 1 else 0)) +
          (eps + (if oid + 1 < (odd : Int) then 1 else 0)))
        isid idisp iidx uidx r1 dK dV m c1 c2 hm hc1 hc2 hinv (by omega)
      obtain ⟨r1', hinv', hcons⟩ := h3l
      have hnext := ih (oid - 2) c1.2.2.2.1 c1.2.2.2.2.1 c1.2.2.2.2.2 c2.2.2 r1' c2.1 c2.2.1
        hinv' (by omega) (by omega) (by omega)
      obtain ⟨r1f, hinvf, hconsf⟩ := hnext
      exact ⟨r1f, hinvf, by omega⟩

theorem cursor_to_pos_b (B ws wl : ℕ) (sizes : ℕ → ℕ) (isid idisp iidx : Int) (r1 : ℕ)
    (h : cursor1_inv B ws wl sizes isid idisp iidx r1) :
    pos_inv_b B ws wl sizes (if 0 ≤ iidx then idisp + iidx + 1 else -1) r1 := by
  rcases h with ⟨hneg, hr0, _⟩ | ⟨h0, s, hsid, hpar, hws1, hws2, hdisp, hle, hr1⟩
  · rw [if_neg (by omega)]
    exact Or.inl ⟨hr0, rfl⟩
  · rw [if_pos h0]
    right
    refine ⟨s, hpar, hws1, hws2, ?_, ?_, ?_⟩
    · rw [hdisp]
      omega
    · rw [hdisp]
      have e : ((s : Int) + 1) * B = (s : Int) * B + B := by ring
      rw [e]
      omega
    · rw [hdisp]
      have e : (s : Int) * B + B - sizes s + iidx + 1 - ((s : Int) * B + B - sizes s) =
          iidx + 1 := by ring
      rw [e]
      omega

theorem spread_elements_b_count (B ws wl spe : ℕ) (hB : 0 < B) (hws : ws % 2 = 0)
    (hspe : 2 ≤ spe) (hspee : spe % 2 = 0) (hwl : 0 < wl)
    (sizes : ℕ → ℕ) (user : ℕ → Int × Int)
    (hsz : ∀ t, ws ≤ t → t < ws + wl → 0 < sizes t)
    (hszB : ∀ t, ws ≤ t → t < ws + wl → sizes t ≤ B)
    (st : SWRState) (uidx : Int) (destBase : ℕ) (dK dV : ℕ → Int) (n r1 : ℕ)
    (hpos : pos_inv_b B ws wl sizes st.position r1)
    (hn : n ≤ r1 + (uidx + 1).toNat) :
    ∃ r1' : ℕ,
      pos_inv_b B ws wl sizes
        (SpreadWithRewiringBulkLoading.spread_elements B ws spe sizes user st uidx destBase
          dK dV n).2.2.1 r1' ∧
      r1' + ((SpreadWithRewiringBulkLoading.spread_elements B ws spe sizes user st uidx
          destBase dK dV n).2.2.2 + 1).toNat + n = r1 + (uidx + 1).toNat := by
  rcases hpos with ⟨hr0, hp⟩ | ⟨s, hpar, hws1, hws2, hlo, hhi, hreq⟩
  · -- the PMA input is depleted
    simp only [SpreadWithRewiringBulkLoading.spread_elements]
    rw [hp]
    have h1 : (2 : Int) * (B : Int) = ((2 * B : ℕ) : Int) := by push_cast; ring
    have h3 : Int.tdiv ((-1 : Int) - 1) (2 * (B : Int)) = -(((2 / (2 * B) : ℕ)) : Int) := by
      rw [h1, show ((-1 : Int) - 1) = -(((2 : ℕ) : Int)) from by norm_num, Int.neg_tdiv]
      rw [show Int.tdiv (((2 : ℕ) : Int)) (((2 * B : ℕ)) : Int) =
        (((2 / (2 * B) : ℕ)) : Int) from rfl]
    have h4 : 2 / (2 * B) ≤ 1 := by
      calc 2 / (2 * B) ≤ 2 / 2 := Nat.div_le_div_left (by omega) (by omega)
      _ = 1 := by norm_num
    obtain ⟨d, hd⟩ : ∃ d, 2 / (2 * B) = d := ⟨_, rfl⟩
    rw [hd] at h3 h4
    have hinv0 : cursor1_inv B ws wl sizes (Int.tdiv ((-1 : Int) - 1) (2 * (B : Int)) * 2)
        (if Int.tdiv ((-1 : Int) - 1) (2 * (B : Int)) * 2 ≥ (ws : Int) then
          Int.tdiv ((-1 : Int) - 1) (2 * (B : Int)) * 2 * B + B -
            sizes (Int.tdiv ((-1 : Int) - 1) (2 * (B : Int)) * 2).toNat
        else 0)
        (if Int.tdiv ((-1 : Int) - 1) (2 * (B : Int)) * 2 ≥ (ws : Int) then
          (-1 : Int) - (Int.tdiv ((-1 : Int) - 1) (2 * (B : Int)) * 2 * B + B -
            sizes (Int.tdiv ((-1 : Int) - 1) (2 * (B : Int)) * 2).toNat) - 1
        else -1) 0 := by
      by_cases hg : Int.tdiv ((-1 : Int) - 1) (2 * (B : Int)) * 2 ≥ (ws : Int)
      · rw [if_pos hg, if_pos hg]
        have hz : Int.tdiv ((-1 : Int) - 1) (2 * (B : Int)) * 2 = 0 ∧ ws = 0 := by
          rw [h3] at hg ⊢
          constructor <;> omega
        rw [hz.1]
        left
        have hs0 : sizes ((0 : Int)).toNat ≤ B := by
          have := hszB 0 (by omega) (by omega)
          simpa using this
        refine ⟨?_, rfl, by omega⟩
        have e : (0 : Int) * B + B - sizes ((0 : Int)).toNat = B - sizes ((0 : Int)).toNat := by
          ring
        rw [e]
        omega
      · rw [if_neg hg, if_neg hg]
        refine Or.inl ⟨by omega, rfl, ?_⟩
        rw [h3] at hg ⊢
        omega
    have hcount := swrb_pair_loop_count B ws wl spe hws st.keys st.values sizes user hsz
      destBase (n / spe) (n % spe) (spe + 2) ((spe : Int) - 2)
      (Int.tdiv ((-1 : Int) - 1) (2 * (B : Int)) * 2)
      (if Int.tdiv ((-1 : Int) - 1) (2 * (B : Int)) * 2 ≥ (ws : Int) then
        Int.tdiv ((-1 : Int) - 1) (2 * (B : Int)) * 2 * B + B -
          sizes (Int.tdiv ((-1 : Int) - 1) (2 * (B : Int)) * 2).toNat
      else 0)
      (if Int.tdiv ((-1 : Int) - 1) (2 * (B : Int)) * 2 ≥ (ws : Int) then
        (-1 : Int) - (Int.tdiv ((-1 : Int) - 1) (2 * (B : Int)) * 2 * B + B -
          sizes (Int.tdiv ((-1 : Int) - 1) (2 * (B : Int)) * 2).toNat) - 1
      else -1)
      uidx 0 dK dV hinv0 (by omega)
      (by rw [pair_budget_full spe n hspe]; omega) (by push_cast; omega)
    rw [pair_budget_full spe n hspe] at hcount
    obtain ⟨r1', hinv', hcons⟩ := hcount
    refine ⟨r1', ?_, by omega⟩
    exact cursor_to_pos_b B ws wl sizes _ _ _ r1' hinv'
  · -- the PMA cursor sits in an even window segment pair
    obtain ⟨m, rfl⟩ : ∃ m, s = 2 * m := ⟨s / 2, by omega⟩
    have hX2 : (((2 * m : ℕ) : Int) + 1) * B = ((2 * m : ℕ) : Int) * B + B := by ring
    rw [hX2] at hhi
    have hX1 : ((2 * m : ℕ) : Int) * B = 2 * ((m : Int) * B) := by push_cast; ring
    rw [hX1] at hlo hhi hreq
    have hsz1 := hszB (2 * m) (by omega) (by omega)
    have hsz2 := hszB (2 * m + 1) (by omega) (by omega)
    have hq : st.position - 1 = (((st.position - 1).toNat : ℕ) : Int) := by
      have h1 : (0 : Int) ≤ (m : Int) * B := by positivity
      omega
    have hisid : Int.tdiv (st.position - 1) (2 * (B : Int)) * 2 = ((2 * m : ℕ) : Int) := by
      rw [hq]
      have h2B : (2 * (B : Int)) = ((2 * B : ℕ) : Int) := by push_cast; ring
      rw [h2B]
      rw [show Int.tdiv (((st.position - 1).toNat : ℕ) : Int) ((2 * B : ℕ) : Int) =
        (((st.position - 1).toNat / (2 * B) : ℕ) : Int) from rfl]
      have hdiv : (st.position - 1).toNat / (2 * B) = m := by
        apply Nat.div_eq_of_lt_le
        · have hc : ((m * (2 * B) : ℕ) : Int) = 2 * ((m : Int) * B) := by push_cast; ring
          have hle : ((m * (2 * B) : ℕ) : Int) ≤ (((st.position - 1).toNat : ℕ) : Int) := by
            rw [hc, ← hq]
            omega
          exact_mod_cast hle
        · have hc : (((m + 1) * (2 * B) : ℕ) : Int) = 2 * ((m : Int) * B) + 2 * B := by
            push_cast; ring
          have hlt : (((st.position - 1).toNat : ℕ) : Int) < (((m + 1) * (2 * B) : ℕ) : Int) := by
            rw [hc, ← hq]
            omega
          exact_mod_cast hlt
      rw [hdiv]
      push_cast
      ring
    simp only [SpreadWithRewiringBulkLoading.spread_elements]
    rw [hisid, Int.toNat_natCast]
    have hg : ((2 * m : ℕ) : Int) ≥ (ws : Int) := by exact_mod_cast hws1
    rw [if_pos hg, if_pos hg, hX1]
    have hinv0 : cursor1_inv B ws wl sizes ((2 * m : ℕ) : Int)
        (2 * ((m : Int) * B) + B - sizes (2 * m))
        (st.position - (2 * ((m : Int) * B) + B - sizes (2 * m)) - 1) r1 := by
      right
      refine ⟨by omega, 2 * m, rfl, by omega, hws1, hws2, by rw [hX1], by omega, by omega⟩
    have hcount := swrb_pair_loop_count B ws wl spe hws st.keys st.values sizes user hsz
      destBase (n / spe) (n % spe) (spe + 2) ((spe : Int) - 2)
      ((2 * m : ℕ) : Int) (2 * ((m : Int) * B) + B - sizes (2 * m))
      (st.position - (2 * ((m : Int) * B) + B - sizes (2 * m)) - 1)
      uidx r1 dK dV hinv0 (by omega)
      (by rw [pair_budget_full spe n hspe]; exact hn) (by push_cast; omega)
    rw [pair_budget_full spe n hspe] at hcount
    obtain ⟨r1', hinv', hcons⟩ := hcount
    refine ⟨r1', ?_, by omega⟩
    exact cursor_to_pos_b B ws wl sizes _ _ _ r1' hinv'

theorem current_extent_neg_b (B ws spe : ℕ) (hB : 0 < B) (hspe : 0 < spe)
    (st : SWRState) (hp : st.position = -1) :
    SpreadWithRewiring.get_current_extent B ws spe st < 0 := by
  unfold SpreadWithRewiring.get_current_extent SpreadWithRewiring.position2extent
    SpreadWithRewiring.position2segment
  rw [hp]
  have hx : (-1 : Int) - 1 - (ws : Int) * (B : Int) ≤ -1 := by
    have h0 : (0 : Int) ≤ (ws : Int) * (B : Int) := by positivity
    omega
  have e1 : Int.fdiv ((-1 : Int) - 1 - (ws : Int) * (B : Int)) (B : Int) ≤ -1 := by
    rw [Int.fdiv_eq_ediv _ (by positivity)]
    calc ((-1 : Int) - 1 - (ws : Int) * (B : Int)) / (B : Int) ≤ (-1 : Int) / (B : Int) :=
      Int.ediv_le_ediv (by exact_mod_cast hB) hx
    _ = -1 := neg_one_ediv_pos _ (by exact_mod_cast hB)
  have e2 : Int.fdiv (Int.fdiv ((-1 : Int) - 1 - (ws : Int) * (B : Int)) (B : Int))
      (spe : Int) ≤ -1 := by
    rw [Int.fdiv_eq_ediv _ (by positivity)]
    calc Int.fdiv ((-1 : Int) - 1 - (ws : Int) * (B : Int)) (B : Int) / (spe : Int)
        ≤ (-1 : Int) / (spe : Int) := Int.ediv_le_ediv (by exact_mod_cast hspe) e1
    _ = -1 := neg_one_ediv_pos _ (by exact_mod_cast hspe)
  omega

theorem spread_extent_b_step (B ws wl spe : ℕ) (hB : 0 < B) (hws : ws % 2 = 0)
    (hspe : 2 ≤ spe) (hspee : spe % 2 = 0) (hwl : 0 < wl)
    (sizes : ℕ → ℕ) (user : ℕ → Int × Int)
    (hsz : ∀ t, ws ≤ t → t < ws + wl → 0 < sizes t)
    (hszB : ∀ t, ws ≤ t → t < ws + wl → sizes t ≤ B)
    (st : SWRState) (uidx : Int) (i : Int) (hi : 0 ≤ i) (n r1 : ℕ)
    (hn : n ≤ r1 + (uidx + 1).toNat)
    (hpos : pos_inv_b B ws wl sizes st.position r1)
    (hids : ∀ e ∈ st.extents_to_rewire, 0 ≤ e.m_extent_id) :
    ∃ r1' : ℕ,
      pos_inv_b B ws wl sizes
        ((SpreadWithRewiringBulkLoading.spread_extent B ws spe wl sizes user st uidx
          i n).1).position r1' ∧
      r1' + ((SpreadWithRewiringBulkLoading.spread_extent B ws spe wl sizes user st uidx
          i n).2 + 1).toNat + n = r1 + (uidx + 1).toNat ∧
      (∀ e ∈ ((SpreadWithRewiringBulkLoading.spread_extent B ws spe wl sizes user st uidx
          i n).1).extents_to_rewire, 0 ≤ e.m_extent_id) ∧
      (r1 + (uidx + 1).toNat - n = 0 →
        ((SpreadWithRewiringBulkLoading.spread_extent B ws spe wl sizes user st uidx
          i n).1).extents_to_rewire = []) := by
  have hcount1 := spread_elements_b_count B ws wl spe hB hws hspe hspee hwl sizes user
    hsz hszB st uidx (SpreadWithRewiring.get_offset B ws spe i) st.keys st.values n r1
    hpos hn
  have hcount2 := spread_elements_b_count B ws wl spe hB hws hspe hspee hwl sizes user
    hsz hszB st uidx 0 (fun _ => 0) (fun _ => 0) n r1 hpos hn
  unfold SpreadWithRewiringBulkLoading.spread_extent
  dsimp only []
  by_cases hu : SpreadWithRewiring.get_current_extent B ws spe st ≥ i
  · rw [if_neg (not_not_intro hu)]
    obtain ⟨r1', hp2, hcons2⟩ := hcount2
    refine ⟨r1', ?_, ?_, ?_, ?_⟩
    · rw [reclaim_position]
      exact hp2
    · exact hcons2
    · intro e he
      have hsub := reclaim_subset B ws spe _ _ e he
      dsimp only [] at hsub
      rcases List.mem_append.mp hsub with h1 | h1
      · exact hids e h1
      · rcases List.mem_singleton.mp h1 with rfl
        exact hi
    · intro hr0
      apply reclaim_all
      · rcases hp2 with ⟨hz, hpp⟩ | ⟨s, _, _, _, hlo2, _, hreq2⟩
        · exact current_extent_neg_b B ws spe hB (by omega) _ hpp
        · exfalso
          omega
      · intro e he
        dsimp only [] at he
        rcases List.mem_append.mp he with h1 | h1
        · exact hids e h1
        · rcases List.mem_singleton.mp h1 with rfl
          exact hi
      · exact le_refl _
  · rw [if_pos hu]
    obtain ⟨r1', hp2, hcons2⟩ := hcount1
    refine ⟨r1', ?_, ?_, ?_, ?_⟩
    · rw [reclaim_position]
      exact hp2
    · exact hcons2
    · intro e he
      have hsub := reclaim_subset B ws spe _ _ e he
      dsimp only [] at hsub
      exact hids e hsub
    · intro hr0
      apply reclaim_all
      · rcases hp2 with ⟨hz, hpp⟩ | ⟨s, _, _, _, hlo2, _, hreq2⟩
        · exact current_extent_neg_b B ws spe hB (by omega) _ hpp
        · exfalso
          omega
      · intro e he
        dsimp only [] at he
        exact hids e he
      · exact le_refl _

theorem window_loop_exit_b (B ws spe wl : ℕ) (sizes : ℕ → ℕ) (user : ℕ → Int × Int)
    (eps odd : ℕ) (fuel : ℕ) (i : Int) (st : SWRState) (uidx : Int) (hi : i < 0) :
    SpreadWithRewiringBulkLoading.swrb_window_loop B ws spe wl sizes user eps odd
      fuel i st uidx = (st, uidx) := by
  cases fuel with
  | zero => rfl
  | succ fuel =>
    simp only [SpreadWithRewiringBulkLoading.swrb_window_loop]
    rw [if_pos hi]

theorem swrb_window_loop_empty (B ws wl spe : ℕ) (hB : 0 < B) (hws : ws % 2 = 0)
    (hspe : 2 ≤ spe) (hspee : spe % 2 = 0) (hwl : 0 < wl)
    (sizes : ℕ → ℕ) (user : ℕ → Int × Int)
    (hsz : ∀ t, ws ≤ t → t < ws + wl → 0 < sizes t)
    (hszB : ∀ t, ws ≤ t → t < ws + wl → sizes t ≤ B)
    (eps odd : ℕ) :
    ∀ (fuel : ℕ) (i : Int) (st : SWRState) (uidx : Int) (r1 : ℕ),
      0 ≤ i →
      pos_inv_b B ws wl sizes st.position r1 →
      (∀ e ∈ st.extents_to_rewire, 0 ≤ e.m_extent_id) →
      r1 + (uidx + 1).toNat = extent_budget eps odd i →
      i + 1 ≤ (fuel : Int) →
      ((SpreadWithRewiringBulkLoading.swrb_window_loop B ws spe wl sizes user eps odd
        fuel i st uidx).1).extents_to_rewire = [] := by
  intro fuel
  induction fuel with
  | zero =>
    intro i st uidx r1 hi0 _ _ _ hfi
    exfalso
    simp only [Nat.cast_zero] at hfi
    omega
  | succ fuel ih =>
    intro i st uidx r1 hi0 hpos hids hbud hfi
    simp only [SpreadWithRewiringBulkLoading.swrb_window_loop]
    rw [if_neg (not_lt.mpr hi0)]
    have hn_le : eps + (if i < (odd : Int) then 1 else 0) ≤ extent_budget eps odd i := by
      rw [extent_budget_step eps odd i hi0]
      split_ifs <;> omega
    have hstep := spread_extent_b_step B ws wl spe hB hws hspe hspee hwl sizes user hsz hszB
      st uidx i hi0 (eps + if i < (odd : Int) then 1 else 0) r1 (by omega) hpos hids
    obtain ⟨r1', hp2, hcons2, hids2, hempty2⟩ := hstep
    have hb2 : r1' + ((SpreadWithRewiringBulkLoading.spread_extent B ws spe wl sizes user st
        uidx i (eps + if i < (odd : Int) then 1 else 0)).2 + 1).toNat =
        extent_budget eps odd (i - 1) := by
      rw [extent_budget_step eps odd i hi0] at hbud
      omega
    by_cases hi1 : i - 1 < 0
    · rw [window_loop_exit_b B ws spe wl sizes user eps odd fuel (i - 1) _ _ hi1]
      apply hempty2
      have hz : extent_budget eps odd (i - 1) = 0 := by
        unfold extent_budget
        rw [if_pos hi1]
      rw [extent_budget_step eps odd i hi0] at hbud
      omega
    · refine ih (i - 1) _ _ r1' (by omega) hp2 hids2 hb2 ?_
      have hc : ((fuel + 1 : ℕ) : Int) = (fuel : Int) + 1 := by push_cast; ring
      rw [hc] at hfi
      omega

theorem extent_budget_full (ne card : ℕ) (hne : 0 < ne) :
    extent_budget (card / ne) (card % ne) (((ne : ℕ) : Int) - 1) = card := by
  unfold extent_budget
  rw [if_neg (by omega)]
  have e1 : (((ne : ℕ) : Int) - 1 + 1).toNat = ne := by omega
  rw [e1]
  have e2 : min ne (card % ne) = card % ne := by
    have := Nat.mod_lt card hne
    omega
  rw [e2, Nat.mul_comm]
  exact Nat.div_add_mod card ne

theorem sumSizes_ge (sizes : ℕ → ℕ) (ws : ℕ) :
    ∀ wl, (∀ t, ws ≤ t → t < ws + wl → 0 < sizes t) → wl ≤ sumSizes sizes ws (ws + wl) := by
  intro wl
  induction wl with
  | zero => intro _; simp [sumSizes_self]
  | succ wl ih =>
    intro hsz
    have e : ws + (wl + 1) = (ws + wl) + 1 := by omega
    rw [e, sumSizes_succ sizes ws (ws + wl) (by omega)]
    have h1 := ih (fun t ht1 ht2 => hsz t ht1 (by omega))
    have h2 := hsz (ws + wl) (by omega) (by omega)
    omega

theorem initial_window_form (B ws wl : ℕ) (hB : 0 < B) (hws : ws % 2 = 0)
    (hwl2 : 2 ≤ wl) (hwle : wl % 2 = 0) (sizes : ℕ → ℕ)
    (hsz : ∀ t, ws ≤ t → t < ws + wl → 0 < sizes t)
    (hszB : ∀ t, ws ≤ t → t < ws + wl → sizes t ≤ B) :
    ∃ s : ℕ, s % 2 = 0 ∧ ws ≤ s ∧ s + 1 < ws + wl ∧
      (s : Int) * B + B - sizes s <
        ((ws + wl - 1 : ℕ) : Int) * (B : Int) + ((sizes (ws + wl - 1) : ℕ) : Int) ∧
      ((ws + wl - 1 : ℕ) : Int) * (B : Int) + ((sizes (ws + wl - 1) : ℕ) : Int) ≤
        ((s : Int) + 1) * B + sizes (s + 1) ∧
      sumSizes sizes ws (ws + wl) = sumSizes sizes ws s +
        (((ws + wl - 1 : ℕ) : Int) * (B : Int) + ((sizes (ws + wl - 1) : ℕ) : Int) -
          ((s : Int) * B + B - sizes s)).toNat := by
  obtain ⟨u, hu⟩ : ∃ u, ws + wl = u + 2 := ⟨ws + wl - 2, by omega⟩
  have e1 : ws + wl - 1 = u + 1 := by omega
  rw [e1]
  have hszu := hsz u (by omega) (by omega)
  have hszu1 := hsz (u + 1) (by omega) (by omega)
  have ec : ((u + 1 : ℕ) : Int) * (B : Int) = (u : Int) * B + B := by push_cast; ring
  have ec2 : ((u : Int) + 1) * (B : Int) = (u : Int) * B + B := by ring
  refine ⟨u, by omega, by omega, by omega, ?_, ?_, ?_⟩
  · rw [ec]
    omega
  · rw [ec, ec2]
  · have e2 : sumSizes sizes ws (ws + wl) = sumSizes sizes ws (u + 1) + sizes (u + 1) := by
      rw [hu]
      exact sumSizes_succ sizes ws (u + 1) (by omega)
    have e3 : sumSizes sizes ws (u + 1) = sumSizes sizes ws u + sizes u :=
      sumSizes_succ sizes ws u (by omega)
    rw [ec]
    omega

set_option maxHeartbeats 1000000 in
/-- **C8** (amended): when each rewired extent spans at least two segments
(`2 ≤ spe` and `spe` even, i.e. the extent byte size is at least twice the
segment byte size), every `acquire_buffer()` call during a rebalance that
uses rewiring is matched by a `swap_and_release` of the same buffer before
the rebalance returns: the deque of extents to rewire (the acquired but not
yet released buffers, i.e. the used-buffer count of the rewired memory) is
empty immediately before each spread (the spread starts from an empty deque)
and empty again immediately after the spread-window loop, for both
`SpreadWithRewiring::spread_window` and
`SpreadWithRewiringBulkLoading::spread_window`, whenever the window geometry
is as `execute` sets it up (even window start, whole extents in the window)
and the window's segment sizes are positive, bounded by the segment capacity,
and account exactly for the cardinality being spread.  The original
unconditional claim fails in the reachable configuration `spe = 1`, where
the pair-copy loop of `spread_elements` never runs and no buffer is ever
released — see the counterexample. -/
theorem claim_C8_rewiring_buffers :
    (∀ (B ws wl spe cardinality : ℕ) (keys values : ℕ → Int) (sizes : ℕ → ℕ)
       (st0 : SWRState),
      0 < B → ws % 2 = 0 → 2 ≤ spe → spe % 2 = 0 → wl % spe = 0 → 0 < wl / spe →
      (∀ t, ws ≤ t → t < ws + wl → 0 < sizes t) →
      (∀ t, ws ≤ t → t < ws + wl → sizes t ≤ B) →
      sumSizes sizes ws (ws + wl) = cardinality →
      st0 = { keys := keys, values := values,
              position := ((ws + wl - 1 : ℕ) : Int) * (B : Int) +
                ((sizes (ws + wl - 1) : ℕ) : Int),
              extents_to_rewire := [] } →
      st0.extents_to_rewire = [] ∧
      (SpreadWithRewiring.swr_window_loop B ws spe wl sizes
        (cardinality / (wl / spe)) (cardinality % (wl / spe))
        (wl / spe + 2) (((wl / spe : ℕ) : Int) - 1) st0).extents_to_rewire = []) ∧
    (∀ (B ws wl spe cardinality usz : ℕ) (keys values : ℕ → Int) (sizes : ℕ → ℕ)
       (user : ℕ → Int × Int) (st0 : SWRState),
      0 < B → ws % 2 = 0 → 2 ≤ spe → spe % 2 = 0 → wl % spe = 0 → 0 < wl / spe →
      (∀ t, ws ≤ t → t < ws + wl → 0 < sizes t) →
      (∀ t, ws ≤ t → t < ws + wl → sizes t ≤ B) →
      sumSizes sizes ws (ws + wl) + usz = cardinality →
      st0 = { keys := keys, values := values,
              position := ((ws + wl - 1 : ℕ) : Int) * (B : Int) +
                ((sizes (ws + wl - 1) : ℕ) : Int),
              extents_to_rewire := [] } →
      st0.extents_to_rewire = [] ∧
      ((SpreadWithRewiringBulkLoading.swrb_window_loop B ws spe wl sizes user
        (cardinality / (wl / spe)) (cardinality % (wl / spe))
        (wl / spe + 2) (((wl / spe : ℕ) : Int) - 1) st0
        (((usz : ℕ) : Int) - 1)).1).extents_to_rewire = []) := by
  constructor
  · intro B ws wl spe cardinality keys values sizes st0 hB hws hspe hspee hdv hne hsz hszB
      hcard hst0
    subst hst0
    refine ⟨rfl, ?_⟩
    have hdm := Nat.div_add_mod wl spe
    have hmul : 2 * 1 ≤ spe * (wl / spe) := Nat.mul_le_mul hspe hne
    have hwl2 : 2 ≤ wl := by omega
    have hpe : spe * (wl / spe) % 2 = 0 := by
      rw [Nat.mul_mod, hspee]
      simp
    have hwle : wl % 2 = 0 := by omega
    have hge := sumSizes_ge sizes ws wl hsz
    have hcpos : 0 < cardinality := by omega
    have hnele : wl / spe ≤ cardinality := by
      have := Nat.div_le_self wl spe
      omega
    have hco : 0 < cardinality / (wl / spe) + cardinality % (wl / spe) := by
      have hdp := Nat.div_pos hnele hne
      omega
    have hinit := initial_window_form B ws wl hB hws hwl2 hwle sizes hsz hszB
    apply swr_window_loop_empty B ws wl spe hB hws hspe hspee sizes hsz hszB
      (cardinality / (wl / spe)) (cardinality % (wl / spe)) hco
      (wl / spe + 2) (((wl / spe : ℕ) : Int) - 1) _ (by omega)
    · show pos_inv B ws wl sizes
        (((ws + wl - 1 : ℕ) : Int) * (B : Int) + ((sizes (ws + wl - 1) : ℕ) : Int))
        (extent_budget (cardinality / (wl / spe)) (cardinality % (wl / spe))
          (((wl / spe : ℕ) : Int) - 1))
      rw [extent_budget_full (wl / spe) cardinality hne, ← hcard]
      exact Or.inr hinit
    · intro e he
      simp at he
    · push_cast
      omega
  · intro B ws wl spe cardinality usz keys values sizes user st0 hB hws hspe hspee hdv hne
      hsz hszB hcard hst0
    subst hst0
    refine ⟨rfl, ?_⟩
    have hdm := Nat.div_add_mod wl spe
    have hmul : 2 * 1 ≤ spe * (wl / spe) := Nat.mul_le_mul hspe hne
    have hwl2 : 2 ≤ wl := by omega
    have hpe : spe * (wl / spe) % 2 = 0 := by
      rw [Nat.mul_mod, hspee]
      simp
    have hwle : wl % 2 = 0 := by omega
    have hinit := initial_window_form B ws wl hB hws hwl2 hwle sizes hsz hszB
    apply swrb_window_loop_empty B ws wl spe hB hws hspe hspee (by omega) sizes user hsz hszB
      (cardinality / (wl / spe)) (cardinality % (wl / spe))
      (wl / spe + 2) (((wl / spe : ℕ) : Int) - 1) _ (((usz : ℕ) : Int) - 1)
      (sumSizes sizes ws (ws + wl)) (by omega)
    · show pos_inv_b B ws wl sizes
        (((ws + wl - 1 : ℕ) : Int) * (B : Int) + ((sizes (ws + wl - 1) : ℕ) : Int))
        (sumSizes sizes ws (ws + wl))
      exact Or.inr hinit
    · intro e he
      simp at he
    · rw [extent_budget_full (wl / spe) cardinality hne]
      omega
    · push_cast
      omega

/-- Witness for C8: a two-segment window (one extent of two segments,
capacity 2, one element per segment) for the plain rewired spread, and the
same window merged with a one-element user sequence for the bulk-loading
spread. -/
theorem claim_C8_witness :
    ((0 : ℕ) < 2 ∧ sumSizes (fun _ => 1) 0 (0 + 2) = 2 ∧
      sumSizes (fun _ => 1) 0 (0 + 2) + 1 = 3) ∧
    (SpreadWithRewiring.swr_window_loop 2 0 2 2 (fun _ => 1) (2 / (2 / 2)) (2 % (2 / 2))
      (2 / 2 + 2) (((2 / 2 : ℕ) : Int) - 1)
      { keys := fun _ => (0 : Int), values := fun _ => (0 : Int),
        position := ((0 + 2 - 1 : ℕ) : Int) * ((2 : ℕ) : Int) +
          (((fun _ => 1) (0 + 2 - 1) : ℕ) : Int),
        extents_to_rewire := [] }).extents_to_rewire = [] ∧
    ((SpreadWithRewiringBulkLoading.swrb_window_loop 2 0 2 2 (fun _ => 1)
      (fun _ => ((0 : Int), (0 : Int))) (3 / (2 / 2)) (3 % (2 / 2))
      (2 / 2 + 2) (((2 / 2 : ℕ) : Int) - 1)
      { keys := fun _ => (0 : Int), values := fun _ => (0 : Int),
        position := ((0 + 2 - 1 : ℕ) : Int) * ((2 : ℕ) : Int) +
          (((fun _ => 1) (0 + 2 - 1) : ℕ) : Int),
        extents_to_rewire := [] }
      (((1 : ℕ) : Int) - 1)).1).extents_to_rewire = [] := by
  refine ⟨⟨by norm_num, by decide, by decide⟩, ?_, ?_⟩
  · exact (claim_C8_rewiring_buffers.1 2 0 2 2 2 (fun _ => 0) (fun _ => 0) (fun _ => 1) _
      (by norm_num) rfl (by norm_num) rfl rfl (by norm_num)
      (fun t _ _ => Nat.one_pos) (fun t _ _ => by norm_num) (by decide) rfl).2
  · exact (claim_C8_rewiring_buffers.2 2 0 2 2 3 1 (fun _ => 0) (fun _ => 0) (fun _ => 1)
      (fun _ => ((0 : Int), (0 : Int))) _
      (by norm_num) rfl (by norm_num) rfl rfl (by norm_num)
      (fun t _ _ => Nat.one_pos) (fun t _ _ => by norm_num) (by decide) rfl).2

theorem iter_drain_stop (P : PMA) (fuel : ℕ) (it : Iterator) (h : it.m_stop ≤ it.m_offset) :
    iter_drain P fuel it = [] := by
  cases fuel with
  | zero => rfl
  | succ fuel =>
    simp only [iter_drain]
    rw [if_neg (by omega)]

theorem iter_drain_run (P : PMA) (endp : Int) :
    ∀ (n fuel : ℕ) (offset : Int) (next : ℕ),
      0 ≤ offset → 0 < n → n ≤ fuel →
      iter_drain P fuel { m_offset := offset, m_next_segment := next, m_stop := offset + (n : ℕ), m_index_max := endp } =
        ((List.range' offset.toNat n).map fun p => (P.m_keys p, P.m_values p)) ++
        iter_drain P (fuel - n) (Iterator.next_sequence P { m_offset := offset + (n : ℕ), m_next_segment := next, m_stop := offset + (n : ℕ), m_index_max := endp }) := by
  intro n
  induction n with
  | zero => intro fuel offset next _ h0 _; omega
  | succ n ihn =>
    intro fuel offset next h0 _ hfuel
    obtain ⟨fuel, rfl⟩ : ∃ f, fuel = f + 1 := ⟨fuel - 1, by omega⟩
    simp only [iter_drain]
    rw [if_pos (by push_cast; omega)]
    simp only [Iterator.next]
    cases n with
    | zero =>
      rw [if_pos (by push_cast; omega)]
      have e2 : fuel + 1 - 1 = fuel := by omega
      rw [e2, Nat.cast_one]
      have e3 : List.range' offset.toNat 1 = [offset.toNat] := rfl
      rw [e3]
      simp only [List.map_cons, List.map_nil, List.cons_append, List.nil_append]
    | succ m =>
      rw [if_neg (by push_cast; omega)]
      have e6 : offset + ((m + 1 + 1 : ℕ) : Int) = (offset + 1) + ((m + 1 : ℕ) : Int) := by
        push_cast
        ring
      rw [e6]
      have hrec := ihn fuel (offset + 1) next (by omega) (by omega) (by omega)
      rw [hrec]
      have e9 : fuel + 1 - (m + 1 + 1) = fuel - (m + 1) := by omega
      rw [e9]
      have e11 : List.range' offset.toNat (m + 1 + 1) =
          offset.toNat :: List.range' (offset + 1).toNat (m + 1) := by
        rw [List.range'_succ]
        have e12 : (offset + 1).toNat = offset.toNat + 1 := by omega
        rw [e12]
      rw [e11]
      simp only [List.map_cons, List.cons_append]

theorem drain_account (P : PMA)
    (hsz : ∀ i < P.m_number_segments, P.m_segment_sizes i ≤ P.m_segment_capacity)
    (s : ℕ) (hs : s < P.m_number_segments) (X : ℕ) (offset stop endp : Int)
    (h0 : 0 ≤ offset) (hoff : ((P.seg_start s : ℕ) : Int) ≤ offset)
    (hos : offset ≤ stop) (hse : stop ≤ endp)
    (hsb : stop ≤ ((blockEnd P s : ℕ) : Int))
    (hXge : ((blockEnd P s : ℕ) : Int) ≤ (X : Int))
    (hgap : ∀ p ∈ P.pos_list, ¬ (blockEnd P s ≤ p ∧ p < X))
    (hstopc : stop = endp ∨ stop = ((blockEnd P s : ℕ) : Int)) :
    posFilter P offset endp =
      List.range' offset.toNat (stop - offset).toNat ++ posFilter P (X : Int) endp := by
  have hpair := pos_list_pairwise P hsz
  have hcontig : ∀ i : ℕ, offset ≤ (i : Int) → (i : Int) < stop → i ∈ P.pos_list := by
    intro i hi1 hi2
    exact block_contig P s hsz hs i (by omega) (by omega)
  have hchunk := filter_eq_range'_of_contig P.pos_list hpair offset stop h0 hos hcontig
  rcases hstopc with hstopc | hstopc
  · subst hstopc
    have htail : posFilter P (X : Int) stop = [] := by
      simp only [posFilter]
      rw [List.filter_eq_nil_iff]
      intro p _
      simp only [decide_eq_true_eq]
      omega
    rw [htail, List.append_nil]
    simp only [posFilter]
    exact hchunk
  · have hsplit := filter_split_gap offset stop (X : Int) endp hos (by omega) hse
      P.pos_list hpair (by
        intro p hp
        simp only [not_and]
        intro hp1 hp2
        have := hgap p hp
        rw [hstopc] at hp1
        omega)
    simp only [posFilter]
    rw [hsplit, hchunk]

theorem drain_account_last (P : PMA)
    (hsz : ∀ i < P.m_number_segments, P.m_segment_sizes i ≤ P.m_segment_capacity)
    (s : ℕ) (hs : s < P.m_number_segments) (offset endp : Int)
    (h0 : 0 ≤ offset) (hoff : ((P.seg_start s : ℕ) : Int) ≤ offset)
    (hos : offset ≤ endp) (hsb : endp ≤ ((blockEnd P s : ℕ) : Int)) :
    posFilter P offset endp = List.range' offset.toNat (endp - offset).toNat := by
  have hpair := pos_list_pairwise P hsz
  have hcontig : ∀ i : ℕ, offset ≤ (i : Int) → (i : Int) < endp → i ∈ P.pos_list := by
    intro i hi1 hi2
    exact block_contig P s hsz hs i (by omega) (by omega)
  simp only [posFilter]
  exact filter_eq_range'_of_contig P.pos_list hpair offset endp h0 hos hcontig

theorem posFilter_nil (P : PMA) (offset endp : Int) (h : endp ≤ offset) :
    posFilter P offset endp = [] := by
  simp only [posFilter]
  rw [List.filter_eq_nil_iff]
  intro p _
  simp only [decide_eq_true_eq]
  omega

theorem seg_start_lt_blockEnd (P : PMA)
    (hsz : ∀ i < P.m_number_segments, P.m_segment_sizes i ≤ P.m_segment_capacity)
    (hszpos : ∀ i < P.m_number_segments, 0 < P.m_segment_sizes i)
    (s : ℕ) (hs : s < P.m_number_segments) :
    P.seg_start s < blockEnd P s := by
  unfold blockEnd
  split
  · next hc =>
    have h1 := seg_start_boundary P s (hsz s hs) (hsz (s + 1) hc.2)
    have h2 := hszpos s hs
    have h3 := hszpos (s + 1) hc.2
    omega
  · next hc =>
    have h2 := hszpos s hs
    omega

theorem next_sequence_jump (P : PMA)
    (hsz : ∀ i < P.m_number_segments, P.m_segment_sizes i ≤ P.m_segment_capacity)
    (t : ℕ) (ht : t % 2 = 0) (ht1 : t + 1 < P.m_number_segments)
    (q endp : Int) :
    Iterator.next_sequence P { m_offset := q, m_next_segment := t, m_stop := q, m_index_max := endp } =
      { m_offset := ((P.seg_start t : ℕ) : Int), m_next_segment := t + 2, m_stop := min ((blockEnd P t : ℕ) : Int) endp, m_index_max := endp } := by
  simp only [Iterator.next_sequence]
  rw [if_pos (show t < P.m_number_segments by omega)]
  rw [if_pos ht, if_pos ht1]
  have e1 : t * P.m_segment_capacity + P.m_segment_capacity - P.m_segment_sizes t =
      P.seg_start t := by
    rw [seg_start_even P t ht (hsz t (by omega))]
    have e : (t + 1) * P.m_segment_capacity =
        t * P.m_segment_capacity + P.m_segment_capacity := by ring
    omega
  rw [e1]
  have e2 : (((t + 1) * P.m_segment_capacity : ℕ) : Int) + (P.m_segment_sizes (t + 1) : Int) =
      ((blockEnd P t : ℕ) : Int) := by
    unfold blockEnd
    rw [if_pos ⟨ht, ht1⟩, seg_start_odd P (t + 1) (by omega)]
    push_cast
    ring
  rw [e2]

theorem next_sequence_noop (P : PMA) (it : Iterator)
    (h : P.m_number_segments ≤ it.m_next_segment) :
    Iterator.next_sequence P it = it := by
  simp only [Iterator.next_sequence]
  rw [if_neg (by omega)]

theorem iter_drain_spec (P : PMA)
    (hsz : ∀ i < P.m_number_segments, P.m_segment_sizes i ≤ P.m_segment_capacity)
    (hszpos : ∀ i < P.m_number_segments, 0 < P.m_segment_sizes i)
    (heven : P.m_number_segments % 2 = 0 ∨ P.m_number_segments = 1)
    (endp : Int)
    (hendTop : endp ≤ ((P.seg_start (P.m_number_segments - 1) +
      P.m_segment_sizes (P.m_number_segments - 1) : ℕ) : Int)) :
    ∀ (fuel2 : ℕ) (s : ℕ) (fuel : ℕ) (offset stop : Int) (next : ℕ),
      s < P.m_number_segments →
      P.m_number_segments ≤ s + fuel2 →
      0 ≤ offset →
      ((P.seg_start s : ℕ) : Int) ≤ offset →
      (next = (if s % 2 = 0 then s + 2 else s + 1) ∨
        (P.m_number_segments ≤ next ∧ P.m_number_segments ≤ s + 1)) →
      ((endp ≤ offset ∧ stop ≤ offset) ∨
        (offset < stop ∧ stop ≤ endp ∧ stop ≤ ((blockEnd P s : ℕ) : Int) ∧
          (stop = endp ∨ stop = ((blockEnd P s : ℕ) : Int)))) →
      posCount P offset endp ≤ fuel →
      iter_drain P fuel { m_offset := offset, m_next_segment := next, m_stop := stop, m_index_max := endp } =
        (posFilter P offset endp).map (fun p => (P.m_keys p, P.m_values p)) := by
  intro fuel2
  induction fuel2 with
  | zero =>
    intro s fuel offset stop next hs hf2 _ _ _ _ _
    exact absurd hs (by omega)
  | succ fuel2 ih =>
    intro s fuel offset stop next hs hf2 h0 hoff hnext hinv hfuel
    have hfuel' : (posFilter P offset endp).length ≤ fuel := hfuel
    rcases hinv with ⟨hep, hso⟩ | ⟨hos, hse, hsb, hcases⟩
    · rw [iter_drain_stop P fuel _ (by exact hso)]
      rw [posFilter_nil P offset endp hep]
      rfl
    · have hn0 : 0 < (stop - offset).toNat := by omega
      obtain hpar | hpar := Nat.mod_two_eq_zero_or_one s
      · by_cases hb : s + 2 < P.m_number_segments
        · -- even segment, another pair follows
          have hb3 : s + 2 + 1 < P.m_number_segments := by
            rcases heven with he | he <;> omega
          have hnext2 : next = s + 2 := by
            rcases hnext with h | h
            · rw [if_pos hpar] at h; exact h
            · omega
          subst hnext2
          have hgap : ∀ p ∈ P.pos_list, ¬ (blockEnd P s ≤ p ∧ p < P.seg_start (s + 2)) := by
            intro p hp hcon
            have hbeq : blockEnd P s = P.seg_start (s + 1) + P.m_segment_sizes (s + 1) := by
              unfold blockEnd
              rw [if_pos ⟨hpar, by omega⟩]
            refine no_pos_in_gap P hsz (s + 1) (by omega) p hp ⟨?_, hcon.2⟩
            rw [← hbeq]
            exact hcon.1
          have hXge : ((blockEnd P s : ℕ) : Int) ≤ ((P.seg_start (s + 2) : ℕ) : Int) := by
            exact_mod_cast blockEnd_le_next_even P hsz s hpar hb
          have hsplit := drain_account P hsz s hs (P.seg_start (s + 2)) offset stop endp
            h0 hoff (by omega) hse hsb hXge hgap hcases
          have hlen := congrArg List.length hsplit
          rw [List.length_append, List.length_range'] at hlen
          have hinv2 : (endp ≤ ((P.seg_start (s + 2) : ℕ) : Int) ∧
              min ((blockEnd P (s + 2) : ℕ) : Int) endp ≤ ((P.seg_start (s + 2) : ℕ) : Int)) ∨
              (((P.seg_start (s + 2) : ℕ) : Int) < min ((blockEnd P (s + 2) : ℕ) : Int) endp ∧
                min ((blockEnd P (s + 2) : ℕ) : Int) endp ≤ endp ∧
                min ((blockEnd P (s + 2) : ℕ) : Int) endp ≤ ((blockEnd P (s + 2) : ℕ) : Int) ∧
                (min ((blockEnd P (s + 2) : ℕ) : Int) endp = endp ∨
                  min ((blockEnd P (s + 2) : ℕ) : Int) endp = ((blockEnd P (s + 2) : ℕ) : Int))) := by
            by_cases hex : endp ≤ ((P.seg_start (s + 2) : ℕ) : Int)
            · exact Or.inl ⟨hex, le_trans (min_le_right _ _) hex⟩
            · right
              have hlt2 : ((P.seg_start (s + 2) : ℕ) : Int) <
                  ((blockEnd P (s + 2) : ℕ) : Int) := by
                exact_mod_cast seg_start_lt_blockEnd P hsz hszpos (s + 2) hb
              refine ⟨lt_min hlt2 (by omega), min_le_right _ _, min_le_left _ _, ?_⟩
              rcases le_total endp ((blockEnd P (s + 2) : ℕ) : Int) with h | h
              · exact Or.inl (min_eq_right h)
              · exact Or.inr (min_eq_left h)
          have hfb : posCount P ((P.seg_start (s + 2) : ℕ) : Int) endp ≤
              fuel - (stop - offset).toNat := by
            simp only [posCount]
            omega
          have hjump := ih (s + 2) (fuel - (stop - offset).toNat)
            ((P.seg_start (s + 2) : ℕ) : Int) (min ((blockEnd P (s + 2) : ℕ) : Int) endp)
            (s + 2 + 2) hb (by omega) (Int.natCast_nonneg _) (le_refl _)
            (Or.inl (by rw [if_pos (show (s + 2) % 2 = 0 by omega)]))
            hinv2 hfb
          have hstopeq : stop = offset + (((stop - offset).toNat : ℕ) : Int) := by omega
          rw [hstopeq]
          rw [iter_drain_run P endp (stop - offset).toNat fuel offset (s + 2) h0 hn0 (by omega)]
          rw [next_sequence_jump P hsz (s + 2) (by omega) hb3 _ endp]
          rw [hjump]
          rw [hsplit, List.map_append]
        · -- even segment, its pair is the last block
          have hbe_last : endp ≤ ((blockEnd P s : ℕ) : Int) := by
            by_cases hb1 : s + 1 < P.m_number_segments
            · have hbeq : blockEnd P s = P.seg_start (s + 1) + P.m_segment_sizes (s + 1) := by
                unfold blockEnd
                rw [if_pos ⟨hpar, hb1⟩]
              have hs1 : s + 1 = P.m_number_segments - 1 := by omega
              rw [hbeq, hs1]
              exact hendTop
            · have hn1 : P.m_number_segments = 1 := by
                rcases heven with he | he <;> omega
              have hs0 : s = 0 := by omega
              have hbeq : blockEnd P s = P.seg_start s + P.m_segment_sizes s :=
                blockEnd_else P s (by omega)
              rw [hbeq, hs0]
              simpa [hn1] using hendTop
          have hstopend : stop = endp := by
            rcases hcases with h | h
            · exact h
            · omega
          subst hstopend
          have hsplit := drain_account_last P hsz s hs offset stop h0 hoff (by omega)
            (by omega)
          have hlen := congrArg List.length hsplit
          rw [List.length_range'] at hlen
          have hstopeq : stop = offset + (((stop - offset).toNat : ℕ) : Int) := by omega
          have hstate : ({ m_offset := offset, m_next_segment := next, m_stop := stop, m_index_max := stop } : Iterator) =
              { m_offset := offset, m_next_segment := next, m_stop := offset + (((stop - offset).toNat : ℕ) : Int), m_index_max := stop } := by
            rw [← hstopeq]
          rw [hstate]
          rw [iter_drain_run P stop (stop - offset).toNat fuel offset next h0 hn0 (by omega)]
          rw [next_sequence_noop P _ (by
            rcases hnext with h | h
            · rw [if_pos hpar] at h
              show P.m_number_segments ≤ next
              omega
            · exact h.1)]
          rw [iter_drain_stop P _ _ (by exact le_refl _)]
          rw [hsplit, List.append_nil]
      · by_cases hb : s + 1 < P.m_number_segments
        · -- odd segment, the next pair follows
          have hb2 : s + 1 + 1 < P.m_number_segments := by
            rcases heven with he | he <;> omega
          have hnext2 : next = s + 1 := by
            rcases hnext with h | h
            · rw [if_neg (by omega)] at h; exact h
            · omega
          subst hnext2
          have hbeq : blockEnd P s = P.seg_start s + P.m_segment_sizes s :=
            blockEnd_else P s (by omega)
          have hgap : ∀ p ∈ P.pos_list, ¬ (blockEnd P s ≤ p ∧ p < P.seg_start (s + 1)) := by
            intro p hp hcon
            refine no_pos_in_gap P hsz s (by omega) p hp ⟨?_, hcon.2⟩
            rw [← hbeq]
            exact hcon.1
          have hXge : ((blockEnd P s : ℕ) : Int) ≤ ((P.seg_start (s + 1) : ℕ) : Int) := by
            exact_mod_cast blockEnd_le_next_odd P hsz s hpar hb
          have hsplit := drain_account P hsz s hs (P.seg_start (s + 1)) offset stop endp
            h0 hoff (by omega) hse hsb hXge hgap hcases
          have hlen := congrArg List.length hsplit
          rw [List.length_append, List.length_range'] at hlen
          have hinv2 : (endp ≤ ((P.seg_start (s + 1) : ℕ) : Int) ∧
              min ((blockEnd P (s + 1) : ℕ) : Int) endp ≤ ((P.seg_start (s + 1) : ℕ) : Int)) ∨
              (((P.seg_start (s + 1) : ℕ) : Int) < min ((blockEnd P (s + 1) : ℕ) : Int) endp ∧
                min ((blockEnd P (s + 1) : ℕ) : Int) endp ≤ endp ∧
                min ((blockEnd P (s + 1) : ℕ) : Int) endp ≤ ((blockEnd P (s + 1) : ℕ) : Int) ∧
                (min ((blockEnd P (s + 1) : ℕ) : Int) endp = endp ∨
                  min ((blockEnd P (s + 1) : ℕ) : Int) endp = ((blockEnd P (s + 1) : ℕ) : Int))) := by
            by_cases hex : endp ≤ ((P.seg_start (s + 1) : ℕ) : Int)
            · exact Or.inl ⟨hex, le_trans (min_le_right _ _) hex⟩
            · right
              have hlt2 : ((P.seg_start (s + 1) : ℕ) : Int) <
                  ((blockEnd P (s + 1) : ℕ) : Int) := by
                exact_mod_cast seg_start_lt_blockEnd P hsz hszpos (s + 1) hb
              refine ⟨lt_min hlt2 (by omega), min_le_right _ _, min_le_left _ _, ?_⟩
              rcases le_total endp ((blockEnd P (s + 1) : ℕ) : Int) with h | h
              · exact Or.inl (min_eq_right h)
              · exact Or.inr (min_eq_left h)
          have hfb : posCount P ((P.seg_start (s + 1) : ℕ) : Int) endp ≤
              fuel - (stop - offset).toNat := by
            simp only [posCount]
            omega
          have hjump := ih (s + 1) (fuel - (stop - offset).toNat)
            ((P.seg_start (s + 1) : ℕ) : Int) (min ((blockEnd P (s + 1) : ℕ) : Int) endp)
            (s + 1 + 2) hb (by omega) (Int.natCast_nonneg _) (le_refl _)
            (Or.inl (by rw [if_pos (show (s + 1) % 2 = 0 by omega)]))
            hinv2 hfb
          have hstopeq : stop = offset + (((stop - offset).toNat : ℕ) : Int) := by omega
          rw [hstopeq]
          rw [iter_drain_run P endp (stop - offset).toNat fuel offset (s + 1) h0 hn0 (by omega)]
          rw [next_sequence_jump P hsz (s + 1) (by omega) hb2 _ endp]
          rw [hjump]
          rw [hsplit, List.map_append]
        · -- odd segment is the last one
          have hbe_last : endp ≤ ((blockEnd P s : ℕ) : Int) := by
            have hbeq : blockEnd P s = P.seg_start s + P.m_segment_sizes s :=
              blockEnd_else P s (by omega)
            have hs1 : s = P.m_number_segments - 1 := by omega
            rw [hbeq, hs1]
            exact hendTop
          have hstopend : stop = endp := by
            rcases hcases with h | h
            · exact h
            · omega
          subst hstopend
          have hsplit := drain_account_last P hsz s hs offset stop h0 hoff (by omega)
            (by omega)
          have hlen := congrArg List.length hsplit
          rw [List.length_range'] at hlen
          have hstopeq : stop = offset + (((stop - offset).toNat : ℕ) : Int) := by omega
          have hstate : ({ m_offset := offset, m_next_segment := next, m_stop := stop, m_index_max := stop } : Iterator) =
              { m_offset := offset, m_next_segment := next, m_stop := offset + (((stop - offset).toNat : ℕ) : Int), m_index_max := stop } := by
            rw [← hstopeq]
          rw [hstate]
          rw [iter_drain_run P stop (stop - offset).toNat fuel offset next h0 hn0 (by omega)]
          rw [next_sequence_noop P _ (by
            rcases hnext with h | h
            · rw [if_neg (by omega)] at h
              show P.m_number_segments ≤ next
              omega
            · exact h.1)]
          rw [iter_drain_stop P _ _ (by exact le_refl _)]
          rw [hsplit, List.append_nil]

theorem iterate_eq_content (T : BTreePMACC7)
    (hcard : T.m_storage.m_cardinality ≠ 0)
    (hn : 0 < T.m_storage.m_number_segments)
    (hsz : ∀ i < T.m_storage.m_number_segments,
      T.m_storage.m_segment_sizes i ≤ T.m_storage.m_segment_capacity)
    (hszpos : ∀ i < T.m_storage.m_number_segments, 0 < T.m_storage.m_segment_sizes i)
    (heven : T.m_storage.m_number_segments % 2 = 0 ∨ T.m_storage.m_number_segments = 1)
    (hklo : ∀ p ∈ T.m_storage.pos_list, BTreePMACC7.int64_min ≤ T.m_storage.m_keys p)
    (hkhi : ∀ p ∈ T.m_storage.pos_list, T.m_storage.m_keys p ≤ int64_max)
    (hlen : T.m_storage.pos_list.length ≤ T.m_storage.m_cardinality + 1) :
    T.iterate = T.m_storage.content := by
  have hp0 : T.m_storage.seg_start 0 ∈ T.m_storage.pos_list :=
    run_mem_pos_list hn (le_refl _) (by have := hszpos 0 hn; omega)
  rcases sum_lower_loop_spec T.m_storage hsz BTreePMACC7.int64_min
      (T.m_storage.m_number_segments + 2) 0 (by omega) with
    ⟨hnone, hallgt⟩ | ⟨s₀, o₀, hro, hs01, hs02, ho1, ho2, hko, hbefore, hsegs⟩
  · exfalso
    have := hallgt 0 (by omega) hn (T.m_storage.seg_start 0) (le_refl _)
      (by have := hszpos 0 hn; omega)
    have := hklo _ hp0
    omega
  · have ho₀mem : o₀ ∈ T.m_storage.pos_list := run_mem_pos_list hs02 ho1 ho2
    have hfirst : ∀ p ∈ T.m_storage.pos_list, o₀ ≤ p := by
      intro p hp
      obtain ⟨t, ht, hp1, hp2⟩ := mem_pos_list.mp hp
      rcases lt_trichotomy t s₀ with hc | rfl | hc
      · exfalso
        have := hsegs t (by omega) hc p hp1 hp2
        have := hklo p hp
        omega
      · by_contra hcon
        push_neg at hcon
        have := hbefore p hp1 hcon
        have := hklo p hp
        omega
      · exact le_of_lt (run_lt_run T.m_storage hsz hc ht ho2 hp1)
    have hkomx : T.m_storage.m_keys o₀ ≤ int64_max := hkhi o₀ ho₀mem
    have hse_lt : T.m_storage.m_number_segments - 1 < T.m_storage.m_number_segments := by
      omega
    have hsemem : T.m_storage.seg_start (T.m_storage.m_number_segments - 1) ∈
        T.m_storage.pos_list :=
      run_mem_pos_list hse_lt (le_refl _) (by have := hszpos _ hse_lt; omega)
    obtain ⟨ostar, hupeq, hosa, hosb, hosc, hosd⟩ :=
      sum_upper_loop_first T.m_storage hsz int64_max (T.m_storage.m_number_segments - 1)
        hse_lt (hszpos _ hse_lt) (hkhi _ hsemem) (s₀ : Int)
        (by exact_mod_cast (show s₀ ≤ T.m_storage.m_number_segments - 1 by omega))
        (T.m_storage.m_number_segments + 2) (by omega) 0
    have hostarmem : ostar ∈ T.m_storage.pos_list := run_mem_pos_list hse_lt hosa hosb
    have hlast : ∀ p ∈ T.m_storage.pos_list, p ≤ ostar := by
      intro p hp
      obtain ⟨t, ht, hp1, hp2⟩ := mem_pos_list.mp hp
      rcases Nat.lt_or_ge t (T.m_storage.m_number_segments - 1) with hc | hc
      · have hmono := seg_start_mono T.m_storage hsz
          (T.m_storage.m_number_segments - 1) t hc hse_lt
        omega
      · have ht2 : t = T.m_storage.m_number_segments - 1 := by omega
        subst ht2
        by_contra hcon
        push_neg at hcon
        have := hosd p hcon hp2
        have := hkhi p hp
        omega
    have ho0star : o₀ ≤ ostar := hlast o₀ ho₀mem
    -- the constructed iterator state
    have hstop1 : ((if s₀ % 2 = 0 ∧ s₀ + 1 < T.m_storage.m_number_segments
        then (((s₀ + 1) * T.m_storage.m_segment_capacity +
          T.m_storage.m_segment_sizes (s₀ + 1) : ℕ) : Int)
        else ((T.m_storage.seg_start s₀ + T.m_storage.m_segment_sizes s₀ : ℕ) : Int))) =
        ((blockEnd T.m_storage s₀ : ℕ) : Int) := by
      unfold blockEnd
      by_cases hc : s₀ % 2 = 0 ∧ s₀ + 1 < T.m_storage.m_number_segments
      · rw [if_pos hc, if_pos hc, seg_start_odd T.m_storage (s₀ + 1) (by omega)]
      · rw [if_neg hc, if_neg hc]
    have hrunend_le : T.m_storage.seg_start s₀ + T.m_storage.m_segment_sizes s₀ ≤
        blockEnd T.m_storage s₀ := by
      unfold blockEnd
      split
      · next hc =>
        have := seg_start_boundary T.m_storage s₀ (hsz s₀ hs02) (hsz (s₀ + 1) hc.2)
        omega
      · exact le_refl _
    have hctor : Iterator.construct T.m_storage 0 (T.m_storage.m_number_segments - 1)
        BTreePMACC7.int64_min int64_max = .ok
        { m_offset := ((o₀ : ℕ) : Int)
          m_next_segment := if s₀ % 2 = 0 ∧ s₀ + 1 < T.m_storage.m_number_segments
            then s₀ + 2 else s₀ + 1
          m_stop := min ((ostar : Int) + 1) ((blockEnd T.m_storage s₀ : ℕ) : Int)
          m_index_max := (ostar : Int) + 1 } := by
      unfold Iterator.construct
      rw [if_neg (by omega)]
      rw [if_neg (by omega : ¬ T.m_storage.m_number_segments ≤
        T.m_storage.m_number_segments - 1)]
      rw [hro]
      simp only []
      rw [if_neg (by omega : ¬ T.m_storage.m_keys o₀ > int64_max)]
      rw [hupeq]
      rw [if_neg (show ¬ ((ostar : Int) + 1 - 1 < ((o₀ : ℕ) : Int)) by
        have : ((o₀ : ℕ) : Int) ≤ (ostar : Int) := by exact_mod_cast ho0star
        omega)]
      have e2 : ((if s₀ % 2 = 0 ∧ s₀ + 1 < T.m_storage.m_number_segments
          then (((s₀ + 1) * T.m_storage.m_segment_capacity +
            T.m_storage.m_segment_sizes (s₀ + 1) : ℕ) : Int)
          else ((T.m_storage.seg_start s₀ + T.m_storage.m_segment_sizes s₀ : ℕ) : Int))) =
          ((blockEnd T.m_storage s₀ : ℕ) : Int) := hstop1
      rw [e2]
    -- run the drain
    have hTopN : (ostar : Int) + 1 ≤
        ((T.m_storage.seg_start (T.m_storage.m_number_segments - 1) +
          T.m_storage.m_segment_sizes (T.m_storage.m_number_segments - 1) : ℕ) : Int) := by
      exact_mod_cast (show ostar + 1 ≤
        T.m_storage.seg_start (T.m_storage.m_number_segments - 1) +
          T.m_storage.m_segment_sizes (T.m_storage.m_number_segments - 1) by omega)
    have hwindow : posFilter T.m_storage ((o₀ : ℕ) : Int) ((ostar : Int) + 1) =
        T.m_storage.pos_list := by
      simp only [posFilter]
      rw [List.filter_eq_self.mpr]
      intro p hp
      simp only [decide_eq_true_eq]
      have h1 := hfirst p hp
      have h2 := hlast p hp
      constructor
      · exact_mod_cast h1
      · have : (p : Int) ≤ (ostar : Int) := by exact_mod_cast h2
        omega
    have hfuelcnt : posCount T.m_storage ((o₀ : ℕ) : Int) ((ostar : Int) + 1) ≤
        T.m_storage.m_cardinality + 1 := by
      simp only [posCount, hwindow]
      omega
    have hinv : (((ostar : Int) + 1 ≤ ((o₀ : ℕ) : Int) ∧
        min ((ostar : Int) + 1) ((blockEnd T.m_storage s₀ : ℕ) : Int) ≤ ((o₀ : ℕ) : Int)) ∨
        (((o₀ : ℕ) : Int) < min ((ostar : Int) + 1) ((blockEnd T.m_storage s₀ : ℕ) : Int) ∧
          min ((ostar : Int) + 1) ((blockEnd T.m_storage s₀ : ℕ) : Int) ≤ (ostar : Int) + 1 ∧
          min ((ostar : Int) + 1) ((blockEnd T.m_storage s₀ : ℕ) : Int) ≤
            ((blockEnd T.m_storage s₀ : ℕ) : Int) ∧
          (min ((ostar : Int) + 1) ((blockEnd T.m_storage s₀ : ℕ) : Int) = (ostar : Int) + 1 ∨
            min ((ostar : Int) + 1) ((blockEnd T.m_storage s₀ : ℕ) : Int) =
              ((blockEnd T.m_storage s₀ : ℕ) : Int)))) := by
      right
      have hlt1 : ((o₀ : ℕ) : Int) < (ostar : Int) + 1 := by
        have : ((o₀ : ℕ) : Int) ≤ (ostar : Int) := by exact_mod_cast ho0star
        omega
      have hlt2 : ((o₀ : ℕ) : Int) < ((blockEnd T.m_storage s₀ : ℕ) : Int) := by
        exact_mod_cast (show o₀ < blockEnd T.m_storage s₀ by omega)
      refine ⟨lt_min hlt1 hlt2, min_le_left _ _, min_le_right _ _, ?_⟩
      rcases le_total ((ostar : Int) + 1) ((blockEnd T.m_storage s₀ : ℕ) : Int) with h | h
      · exact Or.inl (min_eq_left h)
      · exact Or.inr (min_eq_right h)
    have hnexti : (if s₀ % 2 = 0 ∧ s₀ + 1 < T.m_storage.m_number_segments
        then s₀ + 2 else s₀ + 1) = (if s₀ % 2 = 0 then s₀ + 2 else s₀ + 1) ∨
        (T.m_storage.m_number_segments ≤ (if s₀ % 2 = 0 ∧ s₀ + 1 <
          T.m_storage.m_number_segments then s₀ + 2 else s₀ + 1) ∧
          T.m_storage.m_number_segments ≤ s₀ + 1) := by
      by_cases hc : s₀ % 2 = 0 ∧ s₀ + 1 < T.m_storage.m_number_segments
      · left
        rw [if_pos hc, if_pos hc.1]
      · obtain hpar | hpar := Nat.mod_two_eq_zero_or_one s₀
        · right
          rw [if_neg hc]
          have : ¬ s₀ + 1 < T.m_storage.m_number_segments := fun h => hc ⟨hpar, h⟩
          omega
        · left
          rw [if_neg hc, if_neg (by omega)]
    have hdrain := iter_drain_spec T.m_storage hsz hszpos heven ((ostar : Int) + 1) hTopN
      (T.m_storage.m_number_segments + 2) s₀ (T.m_storage.m_cardinality + 1)
      ((o₀ : ℕ) : Int) (min ((ostar : Int) + 1) ((blockEnd T.m_storage s₀ : ℕ) : Int))
      (if s₀ % 2 = 0 ∧ s₀ + 1 < T.m_storage.m_number_segments then s₀ + 2 else s₀ + 1)
      hs02 (by omega) (Int.natCast_nonneg _) (by exact_mod_cast ho1)
      hnexti hinv hfuelcnt
    unfold BTreePMACC7.iterate
    rw [if_neg hcard, hctor]
    simp only []
    rw [hdrain, hwindow, content_eq_pos_list]

theorem hyperceil_go_spec : ∀ (fuel n acc : ℕ), 0 < acc → n ≤ acc * 2 ^ fuel →
    (n ≤ hyperceil_go fuel n acc ∧ 0 < hyperceil_go fuel n acc ∧
      (hyperceil_go fuel n acc = acc ∨ hyperceil_go fuel n acc < 2 * n) ∧
      ∀ j, acc = 2 ^ j → ∃ k, hyperceil_go fuel n acc = 2 ^ k) := by
  intro fuel
  induction fuel with
  | zero =>
    intro n acc hacc hle
    simp only [pow_zero, Nat.mul_one] at hle
    exact ⟨hle, by simpa [hyperceil_go] using hacc, Or.inl rfl, fun j hj => ⟨j, hj⟩⟩
  | succ fuel ih =>
    intro n acc hacc hle
    simp only [hyperceil_go]
    by_cases hc : n ≤ acc
    · rw [if_pos hc]
      exact ⟨hc, hacc, Or.inl rfl, fun j hj => ⟨j, hj⟩⟩
    · rw [if_neg hc]
      have h2 : n ≤ 2 * acc * 2 ^ fuel := by
        have e : acc * 2 ^ (fuel + 1) = 2 * acc * 2 ^ fuel := by ring
        omega
      obtain ⟨ha, hb, hcor, hpw⟩ := ih n (2 * acc) (by omega) h2
      refine ⟨ha, hb, ?_, ?_⟩
      · rcases hcor with h | h
        · right
          omega
        · exact Or.inr h
      · intro j hj
        exact hpw (j + 1) (by rw [pow_succ]; omega)

theorem hyperceil_spec (n : ℕ) :
    n ≤ hyperceil n ∧ 0 < hyperceil n ∧ (1 ≤ n → hyperceil n < 2 * n) ∧
      ∃ k, hyperceil n = 2 ^ k := by
  have h := hyperceil_go_spec n n 1 (by omega) (by
    have := Nat.lt_two_pow n
    omega)
  obtain ⟨h1, h2, h3, h4⟩ := h
  refine ⟨h1, h2, ?_, h4 0 (by norm_num)⟩
  intro hn1
  show hyperceil_go n n 1 < 2 * n
  rcases h3 with h | h
  · omega
  · exact h

theorem chunk_read (ks : ℕ → Int) (outs : ℕ) (L : List Int) (j : ℕ) (hj : j < L.length) :
    writeSlice ks outs L (outs + j) = L.getD j 0 := by
  unfold writeSlice
  rw [if_pos ⟨by omega, by omega⟩]
  have e : outs + j - outs = j := by omega
  rw [e]

theorem writeSlice_below (ks : ℕ → Int) (outs : ℕ) (L : List Int) (p : ℕ) (hp : p < outs) :
    writeSlice ks outs L p = ks p := by
  unfold writeSlice
  rw [if_neg (by omega)]

theorem map_getD_pair (A : List (Int × Int)) :
    ((List.range A.length).map fun j =>
      ((A.map Prod.fst).getD j 0, (A.map Prod.snd).getD j 0)) = A := by
  apply List.ext_getElem
  · simp
  · intro i h1 h2
    simp only [List.getElem_map, List.getElem_range]
    rw [List.getD_eq_getElem _ _ (by simpa using h2), List.getD_eq_getElem _ _ (by simpa using h2)]
    simp

theorem pairs_of_ranges (A : List (Int × Int)) (a b : ℕ) (h : A.length = a + b) :
    (((List.range a).map fun j =>
        ((A.map Prod.fst).getD j 0, (A.map Prod.snd).getD j 0)) ++
      ((List.range b).map fun j =>
        ((A.map Prod.fst).getD (a + j) 0, (A.map Prod.snd).getD (a + j) 0))) = A := by
  have hm := map_getD_pair A
  rw [h, List.range_add, List.map_append, List.map_map] at hm
  exact hm

theorem sumSizes_head (sizes : ℕ → ℕ) (a b : ℕ) (h : a < b) :
    sumSizes sizes a b = sizes a + sumSizes sizes (a + 1) b := by
  unfold sumSizes
  have e : b - a = (b - (a + 1)) + 1 := by omega
  rw [e]
  rw [List.range'_succ]
  simp

theorem load_empty_single_content (T : BTreePMACC7) (A : List (Int × Int))
    (hns1 : T.m_storage.m_number_segments = 1) :
    (T.load_empty_single A).m_storage.content = A := by
  have hP : (T.load_empty_single A).m_storage.m_number_segments = 1 := hns1
  unfold PMA.content
  rw [hP]
  rw [show List.range 1 = [0] from rfl]
  simp only [List.flatMap_cons, List.flatMap_nil, List.append_nil]
  have hsz0 : (T.load_empty_single A).m_storage.m_segment_sizes 0 = A.length := rfl
  have hseg : (T.load_empty_single A).m_storage.seg_start 0 =
      T.m_storage.m_segment_capacity - A.length := by
    unfold PMA.seg_start
    rw [if_pos (by norm_num)]
    rw [hsz0]
    have hcap : (T.load_empty_single A).m_storage.m_segment_capacity =
        T.m_storage.m_segment_capacity := rfl
    rw [hcap]
    omega
  unfold PMA.seg_slice
  rw [hsz0, hseg]
  conv_rhs => rw [← map_getD_pair A]
  apply List.map_congr_left
  intro j hj
  rw [List.mem_range] at hj
  have h1 : (T.load_empty_single A).m_storage.m_keys
      ((T.m_storage.m_segment_capacity - A.length) + j) = (A.map Prod.fst).getD j 0 := by
    show writeSlice T.m_storage.m_keys (T.m_storage.m_segment_capacity - A.length)
      (A.map Prod.fst) ((T.m_storage.m_segment_capacity - A.length) + j) = _
    exact chunk_read _ _ _ j (by simpa using hj)
  have h2 : (T.load_empty_single A).m_storage.m_values
      ((T.m_storage.m_segment_capacity - A.length) + j) = (A.map Prod.snd).getD j 0 := by
    show writeSlice T.m_storage.m_values (T.m_storage.m_segment_capacity - A.length)
      (A.map Prod.snd) ((T.m_storage.m_segment_capacity - A.length) + j) = _
    exact chunk_read _ _ _ j (by simpa using hj)
  rw [h1, h2]

theorem lem_pairs_preserve (A : List (Int × Int)) (B ns : ℕ) (sizes : ℕ → ℕ)
    (hsB : ∀ t, sizes t ≤ B) :
    ∀ (fuel i cur : ℕ) (ks vs : ℕ → Int) (ix : StaticIndex) (p : ℕ), p < i * B →
      (lem_pair_loop A B ns sizes fuel i cur ks vs ix).1 p = ks p ∧
      (lem_pair_loop A B ns sizes fuel i cur ks vs ix).2.1 p = vs p := by
  intro fuel
  induction fuel with
  | zero => intro i cur ks vs ix p _; exact ⟨rfl, rfl⟩
  | succ fuel ih =>
    intro i cur ks vs ix p hp
    simp only [lem_pair_loop]
    by_cases hc : i < ns
    · rw [if_pos hc]
      have hlow : p < (i + 2) * B := by
        have h1 : i * B ≤ (i + 2) * B := Nat.mul_le_mul_right _ (by omega)
        omega
      have hbelow : p < (i + 1) * B - sizes i := by
        have e : (i + 1) * B = i * B + B := by ring
        have := hsB i
        omega
      constructor
      · refine ((ih (i + 2) (cur + (sizes i + sizes (i + 1))) _ _ _ p hlow).1).trans ?_
        exact writeSlice_below _ _ _ p hbelow
      · refine ((ih (i + 2) (cur + (sizes i + sizes (i + 1))) _ _ _ p hlow).2).trans ?_
        exact writeSlice_below _ _ _ p hbelow
    · rw [if_neg hc]
      exact ⟨rfl, rfl⟩

theorem lem_pairs_slices (A : List (Int × Int)) (B ns : ℕ) (sizes : ℕ → ℕ)
    (hsB : ∀ t, sizes t ≤ B) (hnse : ns % 2 = 0) :
    ∀ (fuel i cur : ℕ) (ks vs : ℕ → Int) (ix : StaticIndex),
      i % 2 = 0 → ns ≤ i + fuel →
      cur + sumSizes sizes i ns = A.length →
      ((List.range' i (ns - i)).flatMap fun t =>
        (List.range (sizes t)).map fun j =>
          ((lem_pair_loop A B ns sizes fuel i cur ks vs ix).1
            ((if t % 2 = 0 then t * B + (B - sizes t) else t * B) + j),
           (lem_pair_loop A B ns sizes fuel i cur ks vs ix).2.1
            ((if t % 2 = 0 then t * B + (B - sizes t) else t * B) + j))) = A.drop cur := by
  intro fuel
  induction fuel with
  | zero =>
    intro i cur ks vs ix hpar hfuel hsum
    have hni : ns - i = 0 := by omega
    rw [hni]
    simp only [List.range'_zero, List.flatMap_nil]
    have h0 : sumSizes sizes i ns = 0 := by
      unfold sumSizes
      rw [hni]
      rfl
    exact (List.drop_eq_nil_of_le (by omega)).symm
  | succ fuel ih =>
    intro i cur ks vs ix hpar hfuel hsum
    by_cases hc : i < ns
    · have hc1 : i + 1 < ns := by omega
      have hsum2 : sumSizes sizes i ns = sizes i + (sizes (i + 1) + sumSizes sizes (i + 2) ns) := by
        rw [sumSizes_head sizes i ns hc, sumSizes_head sizes (i + 1) ns hc1]
      have hcurlen : cur + (sizes i + sizes (i + 1)) ≤ A.length := by omega
      have hchl : ((A.drop cur).take (sizes i + sizes (i + 1))).length =
          sizes i + sizes (i + 1) := by
        rw [List.length_take, List.length_drop]
        omega
      have hrange : List.range' i (ns - i) =
          i :: (i + 1) :: List.range' (i + 2) (ns - (i + 2)) := by
        have e1 : ns - i = ((ns - (i + 2)) + 1) + 1 := by omega
        rw [e1, List.range'_succ, List.range'_succ]
      rw [hrange]
      simp only [List.flatMap_cons]
      simp only [lem_pair_loop]
      rw [if_pos hc]
      rw [if_pos hpar, if_neg (show ¬ (i + 1) % 2 = 0 by omega)]
      have hdropsplit : A.drop cur =
          (A.drop cur).take (sizes i + sizes (i + 1)) ++
            A.drop (cur + (sizes i + sizes (i + 1))) := by
        have h1 : A.drop (cur + (sizes i + sizes (i + 1))) =
            (A.drop cur).drop (sizes i + sizes (i + 1)) := by
          rw [List.drop_drop]
        rw [h1, List.take_append_drop]
      conv_rhs => rw [hdropsplit,
        ← pairs_of_ranges ((A.drop cur).take (sizes i + sizes (i + 1)))
          (sizes i) (sizes (i + 1)) (by omega), List.append_assoc]
      congr 1
      · apply List.map_congr_left
        intro j hj
        rw [List.mem_range] at hj
        have hpos : i * B + (B - sizes i) + j = ((i + 1) * B - sizes i) + j := by
          have e : (i + 1) * B = i * B + B := by ring
          have := hsB i
          omega
        rw [hpos]
        have hlow : ((i + 1) * B - sizes i) + j < (i + 2) * B := by
          have e1 : (i + 1) * B = i * B + B := by ring
          have e2 : (i + 2) * B = i * B + 2 * B := by ring
          have := hsB i
          omega
        refine Prod.ext ?_ ?_
        · rw [(lem_pairs_preserve A B ns sizes hsB fuel (i + 2)
            (cur + (sizes i + sizes (i + 1))) _ _ _ (((i + 1) * B - sizes i) + j) hlow).1]
          exact chunk_read _ _
            (List.map Prod.fst ((A.drop cur).take (sizes i + sizes (i + 1)))) j
            (by rw [List.length_map, hchl]; omega)
        · rw [(lem_pairs_preserve A B ns sizes hsB fuel (i + 2)
            (cur + (sizes i + sizes (i + 1))) _ _ _ (((i + 1) * B - sizes i) + j) hlow).2]
          exact chunk_read _ _
            (List.map Prod.snd ((A.drop cur).take (sizes i + sizes (i + 1)))) j
            (by rw [List.length_map, hchl]; omega)
      congr 1
      · apply List.map_congr_left
        intro j hj
        rw [List.mem_range] at hj
        have hpos : (i + 1) * B + j = ((i + 1) * B - sizes i) + (sizes i + j) := by
          have e : (i + 1) * B = i * B + B := by ring
          have := hsB i
          omega
        rw [hpos]
        have hlow : ((i + 1) * B - sizes i) + (sizes i + j) < (i + 2) * B := by
          have e1 : (i + 1) * B = i * B + B := by ring
          have e2 : (i + 2) * B = i * B + 2 * B := by ring
          have h1 := hsB i
          have h2 := hsB (i + 1)
          omega
        refine Prod.ext ?_ ?_
        · rw [(lem_pairs_preserve A B ns sizes hsB fuel (i + 2)
            (cur + (sizes i + sizes (i + 1))) _ _ _
            (((i + 1) * B - sizes i) + (sizes i + j)) hlow).1]
          exact chunk_read _ _
            (List.map Prod.fst ((A.drop cur).take (sizes i + sizes (i + 1)))) (sizes i + j)
            (by rw [List.length_map, hchl]; omega)
        · rw [(lem_pairs_preserve A B ns sizes hsB fuel (i + 2)
            (cur + (sizes i + sizes (i + 1))) _ _ _
            (((i + 1) * B - sizes i) + (sizes i + j)) hlow).2]
          exact chunk_read _ _
            (List.map Prod.snd ((A.drop cur).take (sizes i + sizes (i + 1)))) (sizes i + j)
            (by rw [List.length_map, hchl]; omega)
      · have hp2 : (i + 2) % 2 = 0 := by omega
        have hf2 : ns ≤ (i + 2) + fuel := by omega
        have hs2 : (cur + (sizes i + sizes (i + 1))) + sumSizes sizes (i + 2) ns =
            A.length := by omega
        rw [ih (i + 2) (cur + (sizes i + sizes (i + 1))) _ _ _ hp2 hf2 hs2]
    · have hni : ns - i = 0 := by omega
      rw [hni]
      simp only [List.range'_zero, List.flatMap_nil]
      have h0 : sumSizes sizes i ns = 0 := by
        unfold sumSizes
        rw [hni]
        rfl
      exact (List.drop_eq_nil_of_le (by omega)).symm

theorem sumSizes_uniform (ns eps odd : ℕ) :
    ∀ k, k ≤ ns →
      sumSizes (fun i => if i < ns then eps + (if i < odd then 1 else 0) else 0) 0 k =
        k * eps + min k odd := by
  intro k
  induction k with
  | zero =>
    intro _
    rw [sumSizes_self]
    omega
  | succ k ih =>
    intro hk
    rw [sumSizes_succ _ 0 k (by omega), ih (by omega)]
    have hkns : k < ns := by omega
    rw [Nat.succ_mul]
    rw [if_pos hkns]
    by_cases hko : k < odd
    · rw [if_pos hko]
      omega
    · rw [if_neg hko]
      omega

theorem load_empty_multi_content (T : BTreePMACC7) (A : List (Int × Int)) (ns : ℕ)
    (hns : ns = hyperceil (Int.toNat ⌈(A.length : ℚ) /
        ((DensityBounds.get_upper_threshold_root +
          DensityBounds.get_upper_threshold_leaves) / 2)⌉) /
      T.m_storage.m_segment_capacity)
    (hns0 : 0 < ns) (hnse : ns % 2 = 0)
    (hub : A.length ≤ ns * T.m_storage.m_segment_capacity) :
    (T.load_empty_multi A).m_storage.content = A ∧
    (T.load_empty_multi A).m_storage.m_number_segments = ns ∧
    (T.load_empty_multi A).m_storage.m_cardinality = A.length ∧
    (T.load_empty_multi A).m_storage.m_segment_capacity =
      T.m_storage.m_segment_capacity ∧
    (∀ i, (T.load_empty_multi A).m_storage.m_segment_sizes i ≤
      T.m_storage.m_segment_capacity) ∧
    (ns ≤ A.length → ∀ i, i < ns →
      0 < (T.load_empty_multi A).m_storage.m_segment_sizes i) := by
  have hdm := Nat.div_add_mod A.length ns
  have hmlt : A.length % ns < ns := Nat.mod_lt _ hns0
  have heps : A.length / ns ≤ T.m_storage.m_segment_capacity := by
    calc A.length / ns ≤ ns * T.m_storage.m_segment_capacity / ns :=
          Nat.div_le_div_right hub
      _ = T.m_storage.m_segment_capacity := Nat.mul_div_cancel_left _ hns0
  have hepslt : 0 < A.length % ns →
      A.length / ns < T.m_storage.m_segment_capacity := by
    intro ho
    rcases Nat.lt_or_ge (A.length / ns) T.m_storage.m_segment_capacity with h | h
    · exact h
    · exfalso
      have he : A.length / ns = T.m_storage.m_segment_capacity := le_antisymm heps h
      rw [he] at hdm
      omega
  have hproj : (T.load_empty_multi A).m_storage.m_segment_sizes =
      fun i => if i < ns then A.length / ns + (if i < A.length % ns then 1 else 0)
        else 0 := by
    rw [hns]
    rfl
  have hsB : ∀ t, (fun i => if i < ns then A.length / ns +
      (if i < A.length % ns then 1 else 0) else 0) t ≤
        T.m_storage.m_segment_capacity := by
    intro t
    dsimp only []
    by_cases h1 : t < ns
    · rw [if_pos h1]
      by_cases h2 : t < A.length % ns
      · rw [if_pos h2]
        have := hepslt (by omega)
        omega
      · rw [if_neg h2]
        omega
    · rw [if_neg h1]
      omega
  have hnseq : (T.load_empty_multi A).m_storage.m_number_segments = ns := by
    rw [hns]
    rfl
  have hsum : 0 + sumSizes (fun i => if i < ns then A.length / ns +
      (if i < A.length % ns then 1 else 0) else 0) 0 ns = A.length := by
    rw [sumSizes_uniform ns (A.length / ns) (A.length % ns) ns (le_refl ns)]
    omega
  have hmain := lem_pairs_slices A T.m_storage.m_segment_capacity ns
    (fun i => if i < ns then A.length / ns + (if i < A.length % ns then 1 else 0)
      else 0)
    hsB hnse (ns + 2) 0 0 (fun _ => 0) (fun _ => 0) (T.m_index.rebuild ns)
    rfl (by omega) hsum
  simp only [Nat.sub_zero, List.drop_zero] at hmain
  refine ⟨?_, hnseq, rfl, rfl, ?_, ?_⟩
  · unfold BTreePMACC7.load_empty_multi
    dsimp only [PMA.content, PMA.seg_slice, PMA.seg_start]
    rw [← hns, List.range_eq_range']
    exact hmain
  · intro i
    rw [hproj]
    exact hsB i
  · intro hle i hi
    rw [hproj]
    dsimp only []
    rw [if_pos hi]
    have h0 : 0 < A.length / ns := Nat.div_pos hle hns0
    exact Nat.lt_of_lt_of_le h0 (Nat.le_add_right _ _)

theorem new_ok_struct (s p ps : ℕ) (T0 : BTreePMACC7)
    (h : BTreePMACC7.new s p ps = .ok T0) :
    T0.m_storage.m_segment_capacity = hyperceil s ∧
    T0.m_storage.m_number_segments = 1 ∧
    T0.m_storage.m_cardinality = 0 ∧
    32 ≤ hyperceil s ∧ hyperceil s ≤ 65535 := by
  unfold BTreePMACC7.new PMA.new at h
  split_ifs at h with h1 h2 h3 h4
  · exact absurd h (by simp [Except.map])
  · exact absurd h (by simp [Except.map])
  · exact absurd h (by simp [Except.map])
  · exact absurd h (by simp [Except.map])
  · injection h with h
    subst h
    exact ⟨rfl, rfl, rfl, by omega, by omega⟩

theorem loaded_iterate_eq (T1 : BTreePMACC7) (A : List (Int × Int))
    (hA : A.length ≠ 0)
    (hcontent : T1.m_storage.content = A)
    (hcard : T1.m_storage.m_cardinality = A.length)
    (hn : 0 < T1.m_storage.m_number_segments)
    (hsz : ∀ i < T1.m_storage.m_number_segments,
      T1.m_storage.m_segment_sizes i ≤ T1.m_storage.m_segment_capacity)
    (hszpos : ∀ i < T1.m_storage.m_number_segments,
      0 < T1.m_storage.m_segment_sizes i)
    (heven : T1.m_storage.m_number_segments % 2 = 0 ∨
      T1.m_storage.m_number_segments = 1)
    (hbounds : ∀ kv ∈ A,
      BTreePMACC7.int64_min ≤ kv.1 ∧ kv.1 ≤ int64_max) :
    T1.iterate = A := by
  have hcl := content_eq_pos_list T1.m_storage
  have hpl : T1.m_storage.pos_list.length = A.length := by
    have h := congrArg List.length hcl
    rw [hcontent, List.length_map] at h
    omega
  rw [iterate_eq_content T1 (by omega) hn hsz hszpos heven ?_ ?_ (by omega),
    hcontent]
  · intro p hp
    have hm : (T1.m_storage.m_keys p, T1.m_storage.m_values p) ∈
        T1.m_storage.content := by
      rw [hcl]
      exact List.mem_map_of_mem _ hp
    rw [hcontent] at hm
    exact (hbounds _ hm).1
  · intro p hp
    have hm : (T1.m_storage.m_keys p, T1.m_storage.m_values p) ∈
        T1.m_storage.content := by
      rw [hcl]
      exact List.mem_map_of_mem _ hp
    rw [hcontent] at hm
    exact (hbounds _ hm).2

/-- C7: loading a sorted batch into a freshly constructed (empty)
index through `load_sorted` and then draining an iterator over the
unbounded key range `[int64_min, int64_max]` yields exactly the batch,
in order. -/
theorem claim_C7_load_sorted_iterate (s p ps : ℕ) (T0 : BTreePMACC7)
    (hnew : BTreePMACC7.new s p ps = .ok T0)
    (A : List (Int × Int))
    (hsorted : A.Pairwise (fun a b => a.1 ≤ b.1))
    (hbounds : ∀ kv ∈ A, BTreePMACC7.int64_min ≤ kv.1 ∧ kv.1 ≤ int64_max) :
    (T0.load_sorted_empty A).iterate = A := by
  obtain ⟨hcap, hns1, hcard0, hB32, hB65⟩ := new_ok_struct s p ps T0 hnew
  have hc32 : 32 ≤ T0.m_storage.m_segment_capacity := by omega
  by_cases hA : A.length = 0
  · unfold BTreePMACC7.load_sorted_empty
    rw [if_pos hA]
    rw [List.length_eq_zero] at hA
    rw [hA]
    unfold BTreePMACC7.iterate
    rw [if_pos hcard0]
  · unfold BTreePMACC7.load_sorted_empty
    rw [if_neg hA]
    unfold BTreePMACC7.load_empty
    by_cases hsingle : (T0.m_storage.m_segment_capacity : ℚ) *
        DensityBounds.get_upper_threshold_leaves ≥ (A.length : ℚ)
    · rw [if_pos hsingle]
      have hul : DensityBounds.get_upper_threshold_leaves = 23 / 25 := rfl
      rw [hul] at hsingle
      have hszB : A.length ≤ T0.m_storage.m_segment_capacity := by
        have hc : (0:ℚ) ≤ (T0.m_storage.m_segment_capacity : ℚ) := Nat.cast_nonneg _
        have h1 : ((A.length : ℕ) : ℚ) ≤
            ((T0.m_storage.m_segment_capacity : ℕ) : ℚ) := by
          linarith [hsingle]
        exact_mod_cast h1
      have hnseg : (T0.load_empty_single A).m_storage.m_number_segments = 1 := hns1
      refine loaded_iterate_eq _ A hA (load_empty_single_content T0 A hns1) rfl
        (by rw [hnseg]; omega) ?_ ?_ (Or.inr hnseg) hbounds
      · intro i hi
        rw [hnseg] at hi
        have hi0 : i = 0 := by omega
        subst hi0
        have hs0 : (T0.load_empty_single A).m_storage.m_segment_sizes 0 =
            A.length := rfl
        have hcc : (T0.load_empty_single A).m_storage.m_segment_capacity =
            T0.m_storage.m_segment_capacity := rfl
        rw [hs0, hcc]
        exact hszB
      · intro i hi
        rw [hnseg] at hi
        have hi0 : i = 0 := by omega
        subst hi0
        have hs0 : (T0.load_empty_single A).m_storage.m_segment_sizes 0 =
            A.length := rfl
        rw [hs0]
        omega
    · rw [if_neg hsingle]
      have hul : DensityBounds.get_upper_threshold_leaves = 23 / 25 := rfl
      rw [hul] at hsingle
      push_neg at hsingle
      have hF0 : 23 * T0.m_storage.m_segment_capacity < 25 * A.length := by
        have hq : ((23 * T0.m_storage.m_segment_capacity : ℕ) : ℚ) <
            ((25 * A.length : ℕ) : ℚ) := by
          push_cast
          linarith [hsingle]
        exact_mod_cast hq
      obtain ⟨X, hX⟩ : ∃ X, X = Int.toNat ⌈(A.length : ℚ) /
          ((DensityBounds.get_upper_threshold_root +
            DensityBounds.get_upper_threshold_leaves) / 2)⌉ := ⟨_, rfl⟩
      obtain ⟨ns, hnsdef⟩ : ∃ n,
          n = hyperceil X / T0.m_storage.m_segment_capacity := ⟨_, rfl⟩
      have htd : ((DensityBounds.get_upper_threshold_root +
          DensityBounds.get_upper_threshold_leaves) / 2 : ℚ) = 167 / 200 := by
        norm_num [DensityBounds.get_upper_threshold_root,
          DensityBounds.get_upper_threshold_leaves]
      have hdiv : (A.length : ℚ) / (167 / 200) = 200 * (A.length : ℚ) / 167 := by
        ring
      have h167 : X = Int.toNat ⌈200 * (A.length : ℚ) / 167⌉ := by
        rw [hX, htd, hdiv]
      have hql : (0:ℚ) < (A.length : ℚ) := by
        exact_mod_cast Nat.pos_of_ne_zero hA
      have hc1 := Int.le_ceil (200 * (A.length : ℚ) / 167)
      have hc2 := Int.ceil_lt_add_one (200 * (A.length : ℚ) / 167)
      have hcpos : (0:ℤ) < ⌈200 * (A.length : ℚ) / 167⌉ :=
        Int.ceil_pos.mpr (by positivity)
      have hXc : ((X:ℕ):ℤ) = ⌈200 * (A.length : ℚ) / 167⌉ := by
        rw [h167]
        exact Int.toNat_of_nonneg (by omega)
      have hcast : ((X:ℕ):ℚ) = ((⌈200 * (A.length : ℚ) / 167⌉ : ℤ) : ℚ) := by
        exact_mod_cast hXc
      have hlow : 200 * A.length ≤ 167 * X := by
        have hq : ((200 * A.length : ℕ) : ℚ) ≤ ((167 * X : ℕ) : ℚ) := by
          push_cast
          push_cast at hcast
          rw [hcast]
          linarith [hc1]
        exact_mod_cast hq
      have hhigh : 167 * X < 200 * A.length + 167 := by
        have hq : ((167 * X : ℕ) : ℚ) < ((200 * A.length + 167 : ℕ) : ℚ) := by
          push_cast
          push_cast at hcast
          rw [hcast]
          linarith [hc2]
        exact_mod_cast hq
      obtain ⟨hXle, hhcpos, hhclt, k, hk⟩ := hyperceil_spec X
      have hX1 : 1 ≤ X := by omega
      have hcapub : hyperceil X ≤ 2 * X - 1 := by
        have := hhclt hX1
        omega
      obtain ⟨-, -, -, b, hbpow⟩ := hyperceil_spec s
      have hcapB : T0.m_storage.m_segment_capacity = 2 ^ b := by
        rw [hcap, hbpow]
      have hBX : T0.m_storage.m_segment_capacity < X := by omega
      have hBltcap : T0.m_storage.m_segment_capacity < hyperceil X := by omega
      have hbk : b < k := by
        by_contra hcon
        push_neg at hcon
        have hple := Nat.pow_le_pow_right (by norm_num : 1 ≤ 2) hcon
        rw [hcapB, hk] at hBltcap
        omega
      have hnspow : ns = 2 ^ (k - b) := by
        rw [hnsdef, hk, hcapB]
        exact Nat.pow_div (le_of_lt hbk) (by norm_num)
      have hnse : ns % 2 = 0 := by
        have h2 : ns = 2 * 2 ^ (k - b - 1) := by
          rw [hnspow, show k - b = (k - b - 1) + 1 by omega, pow_succ']
          have e : k - b - 1 + 1 - 1 = k - b - 1 := by omega
          rw [e]
        omega
      have hns0 : 0 < ns := by
        rw [hnspow]
        positivity
      have hnsBcap : ns * T0.m_storage.m_segment_capacity = hyperceil X := by
        rw [hnspow, hcapB, hk, ← pow_add]
        congr 1
        omega
      have hub : A.length ≤ ns * T0.m_storage.m_segment_capacity := by
        rw [hnsBcap]
        omega
      have hnslesz : ns ≤ A.length := by
        have h32 : 32 * ns ≤ T0.m_storage.m_segment_capacity * ns :=
          Nat.mul_le_mul_right ns hc32
        have hcn : T0.m_storage.m_segment_capacity * ns =
            ns * T0.m_storage.m_segment_capacity := Nat.mul_comm _ _
        omega
      have hns : ns = hyperceil (Int.toNat ⌈(A.length : ℚ) /
          ((DensityBounds.get_upper_threshold_root +
            DensityBounds.get_upper_threshold_leaves) / 2)⌉) /
          T0.m_storage.m_segment_capacity := by
        rw [hnsdef, hX]
      obtain ⟨hcontent, hnseq2, hcard2, hcap2, hszle, hszpos2⟩ :=
        load_empty_multi_content T0 A ns hns hns0 hnse hub
      refine loaded_iterate_eq _ A hA hcontent hcard2 (by rw [hnseq2]; omega)
        ?_ ?_ (Or.inl (by rw [hnseq2]; exact hnse)) hbounds
      · intro i hi
        rw [hcap2]
        exact hszle i
      · intro i hi
        rw [hnseq2] at hi
        exact hszpos2 hnslesz i hi

/-- Witness for C7: a fresh 32-capacity index loads the sorted batch
`[(1, 10), (2, 20)]` and iterates it back verbatim. -/
theorem claim_C7_witness :
    BTreePMACC7.new 32 1 4096 = .ok c3_start ∧
    ([((1:Int), (10:Int)), (2, 20)].Pairwise fun a b => a.1 ≤ b.1) ∧
    (∀ kv ∈ [((1:Int), (10:Int)), (2, 20)],
      BTreePMACC7.int64_min ≤ kv.1 ∧ kv.1 ≤ int64_max) ∧
    (c3_start.load_sorted_empty [((1:Int), (10:Int)), (2, 20)]).iterate =
      [((1:Int), (10:Int)), (2, 20)] :=
  ⟨by rfl, by decide, by decide,
   claim_C7_load_sorted_iterate 32 1 4096 c3_start (by rfl) _ (by decide)
     (by decide)⟩

/-- **C8** (counterexample): the claim fails in the reachable
configuration where an extent holds exactly one segment
(`segments_per_extent = 1`).  `PMA::PMA` accepts `B = 512` with one
4096-byte page per extent (`hyperceil 512 = 512` lies in `[32, 65535]`,
`hyperceil 1 = 1`, and `4096 % (512·8) = 0`); at two segments the
workspace is rewired (`2·512·8 ≥ 4096`) and a two-segment window spread
takes the rewiring path with `spe = extent_size / (B·8) = 1`.  There the
pair-copy loop of `spread_elements` starts at `output_segment_id =
spe − 2 = −1` and never runs, `m_position` never advances,
`get_current_extent` never drops below the last extent, so
`reclaim_past_extents` releases nothing: both acquired buffers are still
outstanding when the spread-window loop returns, and the used-buffer
assertions would fail.  The window below satisfies every geometric
hypothesis of the amended theorem except `2 ≤ spe`: segment 0 full with
512 elements, segment 1 with one element, cardinality 513. -/
theorem claim_C8_counterexample :
    (32 ≤ hyperceil 512 ∧ hyperceil 512 ≤ 65535 ∧ hyperceil 512 = 512 ∧
      hyperceil 1 = 1 ∧ 4096 % (hyperceil 512 * 8) = 0) ∧
    PMA.use_rewired_memory 512 1 4096 2 = true ∧
    2 * 512 * 8 ≥ 1 * 4096 ∧
    (1 * 4096) / (512 * 8) = 1 ∧
    (0 : ℕ) % 2 = 0 ∧ (2 : ℕ) % 1 = 0 ∧ (0 : ℕ) < 2 / 1 ∧
    (∀ t : ℕ, 0 ≤ t → t < 0 + 2 →
      0 < (fun u : ℕ => if u = 0 then 512 else 1) t) ∧
    (∀ t : ℕ, 0 ≤ t → t < 0 + 2 →
      (fun u : ℕ => if u = 0 then 512 else 1) t ≤ 512) ∧
    sumSizes (fun u : ℕ => if u = 0 then 512 else 1) 0 (0 + 2) = 513 ∧
    (SpreadWithRewiring.swr_window_loop 512 0 1 2
      (fun u : ℕ => if u = 0 then 512 else 1)
      (513 / (2 / 1)) (513 % (2 / 1))
      (2 / 1 + 2) (((2 / 1 : ℕ) : Int) - 1)
      { keys := fun _ => (0 : Int), values := fun _ => (0 : Int),
        position := ((0 + 2 - 1 : ℕ) : Int) * ((512 : ℕ) : Int) +
          (((fun u : ℕ => if u = 0 then 512 else 1) (0 + 2 - 1) : ℕ) : Int),
        extents_to_rewire := [] }).extents_to_rewire.length = 2 := by
  refine ⟨⟨by decide, by decide, by decide, by decide, by decide⟩,
    by decide, by decide, by decide, by decide, by decide, by decide,
    ?_, ?_, by decide, ?_⟩
  · intro t _ ht
    dsimp only []
    split_ifs <;> omega
  · intro t _ ht
    dsimp only []
    split_ifs <;> omega
  · rfl
